import Mathlib

/-!
# Doodle3D/CAL — `src/core/group.js`

A shallow embedding of the `Group` class, the scene-graph node of the canvas
animation library, and machine-checked statements about it.

* Objects live in a heap indexed by references (`Ref`); a JavaScript reference
  comparison (`indexOf`, `===`) is equality of references.  The heap (`World`)
  stores one map per field, and a trace of the calls made.
* Numbers are exact: depths and times are integers, coordinates and lengths
  are rationals.
* `add`, `remove`, `sort`: the `init` and `remove` hooks of a child that is a
  `Group` are `Group.init` and `Group.remove`; the hooks of any other object
  are calls recorded in the trace, and do not call back into the Group.
* `handleEvent`: the fields of the Group the handler reads and writes
  (`Input`) and the calls of the dispatch methods it makes, in order, with
  their arguments (`Dispatch`).
* `keyDown`, ..., `touchEnd`: the loop over the children, with handlers that
  may change the heap in any way (`Handlers`).
* `step`, `draw`: with the methods that objects define themselves as
  functions on the heap (`Own`); nested calls of `Group.step`, `Group.draw`
  and `Group.remove` are bounded by a fuel argument.
* The classes `Surface`, `Vector`, `Matrix` and the table `KeyLookUp` are
  imported by `group.js` from files that are not part of the sources: what
  `group.js` uses of them is a parameter or is modelled from the spec.
-/

namespace CAL

/-! ## Data model -/

/-- A reference to a JavaScript object. -/
abbrev Ref := Nat

/-- Overwrite one entry of a field map. -/
def upd {α : Type} (f : Ref → α) (r : Ref) (v : α) : Ref → α :=
  fun r' => if r' = r then v else f r'

/-- Modelled from the spec: the 2-component vector of `../math/vector.js`,
which is not part of the sources, with exact rational components. -/
structure Vector where
  x : ℚ
  y : ℚ
deriving DecidableEq

/-- Modelled from the spec: `position.subtract(start)`, the difference
`position − start` of `../math/vector.js`. -/
def Vector.subtract (v u : Vector) : Vector := ⟨v.x - u.x, v.y - u.y⟩

/-- Modelled from the spec: the vector that `identity()` of
`../math/vector.js` resets a vector to, the zero vector. -/
def Vector.zero : Vector := ⟨0, 0⟩

/-- The record `{position, start, delta, length, finger, down}` held in
`_mouse`, and with an `identifier` in every entry of `_touches`. -/
structure Pointer where
  position : Vector
  start : Vector
  delta : Vector
  length : ℚ
  finger : Nat
  identifier : Option Nat
  down : Bool
deriving DecidableEq

/-- Modelled from the spec: the affine transform of `../math/matrix.js`, which
is not part of the sources; it maps `(x, y)` to
`(a x + c y + tx, b x + d y + ty)`. -/
structure Matrix where
  a : ℚ
  b : ℚ
  c : ℚ
  d : ℚ
  tx : ℚ
  ty : ℚ
deriving DecidableEq

/-- Modelled from the spec: `point.applyMatrix(matrix)` of
`../math/vector.js`, the image of the point under the transform. -/
def Vector.applyMatrix (v : Vector) (m : Matrix) : Vector :=
  ⟨m.a * v.x + m.c * v.y + m.tx, m.b * v.x + m.d * v.y + m.ty⟩

/-- The `context` argument of `draw`: `undefined`, or the field `context` of a
surface owning Group. -/
inductive Context where
  | undefined
  | of (surface : Ref)
deriving DecidableEq

/-- The `matrix` argument of `draw`: `undefined`, an object used as a matrix,
or the value of `object.multiplyMatrix(matrix)`. -/
inductive Transform where
  | undefined
  | of (object : Ref)
  | product (object : Ref) (matrix : Transform)
deriving DecidableEq

/-- A call that leaves the methods modelled here, or a call between them that
the statements below count. -/
inductive Call where
  /-- The hook `object.init(parent)` was invoked by `parent.add`. -/
  | init (object parent : Ref)
  /-- The hook `object.remove(parent)` was invoked by `parent.remove`. -/
  | remove (object parent : Ref)
  /-- The call `object.step(deltaTime, parent)` made by `parent.step`. -/
  | step (object parent : Ref) (deltaTime : Int)
  /-- The call `self.clear()` made by `self.step`. -/
  | clear (self : Ref)
  /-- The call `self.draw()` made by `self.step`. -/
  | drawSelf (self : Ref)
  /-- The call `object.draw(context, matrix)` made by `parent.draw`. -/
  | draw (object parent : Ref) (context : Context) (matrix : Transform)
deriving DecidableEq

/-- The heap, one map per field, and the trace of calls made so far (latest
last).  The fields are those a `Group` gets from its constructor and those
that `add`, `remove`, `sort`, `step`, `draw` and the dispatch methods read on
a child.  `isGroup r` is `r instanceof Group` and `isMatrix r` is
`r instanceof Matrix`; `hasInit` and `hasRemove` say whether an object that is
not a `Group` has an `init` and a `remove` hook; `inverseMatrix r` is the value
of `r.inverseMatrix()`. -/
structure World where
  isGroup : Ref → Bool
  isMatrix : Ref → Bool
  active : Ref → Bool
  visible : Ref → Bool
  depth : Ref → Option Int
  parent : Ref → Option Ref
  objects : Ref → List Ref
  useCanvas : Ref → Bool
  clearCanvas : Ref → Bool
  drawCanvas : Ref → Bool
  autoClearCanvas : Ref → Bool
  autoDrawCanvas : Ref → Bool
  hasInit : Ref → Bool
  hasRemove : Ref → Bool
  inverseMatrix : Ref → Matrix
  sx : Ref → ℚ
  sy : Ref → ℚ
  calls : List Call

/-- Append a call to the trace. -/
def World.record (w : World) (c : Call) : World :=
  { w with calls := w.calls ++ [c] }

/-! ## The child list: `add`, `remove`, `sort` -/

/-- The sort key `({depth: a = 0}) => a`: a missing depth counts as 0. -/
def depthOf (w : World) (r : Ref) : Int := (w.depth r).getD 0

/-- The call `list.sort((a, b) => a.depth - b.depth)`: a stable sort by
non-decreasing depth. -/
def sortedByDepth (w : World) (list : List Ref) : List Ref :=
  list.insertionSort (fun a b => depthOf w a ≤ depthOf w b)

/-- The method `Group.sort`: `this.objects.sort(...)` by depth. -/
def sort (self : Ref) (w : World) : World :=
  { w with objects := upd w.objects self (sortedByDepth w (w.objects self)) }

/-- The method `Group.init`, the `init` hook of a child that is a `Group`. -/
def init (self : Ref) (w : World) : World :=
  { w with useCanvas := upd w.useCanvas self false }

/-- The test `object.init` of `add`: does the object expose an `init` hook. -/
def exposesInit (w : World) (object : Ref) : Bool := w.isGroup object || w.hasInit object

/-- The test `object.remove !== undefined` of `remove`. -/
def exposesRemove (w : World) (object : Ref) : Bool := w.isGroup object || w.hasRemove object

/-- The statements `object.parent = this; this.objects.push(object)` of `add`. -/
def attach (self object : Ref) (w : World) : World :=
  { w with parent := upd w.parent object (some self),
           objects := upd w.objects self (w.objects self ++ [object]) }

/-- The call `object.init(this)` of `add`: `Group.init` when the object is a
`Group`, otherwise a hook of the object, recorded in the trace. -/
def callInit (self object : Ref) (w : World) : World :=
  if w.isGroup object then init object (w.record (Call.init object self))
  else w.record (Call.init object self)

/-- One iteration of the loop of `Group.add`. -/
def addOne (self : Ref) (w : World) (object : Ref) : World :=
  if object ∈ w.objects self then w
  else if exposesInit w object then callInit self object (attach self object w)
  else attach self object w

/-- The method `Group.add(...objects)`. -/
def add (self : Ref) (objects : List Ref) (w : World) : World :=
  sort self (objects.foldl (addOne self) w)

/-- The statements `this.objects.splice(index, 1); object.parent = false` of
`remove`, where `index` is the first index of the object. -/
def detach (self object : Ref) (w : World) : World :=
  { w with objects := upd w.objects self ((w.objects self).erase object),
           parent := upd w.parent object none }

/-- The loop of `Group.remove`, given what the hook `object.remove(this)` does. -/
def removeWith (hook : Ref → Ref → World → Option World) (self : Ref) :
    List Ref → World → Option World
  | [], w => some w
  | object :: rest, w =>
    if object ∈ w.objects self then
      if (detach self object w).active object && exposesRemove (detach self object w) object then
        (hook object self ((detach self object w).record (Call.remove object self))).bind
          (removeWith hook self rest)
      else removeWith hook self rest (detach self object w)
    else removeWith hook self rest w

/-- The method `Group.remove(...objects)`.  The hook of a child that is a
`Group` is `Group.remove` itself, called on the child with the parent as its
argument; the first argument bounds the depth of these nested calls, and the
result is `none` when the bound is reached.  The hook of any other object is
recorded in the trace. -/
def remove : Nat → Ref → List Ref → World → Option World
  | 0, _, _, _ => none
  | fuel + 1, self, objects, w =>
    removeWith
      (fun object parent w' =>
        if w'.isGroup object then remove fuel object [parent] w' else some w')
      self objects w

/-- A call of `add` or `remove` with its arguments. -/
inductive Edit where
  | add (objects : List Ref)
  | remove (objects : List Ref)

/-- Perform the call `self.add(...)` or `self.remove(...)`. -/
def Edit.run (fuel : Nat) (self : Ref) : Edit → World → Option World
  | Edit.add objects, w => some (CAL.add self objects w)
  | Edit.remove objects, w => CAL.remove fuel self objects w

/-- Perform a sequence of calls, each on the Group named with it. -/
def runEdits (fuel : Nat) : List (Ref × Edit) → World → Option World
  | [], w => some w
  | (self, e) :: rest, w => (e.run fuel self w).bind (runEdits fuel rest)

/-- The child list of `g` is sorted by non-decreasing depth. -/
def SortedByDepth (w : World) (g : Ref) : Prop :=
  (w.objects g).Sorted (fun a b => depthOf w a ≤ depthOf w b)

/-- A heap in which no object has been created yet. -/
def World.blank : World where
  isGroup := fun _ => false
  isMatrix := fun _ => false
  active := fun _ => false
  visible := fun _ => false
  depth := fun _ => none
  parent := fun _ => none
  objects := fun _ => []
  useCanvas := fun _ => false
  clearCanvas := fun _ => false
  drawCanvas := fun _ => false
  autoClearCanvas := fun _ => false
  autoDrawCanvas := fun _ => false
  hasInit := fun _ => false
  hasRemove := fun _ => false
  inverseMatrix := fun _ => ⟨1, 0, 0, 1, 0, 0⟩
  sx := fun _ => 1
  sy := fun _ => 1
  calls := []

/-- The constructor `new Group({useCanvas, autoClearCanvas, autoDrawCanvas})`,
the new object being stored at `self`. -/
def construct (self : Ref) (useCanvas autoClearCanvas autoDrawCanvas : Bool) (w : World) :
    World :=
  { w with isGroup := upd w.isGroup self true,
           isMatrix := upd w.isMatrix self true,
           active := upd w.active self true,
           visible := upd w.visible self true,
           objects := upd w.objects self [],
           useCanvas := upd w.useCanvas self useCanvas,
           clearCanvas := upd w.clearCanvas self true,
           drawCanvas := upd w.drawCanvas self true,
           autoClearCanvas := upd w.autoClearCanvas self autoClearCanvas,
           autoDrawCanvas := upd w.autoDrawCanvas self autoDrawCanvas }

/-- A plain child object stored at `self`: active, visible, with the given
depth and the given `init` and `remove` hooks. -/
def plainObject (self : Ref) (depth : Option Int) ( hasInit hasRemove : Bool) (w : World) :
    World :=
  { w with active := upd w.active self true,
           visible := upd w.visible self true,
           depth := upd w.depth self depth,
           hasInit := upd w.hasInit self hasInit,
           hasRemove := upd w.hasRemove self hasRemove }

/-! ### Predicates on the child lists -/

/-- The order by depth is total. -/
instance depthLe_total (w : World) : IsTotal Ref (fun a b => depthOf w a ≤ depthOf w b) :=
  ⟨fun a b => le_total (depthOf w a) (depthOf w b)⟩

/-- The order by depth is transitive. -/
instance depthLe_trans (w : World) : IsTrans Ref (fun a b => depthOf w a ≤ depthOf w b) :=
  ⟨fun _ _ _ h₁ h₂ => le_trans h₁ h₂⟩

/-- Between `w` and `w'` every child list only lost entries and no depth changed. -/
def Shrinks (w w' : World) : Prop :=
  ∀ r, (w'.objects r).Sublist (w.objects r) ∧ w'.depth r = w.depth r

/-- The child list of `g` is sorted by depth and lists no object twice. -/
def ChildListOk (w : World) (g : Ref) : Prop :=
  SortedByDepth w g ∧ (w.objects g).Nodup

/-- Every listed object points back to the Group that lists it. -/
def ParentsMatch (w : World) : Prop :=
  ∀ g x, x ∈ w.objects g → w.parent x = some g

/-- No child list lists an object twice. -/
def NoDuplicates (w : World) : Prop :=
  ∀ g, (w.objects g).Nodup

/-- No Group other than `g` lists one of the objects. -/
def Exclusive (w : World) (g : Ref) (objects : List Ref) : Prop :=
  ∀ x ∈ objects, ∀ g', g' ≠ g → x ∉ w.objects g'

/-- Along the sequence of calls, `add` is only called with objects that no
other Group lists at that moment. -/
def Admissible (fuel : Nat) : List (Ref × Edit) → World → Prop
  | [], _ => True
  | (g, Edit.add objects) :: rest, w =>
    Exclusive w g objects ∧ Admissible fuel rest (add g objects w)
  | (g, Edit.remove objects) :: rest, w =>
    ∀ w', remove fuel g objects w = some w' → Admissible fuel rest w'

/-! ### Concrete scenes -/

/-- Two Groups, stored at 0 and 1, and a plain object at 2. -/
def sceneTwoGroups : World :=
  plainObject 2 none false false
    (construct 1 true false false (construct 0 true false false World.blank))

/-- A Group at 0 and plain objects at 1, 2, 3 with depths 3, none and -1; the
objects at 1 and 2 have an `init` hook, the objects at 2 and 3 a `remove` hook. -/
def sceneDepths : World :=
  plainObject 3 (some (-1)) false true
    (plainObject 2 none true true
      (plainObject 1 (some 3) true false (construct 0 true false false World.blank)))

/-- The assignment `object.depth = depth`. -/
def setDepth (object : Ref) (depth : Option Int) (w : World) : World :=
  { w with depth := upd w.depth object depth }

/-- The scene after `g.add(a, b); a.depth = 5`, for a Group `g` at 0 and
objects `a` at 1 and `b` at 2 with depth 0. -/
def sceneDepthChanged : World :=
  setDepth 1 (some 5)
    (add 0 [1, 2]
      (plainObject 2 (some 0) false false
        (plainObject 1 (some 0) false false (construct 0 true false false World.blank))))

/-! ## Device events: `handleEvent` -/

/-- The fields of `this.image` read by `handleEvent`. -/
structure Image where
  offsetLeft : ℚ
  offsetTop : ℚ
  width : ℚ
  height : ℚ
  clientWidth : ℚ
  clientHeight : ℚ
deriving DecidableEq

/-- An entry of `event.touches`. -/
structure Contact where
  identifier : Nat
  pageX : ℚ
  pageY : ℚ
deriving DecidableEq

/-- A device event, by `event.type`.  The `focus` event carries the value that
`new Date().getTime()` returns while it is handled; `other` is an event of
any type `handleEvent` has no case for. -/
inductive Event where
  | mousedown (pageX pageY : ℚ)
  | mouseup (pageX pageY : ℚ)
  | mouseout (pageX pageY : ℚ)
  | mousemove (pageX pageY : ℚ)
  | touchstart (touches : List Contact)
  | touchmove (touches : List Contact)
  | touchend (touches : List Contact)
  | keydown (keyCode : Nat)
  | keyup (keyCode : Nat)
  | blur
  | focus (now : Int)
  | other
deriving DecidableEq

/-- A call of one of the dispatch methods of the Group made by `handleEvent`,
with its arguments as they are at the call.  The `keysDown` field of a key
event is the array `_keysDown` itself, not a copy, and is not repeated here. -/
inductive Dispatch where
  | mouseDown (mouse : Pointer) (finger : Nat)
  | mouseUp (mouse : Pointer) (finger : Nat)
  | mouseMove (mouse : Pointer) (finger : Option Nat)
  | touchStart (touches : List Pointer)
  | touchMove (touches : List Pointer)
  | touchEnd (touches : List Pointer)
  | keyDown (key : Option String) (keyCode : Nat)
  | keyUp (key : Option String) (keyCode : Nat)
deriving DecidableEq

/-- The fields of a Group that `handleEvent` reads and writes.  `mouse` is the
object `this.mouse` that `Surface` provides, with its `startX` and `startY`. -/
structure Input where
  useCanvas : Bool
  mouse : Pointer
  mouseStartX : ℚ
  mouseStartY : ℚ
  _mouse : Pointer
  _touches : List Pointer
  _lastTime : Int
  _keysDown : Nat → Bool
  focus : Bool
  image : Image

/-- What `handleEvent` imports: the table `KeyLookUp` of `./utils.js` and the
method `distanceTo` of `../math/vector.js`. -/
structure Imports where
  KeyLookUp : Nat → Option String
  distanceTo : Vector → Vector → ℚ

/-- The canvas x-coordinate `image.width / image.clientWidth * offsetX`. -/
def canvasX (image : Image) (pageX : ℚ) : ℚ :=
  image.width / image.clientWidth * (pageX - image.offsetLeft)

/-- The canvas y-coordinate `image.height / image.clientHeight * offsetY`. -/
def canvasY (image : Image) (pageY : ℚ) : ℚ :=
  image.height / image.clientHeight * (pageY - image.offsetTop)

/-- The string `String(n)` of a finger index, as its characters. -/
def stringOf (n : Nat) : List Char := Nat.toDigits 10 n

/-- The comparison `a <= b` of two strings by their code units. -/
def codeUnitsLe : List Char → List Char → Bool
  | [], _ => true
  | _ :: _, [] => false
  | a :: as, b :: bs =>
    if a.toNat < b.toNat then true
    else if b.toNat < a.toNat then false
    else codeUnitsLe as bs

/-- The call `fingers.sort()`: without a comparator, `Array.prototype.sort`
orders the elements by their string forms. -/
def defaultSort (fingers : List Nat) : List Nat :=
  fingers.insertionSort (fun a b => codeUnitsLe (stringOf a) (stringOf b) = true)

/-- The loop `for (i = 0; i < fingers.length; i ++) if (i !== fingers[i])
{ finger = i; break; }`, started at index `i` on the rest of the array. -/
def firstHole : Nat → List Nat → Option Nat
  | _, [] => none
  | i, f :: rest => if i ≠ f then some i else firstHole (i + 1) rest

/-- The finger index that `touchstart` gives a new contact. -/
def fingerIndex (touches : List Pointer) : Nat :=
  (firstHole 0 (defaultSort (touches.map fun t => t.finger))).getD touches.length

/-- One iteration of the loop of `touchstart`. -/
def touchStartOne (identifiers : List (Option Nat)) (st : Input × List Dispatch)
    (touch : Contact) : Input × List Dispatch :=
  if some touch.identifier ∈ identifiers then st
  else
    let x := canvasX st.1.image touch.pageX
    let y := canvasY st.1.image touch.pageY
    let finger := fingerIndex st.1._touches
    let touchObject : Pointer :=
      { position := ⟨x, y⟩, start := ⟨x, y⟩, delta := ⟨0, 0⟩, length := 0, finger := finger,
        identifier := some touch.identifier, down := true }
    ({ st.1 with mouseStartX := x, mouseStartY := y,
                 _touches := st.1._touches ++ [touchObject] },
      st.2 ++ [Dispatch.mouseDown touchObject finger])

/-- One iteration of the loop of `touchmove`. -/
def touchMoveOne (lib : Imports) (identifiers : List (Option Nat))
    (st : Input × List Dispatch) (touch : Contact) : Input × List Dispatch :=
  let index := identifiers.indexOf (some touch.identifier)
  match st.1._touches.get? index with
  | none => st
  | some touchObject =>
    let position : Vector := ⟨canvasX st.1.image touch.pageX, canvasY st.1.image touch.pageY⟩
    let delta := lib.distanceTo touchObject.position position
    if 0 < delta then
      let moved : Pointer :=
        { touchObject with length := touchObject.length + delta, position := position,
                           delta := position.subtract touchObject.start }
      ({ st.1 with _touches := st.1._touches.set index moved },
        st.2 ++ [Dispatch.mouseMove moved (some index)])
    else st

/-- The loop of `touchend` over the copy `Array.from(this._touches)`.  The
entries are distinct objects, so the index `this._touches.indexOf(touchObject)`
of an entry in the live array is the number of earlier entries still in it,
the length of `kept`. -/
def touchEndLoop (identifiers : List Nat) :
    List Pointer → List Pointer → List Dispatch → List Pointer × List Dispatch
  | kept, [], trace => (kept, trace)
  | kept, touchObject :: rest, trace =>
    if touchObject.identifier ∈ identifiers.map some then
      touchEndLoop identifiers (kept ++ [touchObject]) rest trace
    else
      touchEndLoop identifiers kept rest
        (trace ++ [Dispatch.mouseUp { touchObject with down := false } kept.length])

/-- The method `Group.handleEvent(event)`: the fields of the Group afterwards
and the dispatch calls made, in order. -/
def handleEvent (lib : Imports) (event : Event) (g : Input) : Input × List Dispatch :=
  if g.useCanvas then
    match event with
    | Event.mousedown pageX pageY =>
      let x := canvasX g.image pageX
      let y := canvasY g.image pageY
      ({ g with mouseStartX := x, mouseStartY := y,
                _mouse := { g._mouse with position := ⟨x, y⟩, start := ⟨x, y⟩,
                                          delta := Vector.zero, length := 0, down := true } },
        [Dispatch.mouseDown g.mouse 0])
    | Event.mouseup pageX pageY | Event.mouseout pageX pageY =>
      let x := canvasX g.image pageX
      let y := canvasY g.image pageY
      ({ g with _mouse := { g._mouse with position := ⟨x, y⟩, down := false,
                                          start := Vector.zero, delta := Vector.zero,
                                          length := 0 } },
        [Dispatch.mouseUp g.mouse 0])
    | Event.mousemove pageX pageY =>
      let position : Vector := ⟨canvasX g.image pageX, canvasY g.image pageY⟩
      let length := g._mouse.length + lib.distanceTo g._mouse.position position
      let delta := if g._mouse.down then position.subtract g._mouse.start else g._mouse.delta
      ({ g with _mouse := { g._mouse with length := length, position := position,
                                          delta := delta } },
        [Dispatch.mouseMove g.mouse none])
    | Event.touchstart touches =>
      let st := touches.foldl (touchStartOne (g._touches.map fun t => t.identifier)) (g, [])
      (st.1, st.2 ++ [Dispatch.touchStart st.1._touches])
    | Event.touchmove touches =>
      let st := touches.foldl (touchMoveOne lib (g._touches.map fun t => t.identifier)) (g, [])
      (st.1, st.2 ++ [Dispatch.touchMove st.1._touches])
    | Event.touchend touches =>
      let r := touchEndLoop (touches.map fun t => t.identifier) [] g._touches []
      ({ g with _touches := r.1 }, r.2 ++ [Dispatch.touchEnd r.1])
    | Event.keydown keyCode =>
      if g.useCanvas && !g._keysDown keyCode then
        ({ g with _keysDown := fun k => if k = keyCode then true else g._keysDown k },
          [Dispatch.keyDown (lib.KeyLookUp keyCode) keyCode])
      else (g, [])
    | Event.keyup keyCode =>
      if g.useCanvas then
        ({ g with _keysDown := fun k => if k = keyCode then false else g._keysDown k },
          [Dispatch.keyUp (lib.KeyLookUp keyCode) keyCode])
      else (g, [])
    | Event.blur => ({ g with focus := false }, [])
    | Event.focus now => ({ g with _lastTime := now, focus := true }, [])
    | Event.other => (g, [])
  else (g, [])

/-- Handle a sequence of device events: the fields afterwards and, for each
event in order, the dispatch calls it made. -/
def handleEvents (lib : Imports) : List Event → Input → Input × List (List Dispatch)
  | [], g => (g, [])
  | event :: rest, g =>
    ((handleEvents lib rest (handleEvent lib event g).1).1,
      (handleEvent lib event g).2 :: (handleEvents lib rest (handleEvent lib event g).1).2)

/-- A pointer record at rest: `{position: (0, 0), start: (0, 0), delta: (0, 0),
length: 0, finger: 0, down: false}`. -/
def Pointer.rest : Pointer :=
  { position := ⟨0, 0⟩, start := ⟨0, 0⟩, delta := ⟨0, 0⟩, length := 0, finger := 0,
    identifier := none, down := false }

/-- The input fields of a surface owning Group as its constructor leaves them,
on a canvas of 200 by 100 pixels shown at that size at the page origin. -/
def Input.fresh : Input :=
  { useCanvas := true, mouse := Pointer.rest, mouseStartX := 0, mouseStartY := 0,
    _mouse := Pointer.rest, _touches := [], _lastTime := 0, _keysDown := fun _ => false,
    focus := true,
    image := { offsetLeft := 0, offsetTop := 0, width := 200, height := 100,
               clientWidth := 200, clientHeight := 100 } }

/-- Imports for concrete runs: no key names, and the distance along the axes,
which is the distance of `../math/vector.js` for moves along one axis. -/
def Imports.axes : Imports :=
  { KeyLookUp := fun _ => none,
    distanceTo := fun p q => |p.x - q.x| + |p.y - q.y| }

/-- Touch contacts with the identifiers `n - 1, ..., 1, 0`, all at the page origin. -/
def contactsBelow : Nat → List Contact
  | 0 => []
  | n + 1 => ⟨n, 0, 0⟩ :: contactsBelow n

/-- A `touchstart` event reporting `n` contacts with the identifiers `0, ..., n - 1`. -/
def touchstartOf (n : Nat) : Event := Event.touchstart (contactsBelow n).reverse

/-- The registry entry of a contact that began at the page origin. -/
def entryAtOrigin (identifier finger : Nat) : Pointer :=
  { position := ⟨0, 0⟩, start := ⟨0, 0⟩, delta := ⟨0, 0⟩, length := 0, finger := finger,
    identifier := some identifier, down := true }

/-- The entry of the contact 1 after it moved from the origin to `(5, 0)`. -/
def entryMoved : Pointer :=
  { position := ⟨5, 0⟩, start := ⟨0, 0⟩, delta := ⟨5, 0⟩, length := 5, finger := 1,
    identifier := some 1, down := true }

/-- Contacts 0 and 1 begin, contact 0 ends, contact 1 moves to `(5, 0)`, and
contact 1 ends. -/
def twoFingerGesture : List Event :=
  [touchstartOf 2, Event.touchend [⟨1, 0, 0⟩], Event.touchmove [⟨1, 5, 0⟩], Event.touchend []]

/-- The per-finger dispatch calls for the contact `identifier`, as pairs of the
`finger` field of the snapshot and the `finger` argument of the call. -/
def fingersUsed (identifier : Nat) : List Dispatch → List (Nat × Option Nat)
  | [] => []
  | Dispatch.mouseDown mouse finger :: rest =>
    if mouse.identifier = some identifier then
      (mouse.finger, some finger) :: fingersUsed identifier rest
    else fingersUsed identifier rest
  | Dispatch.mouseUp mouse finger :: rest =>
    if mouse.identifier = some identifier then
      (mouse.finger, some finger) :: fingersUsed identifier rest
    else fingersUsed identifier rest
  | Dispatch.mouseMove mouse finger :: rest =>
    if mouse.identifier = some identifier then
      (mouse.finger, finger) :: fingersUsed identifier rest
    else fingersUsed identifier rest
  | _ :: rest => fingersUsed identifier rest

/-! ## Input dispatch: `keyDown`, ..., `touchEnd` -/

/-- The argument `{key, keyCode, keysDown}` of `keyDown` and `keyUp`. -/
structure KeyEvent where
  key : Option String
  keyCode : Nat
  keysDown : Nat → Bool

/-- The handlers the objects expose: `keyDown o` is the method `o.keyDown` when
`o.keyDown !== undefined`, as a function of its two arguments and of the heap
it runs on, giving the value it returns (as a truth value) and the heap it
leaves; likewise for the other seven.  A handler may do anything to the heap. -/
structure Handlers where
  keyDown : Ref → Option (KeyEvent → Ref → World → Bool × World)
  keyUp : Ref → Option (KeyEvent → Ref → World → Bool × World)
  mouseDown : Ref → Option (Pointer → Ref → World → Bool × World)
  mouseUp : Ref → Option (Pointer → Ref → World → Bool × World)
  mouseMove : Ref → Option (Pointer → Ref → World → Bool × World)
  touchStart : Ref → Option (List Pointer → Ref → World → Bool × World)
  touchMove : Ref → Option (List Pointer → Ref → World → Bool × World)
  touchEnd : Ref → Option (List Pointer → Ref → World → Bool × World)

/-- One invocation of a child's handler by a dispatch loop: the index of the
child in the copied child list, the child, the heap on which the handler was
invoked and whether it returned a truthy value. -/
structure Visit where
  index : Nat
  object : Ref
  before : World
  consumed : Bool

/-- The loop shared by the eight dispatch methods, over the children still to
visit: a child passing the `guard` on the current heap and exposing the
handler is invoked, and the loop breaks when the handler returns a truthy
value.  Returns the heap afterwards and the invocations made, in order. -/
def visitChildren (guard : World → Ref → Bool) (handler : Ref → Option (World → Bool × World)) :
    List (Nat × Ref) → World → World × List Visit
  | [], w => (w, [])
  | (i, object) :: rest, w =>
    match guard w object, handler object with
    | true, some h =>
      if (h w).1 then ((h w).2, [⟨i, object, w, true⟩])
      else
        ((visitChildren guard handler rest (h w).2).1,
          ⟨i, object, w, false⟩ :: (visitChildren guard handler rest (h w).2).2)
    | _, _ => visitChildren guard handler rest w

/-- The order `for (i = objects.length - 1; i >= 0; i --)` over the copy
`Array.from(this.objects)`: each child with its index, last child first. -/
def topmostFirst (objects : List Ref) : List (Nat × Ref) := objects.enum.reverse

/-- The record `{...mouse, position, start, delta, length}` that the pointer
and touch dispatch methods of `self` hand to the children. -/
def toLocal (w : World) (self : Ref) (mouse : Pointer) : Pointer :=
  { mouse with
    position := mouse.position.applyMatrix (w.inverseMatrix self),
    start := mouse.start.applyMatrix (w.inverseMatrix self),
    delta := (mouse.position.applyMatrix (w.inverseMatrix self)).subtract
      (mouse.start.applyMatrix (w.inverseMatrix self)),
    length := mouse.length * w.sx self * w.sy self }

/-- The method `Group.keyDown(key)`. -/
def keyDown (H : Handlers) (self : Ref) (key : KeyEvent) (w : World) : World × List Visit :=
  visitChildren (fun v o => v.active o) (fun o => (H.keyDown o).map fun h => h key self)
    (topmostFirst (w.objects self)) w

/-- The method `Group.keyUp(key)`. -/
def keyUp (H : Handlers) (self : Ref) (key : KeyEvent) (w : World) : World × List Visit :=
  visitChildren (fun v o => v.active o) (fun o => (H.keyUp o).map fun h => h key self)
    (topmostFirst (w.objects self)) w

/-- The method `Group.mouseDown(mouse, finger)`. -/
def mouseDown (H : Handlers) (self : Ref) (mouse : Pointer) (_finger : Option Nat) (w : World) :
    World × List Visit :=
  visitChildren (fun v o => !v.useCanvas o && v.active o)
    (fun o => (H.mouseDown o).map fun h => h (toLocal w self mouse) self)
    (topmostFirst (w.objects self)) w

/-- The method `Group.mouseUp(mouse, finger)`. -/
def mouseUp (H : Handlers) (self : Ref) (mouse : Pointer) (_finger : Option Nat) (w : World) :
    World × List Visit :=
  visitChildren (fun v o => !v.useCanvas o && v.active o)
    (fun o => (H.mouseUp o).map fun h => h (toLocal w self mouse) self)
    (topmostFirst (w.objects self)) w

/-- The method `Group.mouseMove(mouse, finger)`. -/
def mouseMove (H : Handlers) (self : Ref) (mouse : Pointer) (_finger : Option Nat) (w : World) :
    World × List Visit :=
  visitChildren (fun v o => !v.useCanvas o && v.active o)
    (fun o => (H.mouseMove o).map fun h => h (toLocal w self mouse) self)
    (topmostFirst (w.objects self)) w

/-- The method `Group.touchStart(touches)`. -/
def touchStart (H : Handlers) (self : Ref) (touches : List Pointer) (w : World) :
    World × List Visit :=
  visitChildren (fun v o => !v.useCanvas o && v.active o)
    (fun o => (H.touchStart o).map fun h => h (touches.map (toLocal w self)) self)
    (topmostFirst (w.objects self)) w

/-- The method `Group.touchMove(touches)`. -/
def touchMove (H : Handlers) (self : Ref) (touches : List Pointer) (w : World) :
    World × List Visit :=
  visitChildren (fun v o => !v.useCanvas o && v.active o)
    (fun o => (H.touchMove o).map fun h => h (touches.map (toLocal w self)) self)
    (topmostFirst (w.objects self)) w

/-- The method `Group.touchEnd(touches)`. -/
def touchEnd (H : Handlers) (self : Ref) (touches : List Pointer) (w : World) :
    World × List Visit :=
  visitChildren (fun v o => !v.useCanvas o && v.active o)
    (fun o => (H.touchEnd o).map fun h => h (touches.map (toLocal w self)) self)
    (topmostFirst (w.objects self)) w

/-- The truth value that the handler of `o` returns on the heap `v`. -/
def returned (handler : Ref → Option (World → Bool × World)) (o : Ref) (v : World) : Bool :=
  match handler o with
  | some h => (h v).1
  | none => false

/-- What the dispatch rule says of the invocations `visits` made for the child
list `objects`: the indices decrease strictly; every invoked child is the
child at its index, was eligible on the heap it was invoked on, and its
recorded result is what its handler returned; and after a handler returned a
truthy value no child of a lower index was invoked. -/
def FirstMatch (objects : List Ref) (eligible : World → Ref → Bool)
    (handler : Ref → Option (World → Bool × World)) (visits : List Visit) : Prop :=
  (visits.map fun v => v.index).Pairwise (fun i j => j < i) ∧
  (∀ v ∈ visits, objects[v.index]? = some v.object ∧ eligible v.before v.object = true ∧
    v.consumed = returned handler v.object v.before) ∧
  (∀ v ∈ visits, v.consumed = true → ∀ u ∈ visits, ¬ u.index < v.index)

/-- Handlers for a concrete run: the object `o` exposes `keyDown` and
`mouseDown` when `result o` is some value, which the handler returns without
changing the heap; no object exposes another handler. -/
def Handlers.constant (result : Ref → Option Bool) : Handlers :=
  { keyDown := fun o => (result o).map fun r _ _ w => (r, w),
    keyUp := fun _ => none,
    mouseDown := fun o => (result o).map fun r _ _ w => (r, w),
    mouseUp := fun _ => none,
    mouseMove := fun _ => none,
    touchStart := fun _ => none,
    touchMove := fun _ => none,
    touchEnd := fun _ => none }

/-- A Group at 0 with the plain children 1, 2, 3, 4 of depths 1, 2, 3, 4. -/
def sceneFourChildren : World :=
  add 0 [1, 2, 3, 4]
    (plainObject 4 (some 4) false false
      (plainObject 3 (some 3) false false
        (plainObject 2 (some 2) false false
          (plainObject 1 (some 1) false false
            (construct 0 true false false World.blank)))))

/-! ## The cycle: `step` and `draw` -/

/-- The `step` and `draw` methods that objects define themselves, as functions
of their arguments and of the heap they run on, giving the heap they leave.
A `Group` that defines none inherits `Group.step` and `Group.draw`. -/
structure Own where
  step : Ref → Option (Int → Ref → World → World)
  draw : Ref → Option (Context → Transform → World → World)

/-- The test `object.step !== undefined`. -/
def exposesStep (B : Own) (w : World) (object : Ref) : Bool :=
  w.isGroup object || (B.step object).isSome

/-- The test `object.draw !== undefined`. -/
def exposesDraw (B : Own) (w : World) (object : Ref) : Bool :=
  w.isGroup object || (B.draw object).isSome

/-- The loop of `Group.draw` over the copied child list, given what a call
`object.draw(context, matrix)` does. -/
def drawLoop (callDraw : Ref → Context → Transform → World → Option World) (B : Own)
    (self : Ref) (context : Context) (matrix : Transform) : List Ref → World → Option World
  | [], w => some w
  | object :: rest, w =>
    if w.visible object && exposesDraw B w object then
      if !w.useCanvas object && w.isMatrix object then
        (callDraw object context (Transform.product object matrix)
          (w.record (Call.draw object self context (Transform.product object matrix)))).bind
          (drawLoop callDraw B self context matrix rest)
      else
        (callDraw object context matrix
          (w.record (Call.draw object self context matrix))).bind
          (drawLoop callDraw B self context matrix rest)
    else drawLoop callDraw B self context matrix rest w

/-- The assignment `this.drawCanvas = false`. -/
def clearDrawFlag (self : Ref) (w : World) : World :=
  { w with drawCanvas := upd w.drawCanvas self false }

/-- The call `object.draw(context, matrix)`: it runs the method the object
defines itself, or `Group.draw`, given as `groupDraw`, for a `Group` that
defines none. -/
def callDraw (B : Own) (groupDraw : Ref → Context → Transform → World → Option World)
    (object : Ref) (context : Context) (matrix : Transform) (w : World) : Option World :=
  match B.draw object with
  | some f => some (f context matrix w)
  | none => if w.isGroup object then groupDraw object context matrix w else some w

/-- The method `Group.draw(context, matrix)`.  The first argument bounds the
depth of the nested calls of `Group.draw`, and the result is `none` when the
bound is reached. -/
def draw (B : Own) : Nat → Ref → Context → Transform → World → Option World
  | 0, _, _, _, _ => none
  | fuel + 1, self, context, matrix, w =>
    drawLoop (callDraw B (draw B fuel)) B self
      (if w.useCanvas self then Context.of self else context)
      (if w.useCanvas self then Transform.of self else matrix)
      (w.objects self) (clearDrawFlag self w)

/-- The first `if` of the body run for a child that is a non surface owning
`Group`: `if (object.clearCanvas || object.autoClearCanvas)
{ this.clearCanvas = true; object.clearCanvas = false; }`. -/
def propagateClear (self object : Ref) (w : World) : World :=
  if w.clearCanvas object || w.autoClearCanvas object then
    { w with clearCanvas := upd (upd w.clearCanvas self true) object false }
  else w

/-- The second `if`: `if (object.drawCanvas || object.autoDrawCanvas)
{ this.drawCanvas = true; object.drawCanvas = false; }`. -/
def propagateDraw (self object : Ref) (w : World) : World :=
  if w.drawCanvas object || w.autoDrawCanvas object then
    { w with drawCanvas := upd (upd w.drawCanvas self true) object false }
  else w

/-- The loop of `Group.step` over the copied child list, given what a call
`object.step(deltaTime, this)` does. -/
def stepLoop (callStep : Ref → Int → Ref → World → Option World) (B : Own) (self : Ref)
    (deltaTime : Int) : List Ref → World → Option World
  | [], w => some w
  | object :: rest, w =>
    if w.active object && exposesStep B w object then
      if w.isGroup object && !w.useCanvas object then
        (callStep object deltaTime self
          ((propagateDraw self object (propagateClear self object w)).record
            (Call.step object self deltaTime))).bind
          (stepLoop callStep B self deltaTime rest)
      else
        (callStep object deltaTime self (w.record (Call.step object self deltaTime))).bind
          (stepLoop callStep B self deltaTime rest)
    else stepLoop callStep B self deltaTime rest w

/-- The statement `if (this.clearCanvas || this.autoClearCanvas)
{ this.clearCanvas = false; this.clear(); }` of `step`; the call of `clear`,
a method of `Surface`, is recorded in the trace. -/
def stepClear (self : Ref) (w : World) : World :=
  if w.clearCanvas self || w.autoClearCanvas self then
    { w with clearCanvas := upd w.clearCanvas self false, calls := w.calls ++ [Call.clear self] }
  else w

/-- The statement `if (this.drawCanvas || this.autoDrawCanvas) { this.draw(); }`
of `step`; the call passes no arguments. -/
def stepDraw (B : Own) (fuel : Nat) (self : Ref) (w : World) : Option World :=
  if w.drawCanvas self || w.autoDrawCanvas self then
    callDraw B (draw B fuel) self Context.undefined Transform.undefined
      (w.record (Call.drawSelf self))
  else some w

/-- The end of `Group.step`, after the loop: `if (this.useCanvas) { ... }`. -/
def stepSurface (B : Own) (fuel : Nat) (self : Ref) (w : World) : Option World :=
  if w.useCanvas self then stepDraw B fuel self (stepClear self w) else some w

/-- The call `object.step(deltaTime, this)`: it runs the method the object
defines itself, or `Group.step`, given as `groupStep`, for a `Group` that
defines none. -/
def callStep (B : Own) (groupStep : Ref → Int → World → Option World)
    (object : Ref) (deltaTime : Int) (parent : Ref) (w : World) : Option World :=
  match B.step object with
  | some f => some (f deltaTime parent w)
  | none => if w.isGroup object then groupStep object deltaTime w else some w

/-- The method `Group.step(deltaTime)`.  The first argument bounds the depth
of the nested calls of `Group.step` and `Group.draw`, and the result is `none`
when the bound is reached. -/
def step (B : Own) : Nat → Ref → Int → World → Option World
  | 0, _, _, _ => none
  | fuel + 1, self, deltaTime, w =>
    (stepLoop (callStep B (step B fuel)) B self deltaTime (w.objects self) w).bind
      (stepSurface B fuel self)

/-- No object defines `step` or `draw` itself. -/
def Own.none : Own := { step := fun _ => Option.none, draw := fun _ => Option.none }

/-- Only the object `g` defines `step` itself: it sets its own `clearCanvas`. -/
def Own.requestsClear (g : Ref) : Own :=
  { step := fun o =>
      if o = g then some fun _ _ w => { w with clearCanvas := upd w.clearCanvas g true }
      else Option.none,
    draw := fun _ => Option.none }

/-- The assignments `g.clearCanvas = clear; g.drawCanvas = draw`. -/
def setFlags (g : Ref) (clear draw : Bool) (w : World) : World :=
  { w with clearCanvas := upd w.clearCanvas g clear, drawCanvas := upd w.drawCanvas g draw }

/-- A surface owning root at 0 with the child Group at 1, both without auto
flags and with both dirty flags clear. -/
def sceneRootChild : World :=
  setFlags 1 false false
    (setFlags 0 false false
      (add 0 [1] (construct 1 true false false (construct 0 true false false World.blank))))

/-- A surface owning root at 0 over the chain of Groups 1, 2, 3, each nested in
the one before, with the flags the constructor and `add` leave. -/
def sceneChain : World :=
  add 0 [1]
    (add 1 [2]
      (add 2 [3]
        (construct 3 true false false
          (construct 2 true false false
            (construct 1 true false false (construct 0 true false false World.blank))))))

/-! ### Predicates on the cycle -/

/-- The heap `w` with other dirty flags and another trace. -/
def repaint (w : World) (clearCanvas drawCanvas : Ref → Bool) (calls : List Call) : World :=
  { w with clearCanvas := clearCanvas, drawCanvas := drawCanvas, calls := calls }

/-- Is the call a call `object.step(deltaTime, parent)`. -/
def Call.isStep : Call → Bool
  | Call.step _ _ _ => true
  | _ => false

/-- Is the call a call `object.draw(context, matrix)` made by a parent. -/
def Call.isDraw : Call → Bool
  | Call.draw _ _ _ _ => true
  | _ => false

/-- The objects reached from `g` through at most `n` levels of child lists. -/
def descendants (w : World) : Nat → Ref → List Ref
  | 0, g => [g]
  | n + 1, g => g :: (w.objects g).flatMap (descendants w n)

/-- The object `g` and everything below it, fewer than `n` levels deep, is a
non surface owning `Group` that does not define `step` or `draw` itself. -/
def Tame (B : Own) (w : World) : Nat → Ref → Prop
  | 0, _ => False
  | n + 1, g =>
    B.step g = none ∧ B.draw g = none ∧ w.isGroup g = true ∧ w.useCanvas g = false ∧
      ∀ o ∈ w.objects g, Tame B w n o

/-- What a call of `step` on a tame subtree does: it returns, only dirty flags
inside the subtree change, and only `step` calls are made. -/
def StepsQuietly (n : Nat) (o : Ref) (v : World) (result : Option World) : Prop :=
  ∃ cc dc t, result = some (repaint v cc dc (v.calls ++ t)) ∧
    (∀ r, r ∉ descendants v n o → cc r = v.clearCanvas r ∧ dc r = v.drawCanvas r) ∧
    ∀ x ∈ t, Call.isStep x = true

/-- What a call of `draw` on a tame subtree does: it returns, only `drawCanvas`
flags inside the subtree change, and only `draw` calls on children are made. -/
def DrawsQuietly (n : Nat) (o : Ref) (v : World) (result : Option World) : Prop :=
  ∃ dc t, result = some (repaint v v.clearCanvas dc (v.calls ++ t)) ∧
    (∀ r, r ∉ descendants v n o → dc r = v.drawCanvas r) ∧
    ∀ x ∈ t, Call.isDraw x = true

/-! ## Further definitions -/

/-- The transform of a pure uniform scale by 2 with the translation `(10, 10)`. -/
def scaleTwoShiftTen : Matrix := ⟨2, 0, 0, 2, 10, 10⟩

/-- The matrix `inverse` undoes the transform `matrix` on every point. -/
def Inverts (inverse matrix : Matrix) : Prop :=
  ∀ p : Vector, (p.applyMatrix matrix).applyMatrix inverse = p

/-- The assignment of the value that `object.inverseMatrix()` returns. -/
def setInverseMatrix (object : Ref) (m : Matrix) (w : World) : World :=
  { w with inverseMatrix := upd w.inverseMatrix object m }

/-- Handlers for a concrete run: every object exposes `mouseDown`, which
returns a truthy value exactly when the snapshot it gets has the position,
start and delta given; no object exposes another handler. -/
def Handlers.expecting (position start delta : Vector) : Handlers :=
  { keyDown := fun _ => none,
    keyUp := fun _ => none,
    mouseDown := fun _ => some fun mouse _ w =>
      (decide (mouse.position = position ∧ mouse.start = start ∧ mouse.delta = delta), w),
    mouseUp := fun _ => none,
    mouseMove := fun _ => none,
    touchStart := fun _ => none,
    touchMove := fun _ => none,
    touchEnd := fun _ => none }

/-- The Group at 0 with the children 1, 2, 3, 4, scaled by 2 and shifted by
`(10, 10)`. -/
def sceneScaled : World :=
  setInverseMatrix 0 ⟨1 / 2, 0, 0, 1 / 2, -5, -5⟩ sceneFourChildren

/-- The method `Group.cycle()`, run when `new Date().getTime()` returns `now`:
the fields of the Group afterwards and the argument of the call
`this.step(deltaTime)`, if the call is made. -/
def cycle (now : Int) (g : Input) : Input × Option Int :=
  if g.focus then ({ g with _lastTime := now }, some (now - g._lastTime)) else (g, none)

/-- The Group at 0 with the children 1, 2, 3, 4 of depths 1, 2, 3, 4 and a new
plain object at 5 with the depth 2, not yet added. -/
def sceneFifthObject : World := plainObject 5 (some 2) false false sceneFourChildren

/-- The test `identifiers.indexOf(touchObject.identifier) !== -1` of `touchend`
and `touchmove`, for the identifiers of the contacts that an event reports. -/
def Pointer.reportedIn (touches : List Contact) (t : Pointer) : Bool :=
  decide (t.identifier ∈ (touches.map fun c => c.identifier).map some)

/-- The per-finger calls `this.mouseUp(touchObject, index)` for the entries
given, with the index arguments given. -/
def mouseUps (ended : List Pointer) (indices : List Nat) : List Dispatch :=
  List.zipWith (fun t i => Dispatch.mouseUp { t with down := false } i) ended indices

/-- The fields of a new surface owning Group after a `touchstart` event that
reports the contacts 0, 1 and 2. -/
def sceneThreeTouches : Input := (handleEvent Imports.axes (touchstartOf 3) Input.fresh).1

/-- The state of the loop of `touchmove` after the contacts `done` of the
event: the fields and the dispatch calls made so far. -/
def touchMoveState (lib : Imports) (g : Input) (done : List Contact) : Input × List Dispatch :=
  done.foldl (touchMoveOne lib (g._touches.map fun t => t.identifier)) (g, [])

/-- The canvas position `new Vector(x, y)` that `touchmove` computes for a contact. -/
def canvasPoint (image : Image) (touch : Contact) : Vector :=
  ⟨canvasX image touch.pageX, canvasY image touch.pageY⟩

/-- The entry `touchObject` after the statements `touchObject.length += delta;
touchObject.position.copy(position); touchObject.delta.copy(position.subtract(
touchObject.start))` of `touchmove`. -/
def movedTo (lib : Imports) (touchObject : Pointer) (position : Vector) : Pointer :=
  { touchObject with
    length := touchObject.length + lib.distanceTo touchObject.position position,
    position := position,
    delta := position.subtract touchObject.start }

/-! ### Predicates on `draw` and on the traversals -/

/-- The transform that the loop of `Group.draw` passes to the child `object`,
`matrix` being the transform the loop works with: `object.multiplyMatrix(matrix)`
for a `Matrix` that is not surface owning, and `matrix` otherwise. -/
def passedTransform (w : World) (object : Ref) (matrix : Transform) : Transform :=
  if !w.useCanvas object && w.isMatrix object then Transform.product object matrix else matrix

/-- The children of `self` that pass the test `object.visible && object.draw
!== undefined` of `Group.draw`, in the order of the child list. -/
def drawnChildren (B : Own) (w : World) (self : Ref) : List Ref :=
  (w.objects self).filter fun o => w.visible o && exposesDraw B w o

/-- The calls made by a run of the loop of `Group.draw` of `self` that calls
`draw` on the `children`, in order, with the given context and the transform
passed on from `matrix`, each call being followed by the calls made below it. -/
def drawTrace (w : World) (self : Ref) (context : Context) (matrix : Transform)
    (children : List Ref) (below : List (List Call)) : List Call :=
  (List.zipWith (fun o s => Call.draw o self context (passedTransform w o matrix) :: s)
    children below).flatten

/-- The Groups nested below `g` through visible children are fewer than `n`
levels deep. -/
def nestedWithin (w : World) : Nat → Ref → Bool
  | 0, _ => false
  | n + 1, g => (w.objects g).all fun o => !(w.visible o && w.isGroup o) || nestedWithin w n o

/-- The object `r` is `g` or a Group reached from `g` through visible
children that are Groups. -/
inductive Reaches (w : World) : Ref → Ref → Prop
  | root (g : Ref) : Reaches w g g
  | child {g o r : Ref} : o ∈ w.objects g → w.visible o = true → w.isGroup o = true →
      Reaches w o r → Reaches w g r

/-- The objects on which `self` called `step`, in the order of the calls. -/
def steppedBy (self : Ref) : List Call → List Ref
  | [] => []
  | Call.step object parent _ :: rest =>
    if parent = self then object :: steppedBy self rest else steppedBy self rest
  | _ :: rest => steppedBy self rest

/-- The objects on which `self` called `draw`, in the order of the calls. -/
def drawnBy (self : Ref) : List Call → List Ref
  | [] => []
  | Call.draw object parent _ _ :: rest =>
    if parent = self then object :: drawnBy self rest else drawnBy self rest
  | _ :: rest => drawnBy self rest

/-- From `w` to `w'` the fields `active`, `visible` and the classes of the
objects are as they were, and the trace grew by calls none of which is a
`step` or `draw` call made by `self`.  Child lists may differ in any way. -/
def Honest (self : Ref) (w w' : World) : Prop :=
  w'.active = w.active ∧ w'.visible = w.visible ∧ w'.isGroup = w.isGroup ∧
    ∃ t, w'.calls = w.calls ++ t ∧ steppedBy self t = [] ∧ drawnBy self t = []

/-- What the editing callbacks do: `group.remove(gone); group.add(added)`. -/
def removeThenAdd (group gone added : Ref) (w : World) : World :=
  add group [added] ((remove 2 group [gone] w).getD w)

/-- Handlers for a concrete run: every object exposes `keyDown`, which returns
a falsy value; the handler of `editor` first removes the child `gone` from
`group` and adds the object `added` to it. -/
def Handlers.editing (group editor gone added : Ref) : Handlers :=
  { keyDown := fun o => some fun _ _ w =>
      (false, if o = editor then removeThenAdd group gone added w else w),
    keyUp := fun _ => none,
    mouseDown := fun _ => none,
    mouseUp := fun _ => none,
    mouseMove := fun _ => none,
    touchStart := fun _ => none,
    touchMove := fun _ => none,
    touchEnd := fun _ => none }

/-- Own methods for a concrete run: every object but `group` defines `step`
and `draw`; those of `editor` remove the child `gone` from `group` and add the
object `added` to it, the others do nothing. -/
def Own.editing (group editor gone added : Ref) : Own :=
  { step := fun o =>
      if o = group then Option.none
      else some fun _ _ w => if o = editor then removeThenAdd group gone added w else w,
    draw := fun o =>
      if o = group then Option.none
      else some fun _ _ w => if o = editor then removeThenAdd group gone added w else w }

/-- A key event for concrete runs: the key code 65 while no key is held. -/
def KeyEvent.sample : KeyEvent := { key := none, keyCode := 65, keysDown := fun _ => false }

/-! ### A chain of nested Groups -/

/-- The objects `c 0, ..., c N` are different Groups that define no `step` or
`draw` themselves and have no auto flags; `c 0` is surface owning; each of
`c 1, ..., c N` is active and not surface owning; and the only child of
`c i` is `c (i + 1)`, the innermost Group `c N` having no child. -/
def Chain (B : Own) (w : World) (c : Nat → Ref) (N : Nat) : Prop :=
  (∀ i j, i ≤ N → j ≤ N → c i = c j → i = j) ∧
  (∀ i, i ≤ N → B.step (c i) = none ∧ B.draw (c i) = none ∧ w.isGroup (c i) = true ∧
    w.autoClearCanvas (c i) = false ∧ w.autoDrawCanvas (c i) = false) ∧
  w.useCanvas (c 0) = true ∧
  (∀ i, 1 ≤ i → i ≤ N → w.useCanvas (c i) = false ∧ w.active (c i) = true) ∧
  (∀ i, i < N → w.objects (c i) = [c (i + 1)]) ∧ w.objects (c N) = []

/-- All dirty flags of the chain are clear except `drawCanvas` of `c j`. -/
def FlagAt (w : World) (c : Nat → Ref) (N j : Nat) : Prop :=
  ∀ i, i ≤ N → w.clearCanvas (c i) = false ∧ w.drawCanvas (c i) = decide (i = j)

/-- The heap after `k` successive calls `self.step(deltaTime)`. -/
def stepTimes (B : Own) (fuel : Nat) (self : Ref) (deltaTime : Int) : Nat → World → Option World
  | 0, w => some w
  | k + 1, w => (stepTimes B fuel self deltaTime k w).bind (step B fuel self deltaTime)

/-- The root at 0 over the chain of Groups 1, 2, 3 with all dirty flags clear
except `drawCanvas` of the innermost Group. -/
def sceneChainInnerDirty : World :=
  setFlags 3 false true
    (setFlags 2 false false (setFlags 1 false false (setFlags 0 false false sceneChain)))

/-! ## Theorems -/

section ChildList

@[simp] theorem upd_same {α : Type} (f : Ref → α) (r : Ref) (v : α) : upd f r v r = v := by
  simp [upd]

theorem upd_ne {α : Type} (f : Ref → α) {r r' : Ref} (v : α) (h : r' ≠ r) :
    upd f r v r' = f r' := by
  simp [upd, h]

theorem upd_apply {α : Type} (f : Ref → α) (r r' : Ref) (v : α) :
    upd f r v r' = if r' = r then v else f r' := rfl

theorem Shrinks.refl (w : World) : Shrinks w w := fun _ => ⟨List.Sublist.refl _, rfl⟩

theorem Shrinks.trans {a b c : World} (h₁ : Shrinks a b) (h₂ : Shrinks b c) : Shrinks a c :=
  fun r => ⟨(h₂ r).1.trans (h₁ r).1, (h₂ r).2.trans (h₁ r).2⟩

theorem shrinks_detach (w : World) (self object : Ref) :
    Shrinks w (detach self object w) := by
  intro r
  refine ⟨?_, rfl⟩
  show (upd w.objects self ((w.objects self).erase object) r).Sublist (w.objects r)
  rw [upd_apply]
  split
  · rename_i h
    subst h
    exact List.erase_sublist _ _
  · exact List.Sublist.refl _

theorem shrinks_record (w : World) (c : Call) : Shrinks w (w.record c) :=
  fun _ => ⟨List.Sublist.refl _, rfl⟩

theorem removeWith_shrinks (hook : Ref → Ref → World → Option World)
    (hh : ∀ o p w w', hook o p w = some w' → Shrinks w w') (self : Ref) :
    ∀ (objects : List Ref) (w w' : World),
      removeWith hook self objects w = some w' → Shrinks w w'
  | [], w, w', h => by
    simp only [removeWith, Option.some.injEq] at h
    subst h
    exact Shrinks.refl w
  | object :: rest, w, w', h => by
    rw [removeWith] at h
    split at h
    · split at h
      · rcases Option.bind_eq_some.mp h with ⟨w3, h3, h4⟩
        exact (((shrinks_detach w self object).trans (shrinks_record _ _)).trans
          (hh _ _ _ _ h3)).trans
          (removeWith_shrinks hook hh self rest _ _ h4)
      · exact (shrinks_detach w self object).trans
          (removeWith_shrinks hook hh self rest _ _ h)
    · exact removeWith_shrinks hook hh self rest _ _ h

theorem remove_shrinks : ∀ (fuel : Nat) (self : Ref) (objects : List Ref) (w w' : World),
    remove fuel self objects w = some w' → Shrinks w w'
  | 0, _, _, _, _, h => by simp [remove] at h
  | fuel + 1, self, objects, w, w', h => by
    rw [remove] at h
    refine removeWith_shrinks _ ?_ self objects w w' h
    intro o p v v' hv
    split at hv
    · exact remove_shrinks fuel o [p] v v' hv
    · simp only [Option.some.injEq] at hv
      subst hv
      exact Shrinks.refl v

theorem remove_succ (fuel : Nat) (self : Ref) (objects : List Ref) (w : World) :
    remove (fuel + 1) self objects w =
      removeWith (fun object parent w' =>
        if w'.isGroup object then remove fuel object [parent] w' else some w') self objects w :=
  rfl

theorem remove_absent (fuel : Nat) (self object : Ref) (w : World)
    (h : object ∉ w.objects self) : remove (fuel + 1) self [object] w = some w := by
  simp [remove, removeWith, h]

theorem detach_objects_self (self object : Ref) (w : World) :
    (detach self object w).objects self = (w.objects self).erase object := by
  simp [detach]

theorem detach_objects_other (self object : Ref) (w : World) {r : Ref} (h : r ≠ self) :
    (detach self object w).objects r = w.objects r := by
  simp [detach, upd_ne _ _ h]

/-- The nested call `object.remove(parent)` returns when the parent no longer
lists the object. -/
theorem remove_nested_returns (fuel : Nat) (object parent : Ref) (w : World)
    (h : object ∉ w.objects parent) : ∃ w', remove (fuel + 2) object [parent] w = some w' := by
  have key : object ∉ ((detach object parent w).record (Call.remove parent object)).objects
      parent := by
    show object ∉ (detach object parent w).objects parent
    by_cases hp : parent = object
    · subst hp
      rw [detach_objects_self]
      exact fun hm => h (List.mem_of_mem_erase hm)
    · rwa [detach_objects_other _ _ _ hp]
  rw [remove_succ (fuel + 1)]
  simp only [removeWith]
  split
  · split
    · split
      · rw [remove_absent fuel parent object _ key]
        exact ⟨_, rfl⟩
      · exact ⟨_, rfl⟩
    · exact ⟨_, rfl⟩
  · exact ⟨_, rfl⟩

/-- A call of `remove` on a Group whose child list has no duplicates returns:
the nested hook calls go at most two levels deep. -/
theorem remove_returns (fuel : Nat) (self : Ref) :
    ∀ (objects : List Ref) (w : World), (w.objects self).Nodup →
      ∃ w', remove (fuel + 3) self objects w = some w'
  | [], w, _ => ⟨w, by simp [remove, removeWith]⟩
  | object :: rest, w, hn => by
    have hrest := remove_returns fuel self rest
    simp only [remove_succ (fuel + 2)] at hrest ⊢
    rw [removeWith]
    have hn2 : ((detach self object w).objects self).Nodup := by
      rw [detach_objects_self]
      exact hn.erase _
    have hnot : object ∉ (detach self object w).objects self := by
      rw [detach_objects_self]
      exact fun hm => (List.Nodup.mem_erase_iff hn).mp hm |>.1 rfl
    split
    · split
      · split
        · obtain ⟨w3, h3⟩ := remove_nested_returns fuel object self
            ((detach self object w).record (Call.remove object self)) hnot
          rw [h3, Option.some_bind]
          have hs := remove_shrinks _ _ _ _ _ h3
          exact hrest w3 (hn2.sublist (hs self).1)
        · rw [Option.some_bind]
          exact hrest _ hn2
      · exact hrest _ hn2
    · exact hrest w hn

theorem callInit_objects (self object : Ref) (w : World) :
    (callInit self object w).objects = w.objects := by
  unfold callInit; split <;> rfl

theorem callInit_parent (self object : Ref) (w : World) :
    (callInit self object w).parent = w.parent := by
  unfold callInit; split <;> rfl

theorem callInit_depth (self object : Ref) (w : World) :
    (callInit self object w).depth = w.depth := by
  unfold callInit; split <;> rfl

theorem addOne_depth (self : Ref) (w : World) (object : Ref) :
    (addOne self w object).depth = w.depth := by
  unfold addOne
  split
  · rfl
  · split
    · rw [callInit_depth]; rfl
    · rfl

theorem addOne_objects (self : Ref) (w : World) (object : Ref) :
    (addOne self w object).objects =
      if object ∈ w.objects self then w.objects
      else upd w.objects self (w.objects self ++ [object]) := by
  unfold addOne
  split
  · rfl
  · split
    · rw [callInit_objects]; rfl
    · rfl

theorem addOne_parent (self : Ref) (w : World) (object : Ref) :
    (addOne self w object).parent =
      if object ∈ w.objects self then w.parent else upd w.parent object (some self) := by
  unfold addOne
  split
  · rfl
  · split
    · rw [callInit_parent]; rfl
    · rfl

theorem addOne_nodup (self : Ref) (w : World) (object : Ref) (r : Ref)
    (h : (w.objects r).Nodup) : ((addOne self w object).objects r).Nodup := by
  rw [addOne_objects]
  split
  · exact h
  · rename_i hm
    rw [upd_apply]
    split
    · rename_i hr
      subst hr
      exact List.Nodup.append h (List.nodup_singleton _) (by simpa using hm)
    · exact h

theorem foldl_addOne_depth (self : Ref) :
    ∀ (objects : List Ref) (w : World), (objects.foldl (addOne self) w).depth = w.depth
  | [], _ => rfl
  | object :: rest, w => by
    rw [List.foldl_cons, foldl_addOne_depth self rest, addOne_depth]

theorem foldl_addOne_nodup (self : Ref) (r : Ref) :
    ∀ (objects : List Ref) (w : World), (w.objects r).Nodup →
      ((objects.foldl (addOne self) w).objects r).Nodup
  | [], _, h => h
  | object :: rest, w, h => by
    rw [List.foldl_cons]
    exact foldl_addOne_nodup self r rest _ (addOne_nodup self w object r h)

theorem sort_sorted (self : Ref) (w : World) : SortedByDepth (sort self w) self := by
  show ((upd w.objects self (sortedByDepth w (w.objects self))) self).Sorted _
  rw [upd_same]
  exact List.sorted_insertionSort (fun a b => depthOf w a ≤ depthOf w b) _

theorem sort_objects_self (self : Ref) (w : World) :
    (sort self w).objects self = sortedByDepth w (w.objects self) := by
  simp [sort]

theorem sort_objects_other (self : Ref) (w : World) {r : Ref} (h : r ≠ self) :
    (sort self w).objects r = w.objects r := by
  simp [sort, upd_ne _ _ h]

theorem sortedByDepth_perm (w : World) (l : List Ref) : (sortedByDepth w l).Perm l :=
  List.perm_insertionSort _ l

theorem depthOf_congr {w w' : World} (h : ∀ r, w'.depth r = w.depth r) :
    depthOf w' = depthOf w := by
  funext r
  simp [depthOf, h r]

theorem add_childListOk (g : Ref) (objects : List Ref) (w : World)
    (hn : (w.objects g).Nodup) : ChildListOk (add g objects w) g := by
  refine ⟨sort_sorted g _, ?_⟩
  show ((sort g _).objects g).Nodup
  rw [sort_objects_self]
  exact (sortedByDepth_perm _ _).nodup_iff.mpr (foldl_addOne_nodup g g objects w hn)

theorem shrinks_childListOk {w w' : World} (g : Ref) (h : Shrinks w w')
    (hok : ChildListOk w g) : ChildListOk w' g := by
  refine ⟨?_, hok.2.sublist (h g).1⟩
  unfold SortedByDepth
  rw [depthOf_congr (fun r => (h r).2)]
  exact List.Pairwise.sublist (h g).1 hok.1

theorem edits_keep_childListOk (fuel : Nat) (g : Ref) :
    ∀ (edits : List Edit) (w : World), ChildListOk w g →
      ∃ w', runEdits (fuel + 3) (edits.map fun e => (g, e)) w = some w' ∧ ChildListOk w' g
  | [], w, h => ⟨w, rfl, h⟩
  | Edit.add objects :: rest, w, h => by
    simp only [List.map_cons, runEdits, Edit.run, Option.some_bind]
    exact edits_keep_childListOk fuel g rest _ (add_childListOk g objects w h.2)
  | Edit.remove objects :: rest, w, h => by
    obtain ⟨w1, h1⟩ := remove_returns fuel g objects w h.2
    simp only [List.map_cons, runEdits, Edit.run, h1, Option.some_bind]
    exact edits_keep_childListOk fuel g rest _
      (shrinks_childListOk g (remove_shrinks _ _ _ _ _ h1) h)

/-! ### Parent pointers -/

theorem detach_linked (self object : Ref) (w : World) (hm : object ∈ w.objects self)
    (hp : ParentsMatch w) (hn : NoDuplicates w) :
    ParentsMatch (detach self object w) ∧ NoDuplicates (detach self object w) := by
  constructor
  · intro g y hy
    show upd w.parent object none y = some g
    by_cases hyx : y = object
    · subst hyx
      exfalso
      by_cases hg : g = self
      · subst hg
        rw [detach_objects_self] at hy
        exact ((List.Nodup.mem_erase_iff (hn g)).mp hy).1 rfl
      · rw [detach_objects_other _ _ _ hg] at hy
        have h1 := hp g y hy
        have h2 := hp self y hm
        rw [h1] at h2
        exact hg (Option.some.inj h2)
    · rw [upd_ne _ _ hyx]
      by_cases hg : g = self
      · subst hg
        rw [detach_objects_self] at hy
        exact hp g y (List.mem_of_mem_erase hy)
      · rw [detach_objects_other _ _ _ hg] at hy
        exact hp g y hy
  · intro g
    by_cases hg : g = self
    · subst hg
      rw [detach_objects_self]
      exact (hn g).erase _
    · rw [detach_objects_other _ _ _ hg]
      exact hn g

theorem removeWith_linked (hook : Ref → Ref → World → Option World)
    (hh : ∀ o p w w', hook o p w = some w' → ParentsMatch w ∧ NoDuplicates w →
      ParentsMatch w' ∧ NoDuplicates w') (self : Ref) :
    ∀ (objects : List Ref) (w w' : World), removeWith hook self objects w = some w' →
      ParentsMatch w ∧ NoDuplicates w → ParentsMatch w' ∧ NoDuplicates w'
  | [], w, w', h, hl => by
    simp only [removeWith, Option.some.injEq] at h
    subst h
    exact hl
  | object :: rest, w, w', h, hl => by
    rw [removeWith] at h
    split at h
    · rename_i hm
      have hd := detach_linked self object w hm hl.1 hl.2
      split at h
      · rcases Option.bind_eq_some.mp h with ⟨w3, h3, h4⟩
        exact removeWith_linked hook hh self rest _ _ h4 (hh _ _ _ _ h3 hd)
      · exact removeWith_linked hook hh self rest _ _ h hd
    · exact removeWith_linked hook hh self rest _ _ h hl

theorem remove_linked : ∀ (fuel : Nat) (self : Ref) (objects : List Ref) (w w' : World),
    remove fuel self objects w = some w' → ParentsMatch w ∧ NoDuplicates w →
      ParentsMatch w' ∧ NoDuplicates w'
  | 0, _, _, _, _, h, _ => by simp [remove] at h
  | fuel + 1, self, objects, w, w', h, hl => by
    rw [remove_succ] at h
    refine removeWith_linked _ ?_ self objects w w' h hl
    intro o p v v' hv hlv
    split at hv
    · exact remove_linked fuel o [p] v v' hv hlv
    · simp only [Option.some.injEq] at hv
      subst hv
      exact hlv

theorem addOne_linked (g : Ref) (w : World) (x : Ref)
    (hx : ∀ g', g' ≠ g → x ∉ w.objects g')
    (hl : ParentsMatch w ∧ NoDuplicates w) :
    ParentsMatch (addOne g w x) ∧ NoDuplicates (addOne g w x) := by
  refine ⟨?_, fun k => addOne_nodup g w x k (hl.2 k)⟩
  intro k y hy
  rw [addOne_objects] at hy
  rw [addOne_parent]
  split at hy
  · rename_i hm
    rw [if_pos hm]
    exact hl.1 k y hy
  · rename_i hm
    rw [if_neg hm]
    by_cases hk : k = g
    · subst hk
      rw [upd_same] at hy
      by_cases hyx : y = x
      · subst hyx
        rw [upd_same]
      · rw [upd_ne _ _ hyx]
        rcases List.mem_append.mp hy with h1 | h1
        · exact hl.1 k y h1
        · exact absurd (List.mem_singleton.mp h1) hyx
    · rw [upd_ne _ _ hk] at hy
      by_cases hyx : y = x
      · subst hyx
        exact absurd hy (hx k hk)
      · rw [upd_ne _ _ hyx]
        exact hl.1 k y hy

theorem addOne_objects_other (g : Ref) (w : World) (x : Ref) {k : Ref} (hk : k ≠ g) :
    (addOne g w x).objects k = w.objects k := by
  rw [addOne_objects]
  split
  · rfl
  · rw [upd_ne _ _ hk]

theorem foldl_addOne_linked (g : Ref) :
    ∀ (objects : List Ref) (w : World), Exclusive w g objects →
      ParentsMatch w ∧ NoDuplicates w →
      ParentsMatch (objects.foldl (addOne g) w) ∧ NoDuplicates (objects.foldl (addOne g) w)
  | [], _, _, hl => hl
  | x :: rest, w, hx, hl => by
    rw [List.foldl_cons]
    refine foldl_addOne_linked g rest _ ?_
      (addOne_linked g w x (hx x (List.mem_cons_self _ _)) hl)
    intro y hy k hk
    rw [addOne_objects_other g w x hk]
    exact hx y (List.mem_cons_of_mem _ hy) k hk

theorem sort_linked (g : Ref) (w : World) (hl : ParentsMatch w ∧ NoDuplicates w) :
    ParentsMatch (sort g w) ∧ NoDuplicates (sort g w) := by
  constructor
  · intro k y hy
    show w.parent y = some k
    by_cases hk : k = g
    · subst hk
      rw [sort_objects_self] at hy
      exact hl.1 k y ((sortedByDepth_perm w _).mem_iff.mp hy)
    · rw [sort_objects_other _ _ hk] at hy
      exact hl.1 k y hy
  · intro k
    by_cases hk : k = g
    · subst hk
      rw [sort_objects_self]
      exact (sortedByDepth_perm w _).nodup_iff.mpr (hl.2 k)
    · rw [sort_objects_other _ _ hk]
      exact hl.2 k

theorem add_linked (g : Ref) (objects : List Ref) (w : World) (hx : Exclusive w g objects)
    (hl : ParentsMatch w ∧ NoDuplicates w) :
    ParentsMatch (add g objects w) ∧ NoDuplicates (add g objects w) :=
  sort_linked g _ (foldl_addOne_linked g objects w hx hl)

theorem edits_keep_linked (fuel : Nat) :
    ∀ (edits : List (Ref × Edit)) (w : World), ParentsMatch w ∧ NoDuplicates w →
      Admissible (fuel + 3) edits w →
      ∃ w', runEdits (fuel + 3) edits w = some w' ∧ ParentsMatch w' ∧ NoDuplicates w'
  | [], w, hl, _ => ⟨w, rfl, hl⟩
  | (g, Edit.add objects) :: rest, w, hl, ha => by
    simp only [runEdits, Edit.run, Option.some_bind]
    exact edits_keep_linked fuel rest _ (add_linked g objects w ha.1 hl) ha.2
  | (g, Edit.remove objects) :: rest, w, hl, ha => by
    obtain ⟨w1, h1⟩ := remove_returns fuel g objects w (hl.2 g)
    simp only [runEdits, Edit.run, h1, Option.some_bind]
    exact edits_keep_linked fuel rest _ (remove_linked _ _ _ _ _ h1 hl) (ha w1 h1)

/-! ### Calls that find nothing to do -/

theorem foldl_addOne_present (g : Ref) :
    ∀ (objects : List Ref) (w : World), (∀ x ∈ objects, x ∈ w.objects g) →
      objects.foldl (addOne g) w = w
  | [], _, _ => rfl
  | x :: rest, w, h => by
    have hx : addOne g w x = w := by
      unfold addOne
      rw [if_pos (h x (List.mem_cons_self _ _))]
    rw [List.foldl_cons, hx]
    exact foldl_addOne_present g rest w (fun y hy => h y (List.mem_cons_of_mem _ hy))

theorem sort_of_sorted (g : Ref) (w : World) (hs : SortedByDepth w g) : sort g w = w := by
  have h1 : sortedByDepth w (w.objects g) = w.objects g := List.Sorted.insertionSort_eq hs
  have h2 : upd w.objects g (w.objects g) = w.objects := by
    funext r
    rw [upd_apply]
    split
    · rename_i hr
      rw [hr]
    · rfl
  unfold sort
  rw [h1, h2]

theorem removeWith_absent (hook : Ref → Ref → World → Option World) (g : Ref) :
    ∀ (objects : List Ref) (w : World), (∀ y ∈ objects, y ∉ w.objects g) →
      removeWith hook g objects w = some w
  | [], _, _ => rfl
  | y :: rest, w, h => by
    rw [removeWith, if_neg (h y (List.mem_cons_self _ _))]
    exact removeWith_absent hook g rest w (fun z hz => h z (List.mem_cons_of_mem _ hz))

end ChildList

section ChildListClaims

theorem admissible_take (fuel : Nat) :
    ∀ (edits : List (Ref × Edit)) (n : Nat) (w : World), Admissible fuel edits w →
      Admissible fuel (edits.take n) w
  | [], n, w, _ => by simp [Admissible]
  | _ :: _, 0, w, _ => by simp [Admissible]
  | (g, Edit.add objects) :: rest, n + 1, w, h =>
    ⟨h.1, admissible_take fuel rest n _ h.2⟩
  | (g, Edit.remove objects) :: rest, n + 1, w, h =>
    fun w' hw' => admissible_take fuel rest n w' (h w' hw')

/-- C1: starting from a Group whose child list is sorted by depth and free of
duplicates (as the empty list of a new Group is), after each call of a finite
sequence of `add` and `remove` calls on it the call has returned and the child
list is sorted by non-decreasing depth, a missing depth counting as 0, and
lists no object twice. -/
theorem add_remove_keep_children_sorted_nodup (fuel : Nat) (w : World) (g : Ref)
    (edits : List Edit) (n : Nat) (hs : SortedByDepth w g) (hn : (w.objects g).Nodup) :
    ∃ w', runEdits (fuel + 3) ((edits.take n).map fun e => (g, e)) w = some w' ∧
      SortedByDepth w' g ∧ (w'.objects g).Nodup :=
  edits_keep_childListOk fuel g (edits.take n) w ⟨hs, hn⟩

/-- Witness for C1: a new Group at 0 and the calls `add(1, 2, 3)`, `remove(2)`, `add(2, 2)`. -/
theorem add_remove_keep_children_sorted_nodup_witness :
    SortedByDepth sceneDepths 0 ∧ (sceneDepths.objects 0).Nodup ∧
    ∃ w', runEdits 3
        (([Edit.add [1, 2, 3], Edit.remove [2], Edit.add [2, 2]].take 3).map fun e => (0, e))
        sceneDepths = some w' ∧
      SortedByDepth w' 0 ∧ (w'.objects 0).Nodup :=
  ⟨by unfold SortedByDepth; decide, by decide,
    add_remove_keep_children_sorted_nodup 0 sceneDepths 0
      [Edit.add [1, 2, 3], Edit.remove [2], Edit.add [2, 2]] 3
      (by unfold SortedByDepth; decide) (by decide)⟩

/-- C4, as stated, fails: two new Groups at 0 and 1 and an object at 2; after
`g0.add(x); g1.add(x)` the object is listed by both Groups and its parent is
the second one. -/
theorem add_to_second_group_keeps_first_listing :
    (∀ g, sceneTwoGroups.objects g = []) ∧
    ∃ w', runEdits 3 [(0, Edit.add [2]), (1, Edit.add [2])] sceneTwoGroups = some w' ∧
      2 ∈ w'.objects 0 ∧ 2 ∈ w'.objects 1 ∧ w'.parent 2 = some 1 ∧ ¬ ParentsMatch w' := by
  refine ⟨?_, _, rfl, by decide, by decide, by decide, ?_⟩
  · intro g
    simp only [sceneTwoGroups, plainObject, construct, World.blank, upd]
    split_ifs <;> rfl
  · intro h
    exact absurd (h 0 2 (by decide)) (by decide)

/-- C4, amended: starting from a heap in which every listed object points back
to the Group listing it and no list has a duplicate (as when no Group has a
child yet), along a finite sequence of `add` and `remove` calls on any Groups
in which `add` is only called with objects that no other Group lists at that
moment, each call returns and afterwards every listed object has its `parent`
equal to the Group that lists it, so that no object is listed by two Groups. -/
theorem exclusive_adds_keep_parents (fuel : Nat) (w : World) (edits : List (Ref × Edit))
    (n : Nat) (hp : ParentsMatch w) (hn : NoDuplicates w)
    (ha : Admissible (fuel + 3) edits w) :
    ∃ w', runEdits (fuel + 3) (edits.take n) w = some w' ∧
      (∀ g x, x ∈ w'.objects g → w'.parent x = some g) ∧
      (∀ x g g', x ∈ w'.objects g → x ∈ w'.objects g' → g = g') := by
  obtain ⟨w', h1, h2, _⟩ :=
    edits_keep_linked fuel (edits.take n) w ⟨hp, hn⟩ (admissible_take _ edits n w ha)
  refine ⟨w', h1, h2, ?_⟩
  intro x g g' hg hg'
  have e := (h2 g x hg).symm.trans (h2 g' x hg')
  exact Option.some.inj e

theorem sceneTwoGroups_objects (g : Ref) : sceneTwoGroups.objects g = [] := by
  simp only [sceneTwoGroups, plainObject, construct, World.blank, upd]
  split_ifs <;> rfl

/-- Witness for C4 as amended: the object at 2 is added to the Group at 0, removed from it and added to the Group at 1. -/
theorem exclusive_adds_keep_parents_witness :
    ParentsMatch sceneTwoGroups ∧ NoDuplicates sceneTwoGroups ∧
    Admissible 3 [(0, Edit.add [2]), (0, Edit.remove [2]), (1, Edit.add [2])] sceneTwoGroups ∧
    ∃ w', runEdits 3 ([(0, Edit.add [2]), (0, Edit.remove [2]), (1, Edit.add [2])].take 3)
        sceneTwoGroups = some w' ∧
      (∀ g x, x ∈ w'.objects g → w'.parent x = some g) ∧
      (∀ x g g', x ∈ w'.objects g → x ∈ w'.objects g' → g = g') := by
  have hp : ParentsMatch sceneTwoGroups := by
    intro g x hx
    rw [sceneTwoGroups_objects] at hx
    exact absurd hx (List.not_mem_nil _)
  have hn : NoDuplicates sceneTwoGroups := by
    intro g
    rw [sceneTwoGroups_objects]
    exact List.nodup_nil
  have ha : Admissible 3 [(0, Edit.add [2]), (0, Edit.remove [2]), (1, Edit.add [2])]
      sceneTwoGroups := by
    refine ⟨?_, ?_⟩
    · intro x _ g' _
      rw [sceneTwoGroups_objects]
      exact List.not_mem_nil _
    · intro w' hw'
      refine ⟨?_, trivial⟩
      intro x hx g' hg'
      have hs := (remove_shrinks _ _ _ _ _ hw' g').1
      have hx2 : x = 2 := List.mem_singleton.mp hx
      subst hx2
      by_cases h0 : g' = 0
      · subst h0
        have e : remove 3 0 [2] (add 0 [2] sceneTwoGroups) = some w' := hw'
        have e2 : (remove 3 0 [2] (add 0 [2] sceneTwoGroups)).map (fun v => v.objects 0)
            = some [] := by decide
        rw [e] at e2
        simp only [Option.map_some', Option.some.injEq] at e2
        rw [e2]
        exact List.not_mem_nil _
      · have e3 : (add 0 [2] sceneTwoGroups).objects g' = [] := by
          show (sort 0 _).objects g' = []
          rw [sort_objects_other _ _ h0, List.foldl_cons, List.foldl_nil,
            addOne_objects_other _ _ _ h0, sceneTwoGroups_objects]
        rw [e3] at hs
        rw [List.sublist_nil.mp hs]
        exact List.not_mem_nil _
  exact ⟨hp, hn, ha, exclusive_adds_keep_parents 0 sceneTwoGroups _ 3 hp hn ha⟩

/-- C9, as stated, fails for `add`: after `g.add(a, b); a.depth = 5` the call
`g.add(a)` with the listed object `a` reorders the child list. -/
theorem add_present_object_resorts :
    1 ∈ sceneDepthChanged.objects 0 ∧ sceneDepthChanged.objects 0 = [1, 2] ∧
      (add 0 [1] sceneDepthChanged).objects 0 = [2, 1] ∧
      add 0 [1] sceneDepthChanged ≠ sceneDepthChanged := by
  refine ⟨by decide, by decide, by decide, fun h => ?_⟩
  have h2 : (add 0 [1] sceneDepthChanged).objects 0 = sceneDepthChanged.objects 0 := by rw [h]
  exact absurd h2 (by decide)

/-- C9, amended: on a Group whose child list is sorted by depth, `add` with
objects that are all in the child list changes nothing; on every Group,
`remove` with objects none of which is in the child list returns and changes
nothing.  Child lists, parent pointers and the trace of hook calls are the
same afterwards, so no `init` and no `remove` hook was invoked. -/
theorem add_present_remove_absent_change_nothing (fuel : Nat) (w : World) (g : Ref)
    (xs ys : List Ref) (hs : SortedByDepth w g) (hx : ∀ x ∈ xs, x ∈ w.objects g)
    (hy : ∀ y ∈ ys, y ∉ w.objects g) :
    add g xs w = w ∧ remove (fuel + 1) g ys w = some w := by
  constructor
  · unfold add
    rw [foldl_addOne_present g xs w hx]
    exact sort_of_sorted g w hs
  · rw [remove_succ]
    exact removeWith_absent _ g ys w hy

/-- Witness for C9 as amended: the Group at 0 lists 2 and 1; `add(2, 1)` and `remove(3)` change nothing. -/
theorem add_present_remove_absent_change_nothing_witness :
    SortedByDepth (add 0 [1, 2] sceneDepths) 0 ∧
    (∀ x ∈ [2, 1], x ∈ (add 0 [1, 2] sceneDepths).objects 0) ∧
    (∀ y ∈ [3], y ∉ (add 0 [1, 2] sceneDepths).objects 0) ∧
    add 0 [2, 1] (add 0 [1, 2] sceneDepths) = add 0 [1, 2] sceneDepths ∧
    remove 1 0 [3] (add 0 [1, 2] sceneDepths) = some (add 0 [1, 2] sceneDepths) :=
  ⟨by unfold SortedByDepth; decide, by decide, by decide,
    add_present_remove_absent_change_nothing 0 (add 0 [1, 2] sceneDepths) 0 [2, 1] [3]
      (by unfold SortedByDepth; decide) (by decide) (by decide)⟩

end ChildListClaims

section DeviceEvents

theorem foldl_touchStartOne_frame {α : Type} (p : Input → α) (ids : List (Option Nat))
    (hp : ∀ (g : Input) (x y : ℚ) (ts : List Pointer),
      p { g with mouseStartX := x, mouseStartY := y, _touches := ts } = p g) :
    ∀ (l : List Contact) (st : Input × List Dispatch),
      p (l.foldl (touchStartOne ids) st).1 = p st.1
  | [], _ => rfl
  | c :: l, st => by
    rw [List.foldl_cons, foldl_touchStartOne_frame p ids hp l]
    unfold touchStartOne
    split
    · rfl
    · exact hp _ _ _ _

theorem foldl_touchMoveOne_frame {α : Type} (p : Input → α) (lib : Imports)
    (ids : List (Option Nat))
    (hp : ∀ (g : Input) (ts : List Pointer), p { g with _touches := ts } = p g) :
    ∀ (l : List Contact) (st : Input × List Dispatch),
      p (l.foldl (touchMoveOne lib ids) st).1 = p st.1
  | [], _ => rfl
  | c :: l, st => by
    rw [List.foldl_cons, foldl_touchMoveOne_frame p lib ids hp l]
    unfold touchMoveOne
    dsimp only
    split
    · rfl
    · split
      · exact hp _ _
      · rfl

theorem handleEvent_useCanvas (lib : Imports) (event : Event) (g : Input) :
    (handleEvent lib event g).1.useCanvas = g.useCanvas := by
  unfold handleEvent
  split
  · cases event with
    | touchstart touches =>
      exact foldl_touchStartOne_frame (fun g => g.useCanvas) _ (fun _ _ _ _ => rfl) touches _
    | touchmove touches =>
      exact foldl_touchMoveOne_frame (fun g => g.useCanvas) lib _ (fun _ _ => rfl) touches _
    | keydown k => dsimp only; split <;> rfl
    | keyup k => simp only [if_pos, *]
    | _ => rfl
  · rfl

/-- Only a `keyup` event for `k` clears the mark of `k`. -/
theorem handleEvent_keeps_mark (lib : Imports) (event : Event) (g : Input) (k : Nat)
    (he : event ≠ Event.keyup k) (hk : g._keysDown k = true) :
    (handleEvent lib event g).1._keysDown k = true := by
  unfold handleEvent
  split
  · cases event with
    | touchstart touches =>
      exact (foldl_touchStartOne_frame (fun g => g._keysDown k) _ (fun _ _ _ _ => rfl)
        touches _).trans hk
    | touchmove touches =>
      exact (foldl_touchMoveOne_frame (fun g => g._keysDown k) lib _ (fun _ _ => rfl)
        touches _).trans hk
    | keydown k' =>
      dsimp only
      split
      · dsimp only
        split
        · rfl
        · exact hk
      · exact hk
    | keyup k' =>
      have hne : k ≠ k' := fun h => he (by rw [h])
      simp [hne, hk]
    | _ => exact hk
  · exact hk

theorem handleEvents_useCanvas (lib : Imports) :
    ∀ (events : List Event) (g : Input), (handleEvents lib events g).1.useCanvas = g.useCanvas
  | [], _ => rfl
  | e :: rest, g => by
    rw [handleEvents]
    exact (handleEvents_useCanvas lib rest _).trans (handleEvent_useCanvas lib e g)

theorem handleEvents_keep_mark (lib : Imports) (k : Nat) :
    ∀ (events : List Event) (g : Input), (∀ e ∈ events, e ≠ Event.keyup k) →
      g._keysDown k = true → (handleEvents lib events g).1._keysDown k = true
  | [], _, _, hk => hk
  | e :: rest, g, he, hk => by
    rw [handleEvents]
    exact handleEvents_keep_mark lib k rest _ (fun e' h' => he e' (List.mem_cons_of_mem _ h'))
      (handleEvent_keeps_mark lib e g k (he e (List.mem_cons_self _ _)) hk)

theorem keydown_dispatch (lib : Imports) (g : Input) (k : Nat) (hu : g.useCanvas = true) :
    ((handleEvent lib (Event.keydown k) g).2 = [Dispatch.keyDown (lib.KeyLookUp k) k] ↔
        g._keysDown k = false) ∧
    ((handleEvent lib (Event.keydown k) g).2 = [] ↔ g._keysDown k = true) ∧
    (handleEvent lib (Event.keydown k) g).1._keysDown k = true := by
  unfold handleEvent
  rw [if_pos hu]
  dsimp only
  cases hk : g._keysDown k <;> simp [hu, hk]

theorem keyup_dispatch (lib : Imports) (g : Input) (k : Nat) (hu : g.useCanvas = true) :
    (handleEvent lib (Event.keyup k) g).2 = [Dispatch.keyUp (lib.KeyLookUp k) k] ∧
    (handleEvent lib (Event.keyup k) g).1._keysDown k = false := by
  unfold handleEvent
  rw [if_pos hu]
  dsimp only
  simp [hu]

end DeviceEvents

section DeviceEventClaims

/-- C2: on the code the claim fails.  One `touchstart` event reporting twelve
contacts with the distinct identifiers 0 to 11, handled by a surface owning
Group with an empty registry, leaves the contacts 2 and 11 both with the
finger index 2. -/
theorem twelve_contacts_share_a_finger :
    ((contactsBelow 12).reverse.map fun c => c.identifier).Nodup ∧
    (handleEvent Imports.axes (touchstartOf 12) Input.fresh).1._touches.map
        (fun t => (t.identifier, t.finger)) =
      [(some 0, 0), (some 1, 1), (some 2, 2), (some 3, 3), (some 4, 4), (some 5, 5),
        (some 6, 6), (some 7, 7), (some 8, 8), (some 9, 9), (some 10, 10), (some 11, 2)] ∧
    ¬ ((handleEvent Imports.axes (touchstartOf 12) Input.fresh).1._touches.map
        fun t => t.finger).Nodup := by
  decide

/-- C3: on the code the claim fails.  With the eleven finger indices 0 to 10
in the registry, pairwise distinct, `fingers.sort()` yields
`[0, 1, 10, 2, ...]` and a new contact gets the finger index 2, which is in
use, while the smallest index not in use is 11. -/
theorem eleven_fingers_then_index_two :
    ((handleEvent Imports.axes (touchstartOf 11) Input.fresh).1._touches.map
        fun t => t.finger) = [0, 1, 2, 3, 4, 5, 6, 7, 8, 9, 10] ∧
    defaultSort [0, 1, 2, 3, 4, 5, 6, 7, 8, 9, 10] = [0, 1, 10, 2, 3, 4, 5, 6, 7, 8, 9] ∧
    fingerIndex (handleEvent Imports.axes (touchstartOf 11) Input.fresh).1._touches = 2 ∧
    ((handleEvent Imports.axes (Event.touchstart [⟨11, 0, 0⟩])
        (handleEvent Imports.axes (touchstartOf 11) Input.fresh).1).1._touches.map
        fun t => (t.identifier, t.finger)).getLast? = some (some 11, 2) := by
  decide

/-- C6: on a surface owning Group, after any device events: a `keydown` for
`k` makes the `keyDown` dispatch exactly when `k` is not marked in
`_keysDown`, and marks it; while no `keyup` for `k` arrives, a further
`keydown` for `k` makes no dispatch, so that a `keyup` for `k` lies between
two `keyDown` dispatches for `k`; every `keyup` for `k` clears the mark and
makes the `keyUp` dispatch. -/
theorem keydown_debounced_until_keyup (lib : Imports) (g : Input) (k : Nat)
    (before between : List Event) (hu : g.useCanvas = true)
    (hb : ∀ e ∈ between, e ≠ Event.keyup k) :
    ((handleEvent lib (Event.keydown k) (handleEvents lib before g).1).2
        = [Dispatch.keyDown (lib.KeyLookUp k) k] ↔
      (handleEvents lib before g).1._keysDown k = false) ∧
    ((handleEvent lib (Event.keydown k) (handleEvents lib before g).1).2 = [] ↔
      (handleEvents lib before g).1._keysDown k = true) ∧
    (handleEvent lib (Event.keydown k) (handleEvents lib before g).1).1._keysDown k = true ∧
    (handleEvent lib (Event.keydown k)
      (handleEvents lib between
        (handleEvent lib (Event.keydown k) (handleEvents lib before g).1).1).1).2 = [] ∧
    (handleEvent lib (Event.keyup k) (handleEvents lib before g).1).2
      = [Dispatch.keyUp (lib.KeyLookUp k) k] ∧
    (handleEvent lib (Event.keyup k) (handleEvents lib before g).1).1._keysDown k = false := by
  have hu1 : (handleEvents lib before g).1.useCanvas = true :=
    (handleEvents_useCanvas lib before g).trans hu
  have hd := keydown_dispatch lib (handleEvents lib before g).1 k hu1
  have hup := keyup_dispatch lib (handleEvents lib before g).1 k hu1
  refine ⟨hd.1, hd.2.1, hd.2.2, ?_, hup.1, hup.2⟩
  have hu2 : (handleEvents lib between
      (handleEvent lib (Event.keydown k) (handleEvents lib before g).1).1).1.useCanvas = true :=
    ((handleEvents_useCanvas lib between _).trans (handleEvent_useCanvas lib _ _)).trans hu1
  exact (keydown_dispatch lib _ k hu2).2.1.mpr
    (handleEvents_keep_mark lib k between _ hb hd.2.2)

/-- Witness for C6: key 65 on a new surface owning Group, after `keydown 65, keyup 65`, with other events in between. -/
theorem keydown_debounced_until_keyup_witness :
    Input.fresh.useCanvas = true ∧
    (∀ e ∈ [Event.keydown 66, Event.keyup 66, Event.keydown 65, Event.blur],
      e ≠ Event.keyup 65) ∧
    ((handleEvent Imports.axes (Event.keydown 65)
        (handleEvents Imports.axes [Event.keydown 65, Event.keyup 65] Input.fresh).1).2
        = [Dispatch.keyDown (Imports.axes.KeyLookUp 65) 65] ↔
      (handleEvents Imports.axes [Event.keydown 65, Event.keyup 65] Input.fresh).1._keysDown 65
        = false) ∧
    ((handleEvent Imports.axes (Event.keydown 65)
        (handleEvents Imports.axes [Event.keydown 65, Event.keyup 65] Input.fresh).1).2 = [] ↔
      (handleEvents Imports.axes [Event.keydown 65, Event.keyup 65] Input.fresh).1._keysDown 65
        = true) ∧
    (handleEvent Imports.axes (Event.keydown 65)
      (handleEvents Imports.axes [Event.keydown 65, Event.keyup 65] Input.fresh).1).1._keysDown 65
        = true ∧
    (handleEvent Imports.axes (Event.keydown 65)
      (handleEvents Imports.axes [Event.keydown 66, Event.keyup 66, Event.keydown 65, Event.blur]
        (handleEvent Imports.axes (Event.keydown 65)
          (handleEvents Imports.axes [Event.keydown 65, Event.keyup 65] Input.fresh).1).1).1).2
        = [] ∧
    (handleEvent Imports.axes (Event.keyup 65)
      (handleEvents Imports.axes [Event.keydown 65, Event.keyup 65] Input.fresh).1).2
      = [Dispatch.keyUp (Imports.axes.KeyLookUp 65) 65] ∧
    (handleEvent Imports.axes (Event.keyup 65)
      (handleEvents Imports.axes [Event.keydown 65, Event.keyup 65] Input.fresh).1).1._keysDown 65
        = false :=
  ⟨rfl, by decide,
    keydown_debounced_until_keyup Imports.axes Input.fresh 65
      [Event.keydown 65, Event.keyup 65]
      [Event.keydown 66, Event.keyup 66, Event.keydown 65, Event.blur] rfl (by decide)⟩

/-- C10: on the code the claim fails for the `finger` argument.  Contacts 0
and 1 begin, contact 0 ends, contact 1 moves and ends: the begin dispatch of
contact 1 gets the `finger` argument 1, its move and end dispatches get 0, the
index of its entry in `_touches`; the `finger` field of the snapshot is 1 in
all three. -/
theorem move_and_end_pass_registry_index :
    (handleEvents Imports.axes twoFingerGesture Input.fresh).2 =
      [[Dispatch.mouseDown (entryAtOrigin 0 0) 0, Dispatch.mouseDown (entryAtOrigin 1 1) 1,
          Dispatch.touchStart [entryAtOrigin 0 0, entryAtOrigin 1 1]],
        [Dispatch.mouseUp { entryAtOrigin 0 0 with down := false } 0,
          Dispatch.touchEnd [entryAtOrigin 1 1]],
        [Dispatch.mouseMove entryMoved (some 0), Dispatch.touchMove [entryMoved]],
        [Dispatch.mouseUp { entryMoved with down := false } 0, Dispatch.touchEnd []]] ∧
    fingersUsed 1 (handleEvents Imports.axes twoFingerGesture Input.fresh).2.flatten =
      [(1, some 1), (1, some 0), (1, some 0)] := by
  decide!

end DeviceEventClaims

section Dispatch

theorem visitChildren_firstMatch (objects : List Ref) (guard : World → Ref → Bool)
    (handler : Ref → Option (World → Bool × World)) :
    ∀ (l : List (Nat × Ref)) (w : World),
      (l.map fun p => p.1).Pairwise (fun i j => j < i) →
      (∀ p ∈ l, objects[p.1]? = some p.2) →
      FirstMatch objects (fun v o => guard v o && (handler o).isSome) handler
          (visitChildren guard handler l w).2 ∧
        ∀ v ∈ (visitChildren guard handler l w).2, v.index ∈ l.map fun p => p.1
  | [], w, _, _ => by
    simp [visitChildren, FirstMatch]
  | (i, object) :: rest, w, hd, hm => by
    have hd' := (List.pairwise_cons.mp hd).2
    have hlt := (List.pairwise_cons.mp hd).1
    have hm' : ∀ p ∈ rest, objects[p.1]? = some p.2 :=
      fun p hp => hm p (List.mem_cons_of_mem _ hp)
    have hi : objects[i]? = some object := hm (i, object) (List.mem_cons_self _ _)
    rw [visitChildren]
    cases hg : guard w object <;> cases hh : handler object
    · have ih := visitChildren_firstMatch objects guard handler rest w hd' hm'
      exact ⟨ih.1, fun v hv => List.mem_cons_of_mem _ (ih.2 v hv)⟩
    · have ih := visitChildren_firstMatch objects guard handler rest w hd' hm'
      exact ⟨ih.1, fun v hv => List.mem_cons_of_mem _ (ih.2 v hv)⟩
    · have ih := visitChildren_firstMatch objects guard handler rest w hd' hm'
      exact ⟨ih.1, fun v hv => List.mem_cons_of_mem _ (ih.2 v hv)⟩
    · rename_i h
      dsimp only
      cases hr : (h w).1
      · have ih := visitChildren_firstMatch objects guard handler rest (h w).2 hd' hm'
        simp only [Bool.false_eq_true, if_false]
        refine ⟨⟨?_, ?_, ?_⟩, ?_⟩
        · rw [List.map_cons, List.pairwise_cons]
          refine ⟨?_, ih.1.1⟩
          intro j hj
          obtain ⟨v, hv, rfl⟩ := List.mem_map.mp hj
          exact hlt _ (ih.2 v hv)
        · intro v hv
          rcases List.mem_cons.mp hv with rfl | hv
          · exact ⟨hi, by simp [hg, hh], by simp [returned, hh, hr]⟩
          · exact ih.1.2.1 v hv
        · intro v hv hc u hu
          rcases List.mem_cons.mp hv with rfl | hv
          · exact absurd hc (by simp)
          · rcases List.mem_cons.mp hu with rfl | hu
            · exact fun hlt' => Nat.lt_asymm hlt' (hlt _ (ih.2 v hv))
            · exact ih.1.2.2 v hv hc u hu
        · intro v hv
          rcases List.mem_cons.mp hv with rfl | hv
          · exact List.mem_cons_self _ _
          · exact List.mem_cons_of_mem _ (ih.2 v hv)
      · simp only [if_true]
        refine ⟨⟨by simp, ?_, ?_⟩, ?_⟩
        · intro v hv
          rw [List.mem_singleton] at hv
          subst hv
          exact ⟨hi, by simp [hg, hh], by simp [returned, hh, hr]⟩
        · intro v hv _ u hu
          rw [List.mem_singleton] at hv hu
          subst hv hu
          exact Nat.lt_irrefl _
        · intro v hv
          rw [List.mem_singleton] at hv
          subst hv
          exact List.mem_cons_self _ _

theorem topmostFirst_decreasing (objects : List Ref) :
    ((topmostFirst objects).map fun p => p.1).Pairwise (fun i j => j < i) := by
  unfold topmostFirst
  rw [List.map_reverse, List.pairwise_reverse]
  have h : (objects.enum.map fun p => p.1) = List.range objects.length := List.enum_map_fst _
  rw [h]
  exact List.pairwise_lt_range _

theorem topmostFirst_get (objects : List Ref) :
    ∀ p ∈ topmostFirst objects, objects[p.1]? = some p.2 := by
  intro p hp
  unfold topmostFirst at hp
  exact List.mem_enum_iff_getElem?.mp (List.mem_reverse.mp hp)

theorem dispatch_firstMatch (guard : World → Ref → Bool)
    (handler : Ref → Option (World → Bool × World)) (objects : List Ref) (w : World) :
    FirstMatch objects (fun v o => guard v o && (handler o).isSome) handler
      (visitChildren guard handler (topmostFirst objects) w).2 :=
  (visitChildren_firstMatch objects guard handler (topmostFirst objects) w
    (topmostFirst_decreasing objects) (topmostFirst_get objects)).1

end Dispatch

section DispatchClaims

theorem firstMatch_congr {objects : List Ref} {e₁ e₂ : World → Ref → Bool}
    {handler : Ref → Option (World → Bool × World)} {visits : List Visit}
    (he : ∀ v o, e₁ v o = e₂ v o) (h : FirstMatch objects e₁ handler visits) :
    FirstMatch objects e₂ handler visits :=
  ⟨h.1, fun v hv => ⟨(h.2.1 v hv).1, (he _ _) ▸ (h.2.1 v hv).2.1, (h.2.1 v hv).2.2⟩, h.2.2⟩

/-- C5: for each of the eight dispatch methods of a Group, whatever the
handlers do to the heap: the handlers are invoked in order of strictly
decreasing index in the child list as it was when the method was called; a
child is invoked only if, when its turn comes, it is active and exposes the
handler and, for the pointer and touch methods, its `useCanvas` is not true;
and once a handler has returned a truthy value no child of a lower index is
invoked. -/
theorem dispatch_visits_topmost_first_until_consumed (H : Handlers) (self : Ref)
    (key : KeyEvent) (mouse : Pointer) (finger : Option Nat) (touches : List Pointer)
    (w : World) :
    FirstMatch (w.objects self) (fun v o => v.active o && (H.keyDown o).isSome)
      (fun o => (H.keyDown o).map fun h => h key self) (keyDown H self key w).2 ∧
    FirstMatch (w.objects self) (fun v o => v.active o && (H.keyUp o).isSome)
      (fun o => (H.keyUp o).map fun h => h key self) (keyUp H self key w).2 ∧
    FirstMatch (w.objects self)
      (fun v o => !v.useCanvas o && v.active o && (H.mouseDown o).isSome)
      (fun o => (H.mouseDown o).map fun h => h (toLocal w self mouse) self)
      (mouseDown H self mouse finger w).2 ∧
    FirstMatch (w.objects self)
      (fun v o => !v.useCanvas o && v.active o && (H.mouseUp o).isSome)
      (fun o => (H.mouseUp o).map fun h => h (toLocal w self mouse) self)
      (mouseUp H self mouse finger w).2 ∧
    FirstMatch (w.objects self)
      (fun v o => !v.useCanvas o && v.active o && (H.mouseMove o).isSome)
      (fun o => (H.mouseMove o).map fun h => h (toLocal w self mouse) self)
      (mouseMove H self mouse finger w).2 ∧
    FirstMatch (w.objects self)
      (fun v o => !v.useCanvas o && v.active o && (H.touchStart o).isSome)
      (fun o => (H.touchStart o).map fun h => h (touches.map (toLocal w self)) self)
      (touchStart H self touches w).2 ∧
    FirstMatch (w.objects self)
      (fun v o => !v.useCanvas o && v.active o && (H.touchMove o).isSome)
      (fun o => (H.touchMove o).map fun h => h (touches.map (toLocal w self)) self)
      (touchMove H self touches w).2 ∧
    FirstMatch (w.objects self)
      (fun v o => !v.useCanvas o && v.active o && (H.touchEnd o).isSome)
      (fun o => (H.touchEnd o).map fun h => h (touches.map (toLocal w self)) self)
      (touchEnd H self touches w).2 := by
  refine ⟨?_, ?_, ?_, ?_, ?_, ?_, ?_, ?_⟩ <;>
    exact firstMatch_congr (fun v o => by simp) (dispatch_firstMatch _ _ _ _)

end DispatchClaims

section DispatchRuns

/-- A run of `keyDown` on the Group at 0 with the children 1, 2, 3, 4: the
child 4 exposes no handler, the handler of 3 returns a falsy value and the
handler of 2 a truthy one, so the children at the indices 2 and 1 are invoked
and the child 1 is not. -/
theorem keyDown_run_stops_at_first_consumer :
    sceneFourChildren.objects 0 = [1, 2, 3, 4] ∧
    (keyDown
        (Handlers.constant fun o =>
          if o = 3 then some false else if o = 2 ∨ o = 1 then some true else none)
        0 ⟨none, 65, fun _ => false⟩ sceneFourChildren).2.map
        (fun v => (v.index, v.object, v.consumed))
      = [(2, 3, false), (1, 2, true)] := by
  decide

end DispatchRuns

section Cycle

theorem tame_repaint (B : Own) (w : World) (cc dc : Ref → Bool) (cs : List Call) :
    ∀ (n : Nat) (g : Ref), Tame B (repaint w cc dc cs) n g ↔ Tame B w n g
  | 0, _ => Iff.rfl
  | n + 1, g => by
    simp only [Tame]
    constructor
    · rintro ⟨h1, h2, h3, h4, h5⟩
      exact ⟨h1, h2, h3, h4, fun o ho => (tame_repaint B w cc dc cs n o).mp (h5 o ho)⟩
    · rintro ⟨h1, h2, h3, h4, h5⟩
      exact ⟨h1, h2, h3, h4, fun o ho => (tame_repaint B w cc dc cs n o).mpr (h5 o ho)⟩

theorem descendants_repaint (w : World) (cc dc : Ref → Bool) (cs : List Call) :
    ∀ (n : Nat) (g : Ref), descendants (repaint w cc dc cs) n g = descendants w n g
  | 0, _ => rfl
  | n + 1, g => by
    simp only [descendants]
    have h : descendants (repaint w cc dc cs) n = descendants w n :=
      funext (descendants_repaint w cc dc cs n)
    rw [h]
    rfl

theorem mem_descendants_self (w : World) : ∀ (n : Nat) (g : Ref), g ∈ descendants w n g
  | 0, _ => List.mem_singleton.mpr rfl
  | _ + 1, _ => List.mem_cons_self _ _

theorem repaint_self (w : World) : repaint w w.clearCanvas w.drawCanvas w.calls = w := rfl

theorem repaint_repaint (w : World) (a b a' b' : Ref → Bool) (c c' : List Call) :
    repaint (repaint w a b c) a' b' c' = repaint w a' b' c' := rfl

theorem propagate_eq (self object : Ref) (w : World) (c : Call) :
    ∃ cc dc, (propagateDraw self object (propagateClear self object w)).record c
        = repaint w cc dc (w.calls ++ [c]) ∧
      (∀ r, r ≠ self → r ≠ object → cc r = w.clearCanvas r ∧ dc r = w.drawCanvas r) ∧
      (dc self = (w.drawCanvas self || (w.drawCanvas object || w.autoDrawCanvas object)) ∨
        self = object) := by
  unfold propagateDraw propagateClear
  by_cases h1 : (w.clearCanvas object || w.autoClearCanvas object) = true <;>
    by_cases h2 : (w.drawCanvas object || w.autoDrawCanvas object) = true
  · rw [if_pos h1, if_pos h2]
    refine ⟨_, _, rfl, fun r hs ho => ⟨by simp [upd_apply, hs, ho], by simp [upd_apply, hs, ho]⟩,
      ?_⟩
    by_cases hso : self = object
    · exact Or.inr hso
    · left
      simp [upd_apply, hso, h2]
  · rw [if_pos h1, if_neg h2]
    refine ⟨_, _, rfl, fun r hs ho => ⟨by simp [upd_apply, hs, ho], rfl⟩, ?_⟩
    left
    simp only [Bool.not_eq_true] at h2
    simp [h2]
  · rw [if_neg h1, if_pos h2]
    refine ⟨_, _, rfl, fun r hs ho => ⟨rfl, by simp [upd_apply, hs, ho]⟩, ?_⟩
    by_cases hso : self = object
    · exact Or.inr hso
    · left
      simp [upd_apply, hso, h2]
  · rw [if_neg h1, if_neg h2]
    refine ⟨_, _, rfl, fun r _ _ => ⟨rfl, rfl⟩, ?_⟩
    left
    simp only [Bool.not_eq_true] at h2
    simp [h2]

theorem step_succ (B : Own) (fuel : Nat) (self : Ref) (deltaTime : Int) (w : World) :
    step B (fuel + 1) self deltaTime w =
      (stepLoop (callStep B (step B fuel)) B self deltaTime (w.objects self) w).bind
        (stepSurface B fuel self) := rfl

theorem draw_succ (B : Own) (fuel : Nat) (self : Ref) (context : Context)
    (matrix : Transform) (w : World) :
    draw B (fuel + 1) self context matrix w =
      drawLoop (callDraw B (draw B fuel)) B self
        (if w.useCanvas self then Context.of self else context)
        (if w.useCanvas self then Transform.of self else matrix)
        (w.objects self) (clearDrawFlag self w) := rfl

theorem tame_fields {B : Own} {w : World} {n : Nat} {g : Ref} (h : Tame B w n g) :
    B.step g = none ∧ B.draw g = none ∧ w.isGroup g = true ∧ w.useCanvas g = false := by
  cases n with
  | zero => exact absurd h (by simp [Tame])
  | succ n => exact ⟨h.1, h.2.1, h.2.2.1, h.2.2.2.1⟩

theorem stepLoop_tame (B : Own) (n : Nat) (self : Ref) (dt : Int)
    (callStep : Ref → Int → Ref → World → Option World)
    (hcs : ∀ o v, Tame B v n o → StepsQuietly n o v (callStep o dt self v)) :
    ∀ (children : List Ref) (w : World), (∀ o ∈ children, Tame B w n o) →
      ∃ cc dc t, stepLoop callStep B self dt children w = some (repaint w cc dc (w.calls ++ t)) ∧
        (∀ r, r ≠ self → (∀ o ∈ children, r ∉ descendants w n o) →
          cc r = w.clearCanvas r ∧ dc r = w.drawCanvas r) ∧
        ∀ x ∈ t, Call.isStep x = true
  | [], w, _ =>
    ⟨w.clearCanvas, w.drawCanvas, [], by simp [stepLoop, repaint], fun _ _ _ => ⟨rfl, rfl⟩,
      fun _ hx => absurd hx (List.not_mem_nil _)⟩
  | o :: rest, w, ht => by
    have hto := ht o (List.mem_cons_self _ _)
    have htr : ∀ o' ∈ rest, Tame B w n o' := fun o' h' => ht o' (List.mem_cons_of_mem _ h')
    obtain ⟨_, _, hg, hu⟩ := tame_fields hto
    rw [stepLoop]
    by_cases ha : w.active o = true
    · have hc1 : (w.active o && exposesStep B w o) = true := by simp [ha, exposesStep, hg]
      have hc2 : (w.isGroup o && !w.useCanvas o) = true := by simp [hg, hu]
      rw [if_pos hc1, if_pos hc2]
      obtain ⟨cc1, dc1, e1, f1, _⟩ := propagate_eq self o w (Call.step o self dt)
      rw [e1]
      obtain ⟨cc2, dc2, t2, e2, f2, s2⟩ :=
        hcs o _ ((tame_repaint B w cc1 dc1 _ n o).mpr hto)
      rw [e2, Option.some_bind, repaint_repaint]
      obtain ⟨cc3, dc3, t3, e3, f3, s3⟩ :=
        stepLoop_tame B n self dt callStep hcs rest
          (repaint w cc2 dc2 ((repaint w cc1 dc1 (w.calls ++ [Call.step o self dt])).calls ++ t2))
          (fun o' h' => (tame_repaint B w _ _ _ n o').mpr (htr o' h'))
      rw [e3, repaint_repaint]
      refine ⟨cc3, dc3, Call.step o self dt :: (t2 ++ t3), ?_, ?_, ?_⟩
      · show some (repaint w cc3 dc3 (((w.calls ++ [Call.step o self dt]) ++ t2) ++ t3)) = _
        simp
      · intro r hrs hrd
        have hro : r ∉ descendants w n o := hrd o (List.mem_cons_self _ _)
        have hne : r ≠ o := fun h => hro (h ▸ mem_descendants_self w n o)
        have h3 := f3 r hrs (fun o' h' => by
          rw [descendants_repaint]
          exact hrd o' (List.mem_cons_of_mem _ h'))
        have h2 := f2 r (by rw [descendants_repaint]; exact hro)
        have h1 := f1 r hrs hne
        exact ⟨h3.1.trans (h2.1.trans h1.1), h3.2.trans (h2.2.trans h1.2)⟩
      · intro x hx
        rcases List.mem_cons.mp hx with rfl | hx
        · rfl
        · rcases List.mem_append.mp hx with hx | hx
          · exact s2 x hx
          · exact s3 x hx
    · have hc1 : ¬ (w.active o && exposesStep B w o) = true := by simp [ha]
      rw [if_neg hc1]
      obtain ⟨cc3, dc3, t3, e3, f3, s3⟩ := stepLoop_tame B n self dt callStep hcs rest w htr
      exact ⟨cc3, dc3, t3, e3,
        fun r hrs hrd => f3 r hrs (fun o' h' => hrd o' (List.mem_cons_of_mem _ h')), s3⟩

theorem step_tame (B : Own) (dt : Int) :
    ∀ (n : Nat) (g : Ref) (w : World), Tame B w n g → StepsQuietly n g w (step B n g dt w)
  | 0, _, _, h => absurd h (by simp [Tame])
  | n + 1, g, w, h => by
    obtain ⟨_, _, _, hu, hch⟩ := h
    rw [step_succ]
    obtain ⟨cc, dc, t, e, f, s⟩ := stepLoop_tame B n g dt (callStep B (step B n))
      (fun o v hov => by
        obtain ⟨hs, _, hg, _⟩ := tame_fields hov
        unfold callStep
        rw [hs]
        dsimp only
        rw [hg, if_pos rfl]
        exact step_tame B dt n o v hov) (w.objects g) w hch
    rw [e, Option.some_bind]
    refine ⟨cc, dc, t, ?_, ?_, s⟩
    · unfold stepSurface
      have : (repaint w cc dc (w.calls ++ t)).useCanvas g = false := hu
      rw [this]
      rfl
    · intro r hr
      simp only [descendants, List.mem_cons, List.mem_flatMap, not_or, not_exists, not_and] at hr
      exact f r hr.1 hr.2

theorem drawLoop_tame (B : Own) (n : Nat) (self : Ref) (c : Context) (m : Transform)
    (callDraw : Ref → Context → Transform → World → Option World)
    (hcd : ∀ o c' m' v, Tame B v n o → DrawsQuietly n o v (callDraw o c' m' v)) :
    ∀ (children : List Ref) (w : World), (∀ o ∈ children, Tame B w n o) →
      ∃ dc t, drawLoop callDraw B self c m children w
          = some (repaint w w.clearCanvas dc (w.calls ++ t)) ∧
        (∀ r, (∀ o ∈ children, r ∉ descendants w n o) → dc r = w.drawCanvas r) ∧
        ∀ x ∈ t, Call.isDraw x = true
  | [], w, _ =>
    ⟨w.drawCanvas, [], by simp [drawLoop, repaint], fun _ _ => rfl,
      fun _ hx => absurd hx (List.not_mem_nil _)⟩
  | o :: rest, w, ht => by
    have hto := ht o (List.mem_cons_self _ _)
    have htr : ∀ o' ∈ rest, Tame B w n o' := fun o' h' => ht o' (List.mem_cons_of_mem _ h')
    have key : ∀ m' : Transform, ∃ dc t,
        (callDraw o c m' (w.record (Call.draw o self c m'))).bind
            (drawLoop callDraw B self c m rest)
          = some (repaint w w.clearCanvas dc (w.calls ++ t)) ∧
        (∀ r, (∀ o' ∈ o :: rest, r ∉ descendants w n o') → dc r = w.drawCanvas r) ∧
        ∀ x ∈ t, Call.isDraw x = true := by
      intro m'
      obtain ⟨dc2, t2, e2, f2, s2⟩ := hcd o c m' (w.record (Call.draw o self c m'))
        ((tame_repaint B w _ _ _ n o).mpr hto)
      rw [e2, Option.some_bind]
      obtain ⟨dc3, t3, e3, f3, s3⟩ :=
        drawLoop_tame B n self c m callDraw hcd rest
          (repaint (w.record (Call.draw o self c m')) w.clearCanvas dc2
            ((w.calls ++ [Call.draw o self c m']) ++ t2))
          (fun o' h' => (tame_repaint B w _ _ _ n o').mpr (htr o' h'))
      refine ⟨dc3, Call.draw o self c m' :: (t2 ++ t3), ?_, ?_, ?_⟩
      · refine e3.trans ?_
        show some (repaint w w.clearCanvas dc3
          (((w.calls ++ [Call.draw o self c m']) ++ t2) ++ t3)) = _
        simp
      · intro r hrd
        have h3 := f3 r (fun o' h' => by
          have := hrd o' (List.mem_cons_of_mem _ h')
          exact (descendants_repaint w _ _ _ n o') ▸ this)
        have h2 := f2 r (by
          have := hrd o (List.mem_cons_self _ _)
          exact (descendants_repaint w _ _ _ n o) ▸ this)
        exact h3.trans h2
      · intro x hx
        rcases List.mem_cons.mp hx with rfl | hx
        · rfl
        · rcases List.mem_append.mp hx with hx | hx
          · exact s2 x hx
          · exact s3 x hx
    rw [drawLoop]
    split
    · split
      · exact key _
      · exact key _
    · obtain ⟨dc3, t3, e3, f3, s3⟩ := drawLoop_tame B n self c m callDraw hcd rest w htr
      exact ⟨dc3, t3, e3, fun r hrd => f3 r (fun o' h' => hrd o' (List.mem_cons_of_mem _ h')), s3⟩

theorem draw_tame (B : Own) :
    ∀ (n : Nat) (g : Ref) (c : Context) (m : Transform) (w : World), Tame B w n g →
      DrawsQuietly n g w (draw B n g c m w)
  | 0, _, _, _, _, h => absurd h (by simp [Tame])
  | n + 1, g, c, m, w, h => by
    obtain ⟨_, _, _, _, hch⟩ := h
    rw [draw_succ]
    obtain ⟨dc, t, e, f, s⟩ := drawLoop_tame B n g
      (if w.useCanvas g then Context.of g else c)
      (if w.useCanvas g then Transform.of g else m) (callDraw B (draw B n))
      (fun o c' m' v hov => by
        obtain ⟨_, hd, hg, _⟩ := tame_fields hov
        unfold callDraw
        rw [hd]
        dsimp only
        rw [hg, if_pos rfl]
        exact draw_tame B n o c' m' v hov) (w.objects g) (clearDrawFlag g w)
      (fun o ho => (tame_repaint B w _ _ _ n o).mpr (hch o ho))
    refine ⟨dc, t, e, ?_, s⟩
    intro r hr
    simp only [descendants, List.mem_cons, List.mem_flatMap, not_or, not_exists, not_and] at hr
    have h1 := f r (fun o ho => by
      have := hr.2 o ho
      exact (descendants_repaint w _ _ _ n o) ▸ this)
    refine h1.trans ?_
    show upd w.drawCanvas g false r = w.drawCanvas r
    exact upd_ne _ _ hr.1

theorem tame_mono (B : Own) (w : World) : ∀ (n : Nat) (g : Ref), Tame B w n g → Tame B w (n + 1) g
  | 0, _, h => absurd h (by simp [Tame])
  | n + 1, g, h =>
    ⟨h.1, h.2.1, h.2.2.1, h.2.2.2.1, fun o ho => tame_mono B w n o (h.2.2.2.2 o ho)⟩

theorem stepClear_eq (self : Ref) (w : World) :
    ∃ cc tc, stepClear self w = repaint w cc w.drawCanvas (w.calls ++ tc) ∧
      (tc = [] ∨ tc = [Call.clear self]) := by
  unfold stepClear
  split
  · exact ⟨_, [Call.clear self], rfl, Or.inr rfl⟩
  · exact ⟨w.clearCanvas, [], by simp [repaint], Or.inl rfl⟩

theorem repaint_calls (w : World) (a b : Ref → Bool) (c : List Call) :
    (repaint w a b c).calls = c := rfl

theorem repaint_drawCanvas (w : World) (a b : Ref → Bool) (c : List Call) :
    (repaint w a b c).drawCanvas = b := rfl

theorem repaint_clearCanvas (w : World) (a b : Ref → Bool) (c : List Call) :
    (repaint w a b c).clearCanvas = a := rfl

theorem repaint_useCanvas (w : World) (a b : Ref → Bool) (c : List Call) :
    (repaint w a b c).useCanvas = w.useCanvas := rfl

theorem repaint_isGroup (w : World) (a b : Ref → Bool) (c : List Call) :
    (repaint w a b c).isGroup = w.isGroup := rfl

theorem repaint_objects (w : World) (a b : Ref → Bool) (c : List Call) :
    (repaint w a b c).objects = w.objects := rfl

theorem repaint_autoDrawCanvas (w : World) (a b : Ref → Bool) (c : List Call) :
    (repaint w a b c).autoDrawCanvas = w.autoDrawCanvas := rfl

theorem repaint_autoClearCanvas (w : World) (a b : Ref → Bool) (c : List Call) :
    (repaint w a b c).autoClearCanvas = w.autoClearCanvas := rfl

theorem repaint_record (w : World) (a b : Ref → Bool) (c : List Call) (x : Call) :
    (repaint w a b c).record x = repaint w a b (c ++ [x]) := rfl

theorem clearDrawFlag_repaint (g : Ref) (w : World) (a b : Ref → Bool) (c : List Call) :
    clearDrawFlag g (repaint w a b c) = repaint w a (upd b g false) c := rfl

theorem stepDraw_dirty (B : Own) (fuel : Nat) (R : Ref) (v : World) (hBR : B.draw R = none)
    (hg : v.isGroup R = true) (hd : (v.drawCanvas R || v.autoDrawCanvas R) = true) :
    stepDraw B fuel R v
      = draw B fuel R Context.undefined Transform.undefined (v.record (Call.drawSelf R)) := by
  unfold stepDraw callDraw
  rw [if_pos hd, hBR]
  dsimp only
  have : (v.record (Call.drawSelf R)).isGroup R = true := hg
  rw [this, if_pos rfl]

theorem callStep_group (B : Own) (f : Ref → Int → World → Option World) (G : Ref) (dt : Int)
    (p : Ref) (v : World) (hs : B.step G = none) (hg : v.isGroup G = true) :
    callStep B f G dt p v = f G dt v := by
  unfold callStep
  rw [hs]
  dsimp only
  rw [hg, if_pos rfl]

theorem callDraw_group (B : Own) (f : Ref → Context → Transform → World → Option World)
    (G : Ref) (c : Context) (m : Transform) (v : World) (hs : B.draw G = none)
    (hg : v.isGroup G = true) : callDraw B f G c m v = f G c m v := by
  unfold callDraw
  rw [hs]
  dsimp only
  rw [hg, if_pos rfl]

/-- One call of `step` on a surface owning Group `R` whose only child `G` is an
active tame Group carrying a draw request: the trace is the `step` call on
`G`, `step` calls below it, at most a `clear` of `R`, the call `R.draw()`, and
`draw` calls on children. -/
theorem step_root_over_tame_child (B : Own) (n : Nat) (w : World) (R G : Ref) (dt : Int)
    (hBR : B.draw R = none) (hgR : w.isGroup R = true) (huR : w.useCanvas R = true)
    (hobj : w.objects R = [G]) (ht : Tame B w n G) (hact : w.active G = true)
    (hdirty : (w.drawCanvas G || w.autoDrawCanvas G) = true)
    (hnot : R ∉ descendants w (n + 1) G) :
    ∃ w' ts tc td, step B (n + 2) R dt w = some w' ∧
      w'.calls = w.calls ++ (Call.step G R dt :: ts ++ tc ++ Call.drawSelf R :: td) ∧
      (∀ x ∈ ts, Call.isStep x = true) ∧ (tc = [] ∨ tc = [Call.clear R]) ∧
      (∀ x ∈ td, Call.isDraw x = true) := by
  have ht1 := tame_mono B w n G ht
  obtain ⟨hsG, _, hgG, huG⟩ := tame_fields ht
  have hRG : R ≠ G := fun h => hnot (h ▸ mem_descendants_self w (n + 1) R)
  rw [step_succ, hobj]
  simp only [stepLoop]
  have hc1 : (w.active G && exposesStep B w G) = true := by simp [hact, exposesStep, hgG]
  have hc2 : (w.isGroup G && !w.useCanvas G) = true := by simp [hgG, huG]
  rw [if_pos hc1, if_pos hc2]
  obtain ⟨cc1, dc1, e1, _, hdc⟩ := propagate_eq R G w (Call.step G R dt)
  rw [e1]
  have hdcR : dc1 R = true := by
    rcases hdc with h | h
    · rw [h, hdirty]; simp
    · exact absurd h hRG
  rw [callStep_group B _ G dt R (repaint w cc1 dc1 (w.calls ++ [Call.step G R dt])) hsG hgG]
  obtain ⟨cc2, dc2, ts, e2, f2, s2⟩ :=
    step_tame B dt (n + 1) G (repaint w cc1 dc1 (w.calls ++ [Call.step G R dt]))
      ((tame_repaint B w cc1 dc1 _ (n + 1) G).mpr ht1)
  have hdc2 : dc2 R = true := by
    have := (f2 R (by rw [descendants_repaint]; exact hnot)).2
    exact this.trans hdcR
  rw [e2]
  simp only [Option.some_bind, repaint_repaint, repaint_calls]
  unfold stepSurface
  simp only [repaint_useCanvas, huR, if_true]
  obtain ⟨cc3, tc, e3, htc⟩ := stepClear_eq R
    (repaint w cc2 dc2 (w.calls ++ [Call.step G R dt] ++ ts))
  rw [e3]
  simp only [repaint_repaint, repaint_calls, repaint_drawCanvas]
  rw [stepDraw_dirty B (n + 1) R
    (repaint w cc3 dc2 (w.calls ++ [Call.step G R dt] ++ ts ++ tc)) hBR hgR (by
    show (dc2 R || w.autoDrawCanvas R) = true
    rw [hdc2]; rfl)]
  rw [draw_succ]
  simp only [repaint_record, repaint_useCanvas, repaint_objects, clearDrawFlag_repaint, huR,
    hobj, if_true]
  obtain ⟨dc5, td, e5, _, s5⟩ := drawLoop_tame B n R (Context.of R) (Transform.of R)
    (callDraw B (draw B n))
    (fun o c' m' v hov => by
      obtain ⟨_, hd, hg, _⟩ := tame_fields hov
      rw [callDraw_group B _ o c' m' v hd hg]
      exact draw_tame B n o c' m' v hov)
    [G] (repaint w cc3 (upd dc2 R false)
      (w.calls ++ [Call.step G R dt] ++ ts ++ tc ++ [Call.drawSelf R]))
    (fun o ho => by
      rw [List.mem_singleton.mp ho]
      exact (tame_repaint B w _ _ _ n G).mpr ht)
  rw [e5]
  refine ⟨_, ts, tc, td, rfl, ?_, s2, htc, s5⟩
  simp only [repaint_repaint, repaint_calls]
  simp

end Cycle

section CycleClaims

theorem descendants_chain (w : World) (G1 G2 G3 : Ref) (h1 : w.objects G1 = [G2])
    (h2 : w.objects G2 = [G3]) (h3 : w.objects G3 = []) (k : Nat) :
    descendants w (k + 2) G1 = [G1, G2, G3] := by
  have e3 : descendants w k G3 = [G3] := by
    cases k with
    | zero => rfl
    | succ k => simp [descendants, h3]
  simp [descendants, h1, h2, e3]

theorem count_eq_zero_of_isStep {t : List Call} {c : Call} (h : ∀ x ∈ t, Call.isStep x = true)
    (hc : Call.isStep c = false) : c ∉ t :=
  fun hm => absurd (h c hm) (by rw [hc]; simp)

theorem count_eq_zero_of_isDraw {t : List Call} {c : Call} (h : ∀ x ∈ t, Call.isDraw x = true)
    (hc : Call.isDraw c = false) : c ∉ t :=
  fun hm => absurd (h c hm) (by rw [hc]; simp)

/-- C8: a surface owning root `R` over a chain of three nested active non
surface owning Groups, each with `drawCanvas` set and none defining `step` or
`draw` itself: one call of `step` on the root returns, calls the root's own
`draw` exactly once, and calls neither `clear` nor `draw` from the `step` of a
nested Group. -/
theorem chain_of_three_draws_root_once (B : Own) (fuel : Nat) (w : World)
    (R G1 G2 G3 : Ref) (dt : Int) (hd : [R, G1, G2, G3].Nodup)
    (hown : ∀ g ∈ [R, G1, G2, G3], B.step g = none ∧ B.draw g = none)
    (hRg : w.isGroup R = true) (hRu : w.useCanvas R = true)
    (hch : ∀ g ∈ [G1, G2, G3],
      w.isGroup g = true ∧ w.useCanvas g = false ∧ w.active g = true ∧ w.drawCanvas g = true)
    (h0 : w.objects R = [G1]) (h1 : w.objects G1 = [G2]) (h2 : w.objects G2 = [G3])
    (h3 : w.objects G3 = []) :
    ∃ w' t, step B (fuel + 5) R dt w = some w' ∧ w'.calls = w.calls ++ t ∧
      t.count (Call.drawSelf R) = 1 ∧
      ∀ g ∈ [G1, G2, G3], Call.clear g ∉ t ∧ Call.drawSelf g ∉ t := by
  have hne : ∀ g ∈ [G1, G2, G3], R ≠ g := by
    intro g hg hRg'
    subst hRg'
    exact (List.nodup_cons.mp hd).1 hg
  have tame3 : ∀ k, Tame B w (k + 1) G3 := fun k =>
    ⟨(hown G3 (by simp)).1, (hown G3 (by simp)).2, (hch G3 (by simp)).1, (hch G3 (by simp)).2.1,
      fun o ho => by rw [h3] at ho; exact absurd ho (List.not_mem_nil _)⟩
  have tame2 : ∀ k, Tame B w (k + 2) G2 := fun k =>
    ⟨(hown G2 (by simp)).1, (hown G2 (by simp)).2, (hch G2 (by simp)).1, (hch G2 (by simp)).2.1,
      fun o ho => by
        rw [h2] at ho
        rw [List.mem_singleton.mp ho]
        exact tame3 k⟩
  have tame1 : ∀ k, Tame B w (k + 3) G1 := fun k =>
    ⟨(hown G1 (by simp)).1, (hown G1 (by simp)).2, (hch G1 (by simp)).1, (hch G1 (by simp)).2.1,
      fun o ho => by
        rw [h1] at ho
        rw [List.mem_singleton.mp ho]
        exact tame2 k⟩
  have hdirty : (w.drawCanvas G1 || w.autoDrawCanvas G1) = true := by
    rw [(hch G1 (by simp)).2.2.2]; rfl
  have hnot : R ∉ descendants w (fuel + 3 + 1) G1 := by
    rw [descendants_chain w G1 G2 G3 h1 h2 h3 (fuel + 2)]
    intro hm
    exact hne R hm rfl
  obtain ⟨w', ts, tc, td, e, hcalls, hs, hc, hdr⟩ :=
    step_root_over_tame_child B (fuel + 3) w R G1 dt (hown R (by simp)).2 hRg hRu h0
      (tame1 fuel) (hch G1 (by simp)).2.2.1 hdirty hnot
  refine ⟨w', _, e, hcalls, ?_, ?_⟩
  · have n1 : Call.drawSelf R ∉ ts := count_eq_zero_of_isStep hs rfl
    have n2 : Call.drawSelf R ∉ td := count_eq_zero_of_isDraw hdr rfl
    have n3 : Call.drawSelf R ∉ tc := by
      rcases hc with h | h <;> rw [h] <;> simp
    simp [List.count_cons, List.count_append, List.count_eq_zero_of_not_mem n1,
      List.count_eq_zero_of_not_mem n2, List.count_eq_zero_of_not_mem n3]
  · intro g hg
    have hRg' := hne g hg
    have a1 : Call.clear g ∉ ts := count_eq_zero_of_isStep hs rfl
    have a2 : Call.clear g ∉ td := count_eq_zero_of_isDraw hdr rfl
    have a3 : Call.clear g ∉ tc := by
      rcases hc with h | h <;> rw [h] <;> simp
      exact fun h' => hRg' h'.symm
    have b1 : Call.drawSelf g ∉ ts := count_eq_zero_of_isStep hs rfl
    have b2 : Call.drawSelf g ∉ td := count_eq_zero_of_isDraw hdr rfl
    have b3 : Call.drawSelf g ∉ tc := by
      rcases hc with h | h <;> rw [h] <;> simp
    constructor
    · simp [a1, a2, a3]
    · simp [b1, b2, b3]
      exact fun h' => hRg' h'.symm

/-- Witness for C8: the root at 0 over the chain of Groups 1, 2, 3. -/
theorem chain_of_three_draws_root_once_witness :
    [0, 1, 2, 3].Nodup ∧
    (∀ g ∈ [0, 1, 2, 3], Own.none.step g = none ∧ Own.none.draw g = none) ∧
    sceneChain.isGroup 0 = true ∧ sceneChain.useCanvas 0 = true ∧
    (∀ g ∈ [1, 2, 3], sceneChain.isGroup g = true ∧ sceneChain.useCanvas g = false ∧
      sceneChain.active g = true ∧ sceneChain.drawCanvas g = true) ∧
    sceneChain.objects 0 = [1] ∧ sceneChain.objects 1 = [2] ∧ sceneChain.objects 2 = [3] ∧
    sceneChain.objects 3 = [] ∧
    ∃ w' t, step Own.none 5 0 16 sceneChain = some w' ∧ w'.calls = sceneChain.calls ++ t ∧
      t.count (Call.drawSelf 0) = 1 ∧
      ∀ g ∈ [1, 2, 3], Call.clear g ∉ t ∧ Call.drawSelf g ∉ t :=
  ⟨by decide, fun _ _ => ⟨rfl, rfl⟩, by decide, by decide, by decide, by decide, by decide,
    by decide, by decide,
    chain_of_three_draws_root_once Own.none 0 sceneChain 0 1 2 3 16 (by decide)
      (fun _ _ => ⟨rfl, rfl⟩) (by decide) (by decide) (by decide) (by decide) (by decide)
      (by decide) (by decide)⟩

/-- C7, as stated, fails: root at 0 and child Group at 1, no auto flags, all
dirty flags clear, the child setting its own `clearCanvas` during its `step`.
After the one call `R.step(16)` the surface has not been cleared: the only
call made is the `step` of the child, whose request is still pending. -/
theorem clear_requested_in_step_not_served_in_that_step :
    ∃ w', step (Own.requestsClear 1) 2 0 16 sceneRootChild = some w' ∧
      w'.calls = sceneRootChild.calls ++ [Call.step 1 0 16] ∧
      (w'.calls.count (Call.clear 0)) = 0 ∧
      w'.clearCanvas 0 = false ∧ w'.drawCanvas 0 = false ∧ w'.clearCanvas 1 = true :=
  ⟨_, rfl, by decide, by decide, by decide, by decide, by decide⟩

/-- C7, amended: a surface owning root `R` without auto flags and with both
dirty flags clear, whose only child is an active non surface owning Group `G`
without auto flags and with both dirty flags clear, `G` setting its own
`clearCanvas` during its `step`.  The call `R.step(dt)` returns having made no
call but the `step` of `G`: the surface is not cleared, `R.clearCanvas` and
`R.drawCanvas` are false and the request stays on `G`.  The next call
`R.step(dt)` clears the surface exactly once and leaves `R.clearCanvas` and
`R.drawCanvas` false. -/
theorem clear_requested_in_step_served_in_next_step (B : Own) (fuel : Nat) (w : World)
    (R G : Ref) (dt : Int) (hRG : R ≠ G)
    (hstep : B.step G = some fun _ _ v => { v with clearCanvas := upd v.clearCanvas G true })
    (hRu : w.useCanvas R = true) (hRac : w.autoClearCanvas R = false)
    (hRad : w.autoDrawCanvas R = false) (hRc : w.clearCanvas R = false)
    (hRd : w.drawCanvas R = false) (hobj : w.objects R = [G]) (hGg : w.isGroup G = true)
    (hGa : w.active G = true) (hGu : w.useCanvas G = false)
    (hGac : w.autoClearCanvas G = false) (hGad : w.autoDrawCanvas G = false)
    (hGc : w.clearCanvas G = false) (hGd : w.drawCanvas G = false) :
    ∃ w₁ w₂, step B (fuel + 1) R dt w = some w₁ ∧
      w₁.calls = w.calls ++ [Call.step G R dt] ∧
      w₁.clearCanvas R = false ∧ w₁.drawCanvas R = false ∧ w₁.clearCanvas G = true ∧
      step B (fuel + 1) R dt w₁ = some w₂ ∧
      w₂.calls = w₁.calls ++ [Call.step G R dt, Call.clear R] ∧
      w₂.clearCanvas R = false ∧ w₂.drawCanvas R = false := by
  have hGR : G ≠ R := fun h => hRG h.symm
  refine ⟨repaint w (upd w.clearCanvas G true) w.drawCanvas (w.calls ++ [Call.step G R dt]),
    repaint w (upd (upd (upd (upd (upd w.clearCanvas G true) R true) G false) G true) R false)
      w.drawCanvas
      (w.calls ++ [Call.step G R dt] ++ [Call.step G R dt, Call.clear R]),
    ?_, rfl, ?_, hRd, ?_, ?_, rfl, ?_, hRd⟩
  · simp [step_succ, hobj, stepLoop, exposesStep, propagateClear, propagateDraw, callStep,
      hstep, stepSurface, stepClear, stepDraw, World.record, upd_apply, hRG, hRu, hRac, hRad,
      hRc, hRd, hGg, hGa, hGu, hGac, hGad, hGc, hGd, repaint]
  · simp [repaint, upd_apply, hRG, hRc]
  · simp [repaint, upd_apply]
  · simp [step_succ, hobj, stepLoop, exposesStep, propagateClear, propagateDraw, callStep,
      hstep, stepSurface, stepClear, stepDraw, World.record, upd_apply, hRG, hGR, hRu, hRac,
      hRad, hRc, hRd, hGg, hGa, hGu, hGac, hGad, hGc, hGd, repaint]
  · simp [repaint, upd_apply]

/-- Witness for C7 as amended: the root at 0 with the child Group at 1. -/
theorem clear_requested_in_step_served_in_next_step_witness :
    (0 : Ref) ≠ 1 ∧
    (Own.requestsClear 1).step 1
      = (some fun _ _ v => { v with clearCanvas := upd v.clearCanvas 1 true }) ∧
    sceneRootChild.useCanvas 0 = true ∧ sceneRootChild.autoClearCanvas 0 = false ∧
    sceneRootChild.autoDrawCanvas 0 = false ∧ sceneRootChild.clearCanvas 0 = false ∧
    sceneRootChild.drawCanvas 0 = false ∧ sceneRootChild.objects 0 = [1] ∧
    sceneRootChild.isGroup 1 = true ∧ sceneRootChild.active 1 = true ∧
    sceneRootChild.useCanvas 1 = false ∧ sceneRootChild.autoClearCanvas 1 = false ∧
    sceneRootChild.autoDrawCanvas 1 = false ∧ sceneRootChild.clearCanvas 1 = false ∧
    sceneRootChild.drawCanvas 1 = false ∧
    ∃ w₁ w₂, step (Own.requestsClear 1) 1 0 16 sceneRootChild = some w₁ ∧
      w₁.calls = sceneRootChild.calls ++ [Call.step 1 0 16] ∧
      w₁.clearCanvas 0 = false ∧ w₁.drawCanvas 0 = false ∧ w₁.clearCanvas 1 = true ∧
      step (Own.requestsClear 1) 1 0 16 w₁ = some w₂ ∧
      w₂.calls = w₁.calls ++ [Call.step 1 0 16, Call.clear 0] ∧
      w₂.clearCanvas 0 = false ∧ w₂.drawCanvas 0 = false :=
  ⟨by decide, rfl, by decide, by decide, by decide, by decide, by decide, by decide, by decide,
    by decide, by decide, by decide, by decide, by decide, by decide,
    clear_requested_in_step_served_in_next_step (Own.requestsClear 1) 0 sceneRootChild 0 1 16
      (by decide) rfl (by decide) (by decide) (by decide) (by decide) (by decide) (by decide)
      (by decide) (by decide) (by decide) (by decide) (by decide) (by decide) (by decide)⟩

end CycleClaims

section TouchScenario

theorem fingerIndex_nil : fingerIndex [] = 0 := rfl

theorem fingerIndex_single (t : Pointer) :
    fingerIndex [t] = if t.finger = 0 then 1 else 0 := by
  unfold fingerIndex defaultSort
  simp only [List.map_cons, List.map_nil, List.insertionSort, List.orderedInsert, firstHole]
  by_cases h : t.finger = 0
  · simp [h]
  · have h' : (0 : Nat) ≠ t.finger := fun e => h e.symm
    simp [h, h']

/-- C11: on a surface owning Group with an empty registry, whatever the
positions: a `touchstart` reporting the contacts `a` then `b` gives them the
finger indices 0 and 1; a `touchend` that reports `b` only removes `a`; and a
`touchstart` reporting `b` and a new contact `c` gives `c` the finger index 0,
in its entry and in its begin dispatch, while `b` keeps the index 1. -/
theorem first_freed_finger_is_reused (lib : Imports) (g : Input) (a b b₁ b₂ c : Contact)
    (hu : g.useCanvas = true) (h0 : g._touches = [])
    (hab : a.identifier ≠ b.identifier) (hb₁ : b₁.identifier = b.identifier)
    (hb₂ : b₂.identifier = b.identifier) (hcb : c.identifier ≠ b.identifier) :
    ((handleEvents lib [Event.touchstart [a, b]] g).1._touches.map
        fun t => (t.identifier, t.finger)) = [(some a.identifier, 0), (some b.identifier, 1)] ∧
    ((handleEvents lib [Event.touchstart [a, b], Event.touchend [b₁]] g).1._touches.map
        fun t => (t.identifier, t.finger)) = [(some b.identifier, 1)] ∧
    ((handleEvents lib [Event.touchstart [a, b], Event.touchend [b₁],
        Event.touchstart [b₂, c]] g).1._touches.map
        fun t => (t.identifier, t.finger)) = [(some b.identifier, 1), (some c.identifier, 0)] ∧
    fingersUsed c.identifier
        (handleEvent lib (Event.touchstart [b₂, c])
          (handleEvents lib [Event.touchstart [a, b], Event.touchend [b₁]] g).1).2
      = [(0, some 0)] := by
  have hba : b.identifier ≠ a.identifier := fun h => hab h.symm
  simp [handleEvents, handleEvent, hu, h0, touchStartOne, touchEndLoop, fingerIndex_nil,
    fingerIndex_single, hab, hba, hb₁, hb₂, hcb, fingersUsed]

/-- Witness for C11: the contacts "A", "B", "C" are 0, 1, 2 on a new surface
owning Group. -/
theorem first_freed_finger_is_reused_witness :
    Input.fresh.useCanvas = true ∧ Input.fresh._touches = [] ∧
    (⟨0, 10, 10⟩ : Contact).identifier ≠ (⟨1, 20, 20⟩ : Contact).identifier ∧
    (⟨1, 25, 20⟩ : Contact).identifier = (⟨1, 20, 20⟩ : Contact).identifier ∧
    (⟨1, 30, 20⟩ : Contact).identifier = (⟨1, 20, 20⟩ : Contact).identifier ∧
    (⟨2, 40, 40⟩ : Contact).identifier ≠ (⟨1, 20, 20⟩ : Contact).identifier ∧
    ((handleEvents Imports.axes [Event.touchstart [⟨0, 10, 10⟩, ⟨1, 20, 20⟩]]
        Input.fresh).1._touches.map fun t => (t.identifier, t.finger))
      = [(some 0, 0), (some 1, 1)] ∧
    ((handleEvents Imports.axes
        [Event.touchstart [⟨0, 10, 10⟩, ⟨1, 20, 20⟩], Event.touchend [⟨1, 25, 20⟩]]
        Input.fresh).1._touches.map fun t => (t.identifier, t.finger)) = [(some 1, 1)] ∧
    ((handleEvents Imports.axes
        [Event.touchstart [⟨0, 10, 10⟩, ⟨1, 20, 20⟩], Event.touchend [⟨1, 25, 20⟩],
          Event.touchstart [⟨1, 30, 20⟩, ⟨2, 40, 40⟩]]
        Input.fresh).1._touches.map fun t => (t.identifier, t.finger))
      = [(some 1, 1), (some 2, 0)] ∧
    fingersUsed 2
        (handleEvent Imports.axes (Event.touchstart [⟨1, 30, 20⟩, ⟨2, 40, 40⟩])
          (handleEvents Imports.axes
            [Event.touchstart [⟨0, 10, 10⟩, ⟨1, 20, 20⟩], Event.touchend [⟨1, 25, 20⟩]]
            Input.fresh).1).2
      = [(0, some 0)] :=
  ⟨rfl, rfl, by decide, rfl, rfl, by decide,
    first_freed_finger_is_reused Imports.axes Input.fresh ⟨0, 10, 10⟩ ⟨1, 20, 20⟩ ⟨1, 25, 20⟩
      ⟨1, 30, 20⟩ ⟨2, 40, 40⟩ rfl rfl (by decide) rfl rfl (by decide)⟩

end TouchScenario

section LocalSnapshot

theorem visits_got_handler (guard : World → Ref → Bool)
    (handler : Ref → Option (World → Bool × World)) (objects : List Ref) (w : World) :
    ∀ v ∈ (visitChildren guard handler (topmostFirst objects) w).2,
      ∃ h, handler v.object = some h ∧ v.consumed = (h v.before).1 := by
  intro v hv
  obtain ⟨_, he, hc⟩ := (dispatch_firstMatch guard handler objects w).2.1 v hv
  simp only [Bool.and_eq_true] at he
  obtain ⟨h, hh⟩ := Option.isSome_iff_exists.mp he.2
  refine ⟨h, hh, ?_⟩
  rw [hc, returned, hh]

/-- C12: a Group whose `inverseMatrix()` undoes the uniform scale by 2 with
the translation `(10, 10)`, and `mouseDown` called with a snapshot at
`(100, 50)`: every child handler invoked gets the snapshot `toLocal`, whose
position is `(45, 20)`; in general its position and start are the images of
the incoming position and start under the inverse matrix and its delta is
their difference. -/
theorem mouseDown_hands_over_local_snapshot (H : Handlers) (w : World) (self : Ref)
    (mouse : Pointer) (finger : Option Nat)
    (hinv : Inverts (w.inverseMatrix self) scaleTwoShiftTen)
    (hpos : mouse.position = ⟨100, 50⟩) :
    (∀ v ∈ (mouseDown H self mouse finger w).2,
      ∃ h, H.mouseDown v.object = some h ∧
        v.consumed = (h (toLocal w self mouse) self v.before).1) ∧
    (toLocal w self mouse).position = ⟨45, 20⟩ ∧
    (toLocal w self mouse).position = mouse.position.applyMatrix (w.inverseMatrix self) ∧
    (toLocal w self mouse).start = mouse.start.applyMatrix (w.inverseMatrix self) ∧
    (toLocal w self mouse).delta
      = (toLocal w self mouse).position.subtract (toLocal w self mouse).start := by
  refine ⟨?_, ?_, rfl, rfl, rfl⟩
  · intro v hv
    obtain ⟨h, hh, hc⟩ := visits_got_handler _ _ _ _ v hv
    cases hm : H.mouseDown v.object with
    | none => rw [hm] at hh; exact absurd hh (by simp)
    | some f =>
      rw [hm] at hh
      simp only [Option.map_some', Option.some.injEq] at hh
      exact ⟨f, rfl, by rw [hc, ← hh]⟩
  · show mouse.position.applyMatrix (w.inverseMatrix self) = ⟨45, 20⟩
    have h := hinv ⟨45, 20⟩
    have e : (⟨45, 20⟩ : Vector).applyMatrix scaleTwoShiftTen = ⟨100, 50⟩ := by
      simp only [Vector.applyMatrix, scaleTwoShiftTen]
      norm_num
    rw [e] at h
    rw [hpos, h]

theorem sceneScaled_inverts : Inverts (sceneScaled.inverseMatrix 0) scaleTwoShiftTen := by
  intro p
  have e : sceneScaled.inverseMatrix 0 = ⟨1 / 2, 0, 0, 1 / 2, -5, -5⟩ := by
    simp [sceneScaled, setInverseMatrix]
  rw [e]
  cases p with
  | mk x y =>
    simp only [Vector.applyMatrix, scaleTwoShiftTen, Vector.mk.injEq]
    constructor <;> ring

/-- Witness for C12: the scaled Group at 0; the handlers return a truthy value
exactly when they get the position `(45, 20)`, the start `(5, 10)` and the
delta `(40, 10)`. -/
theorem mouseDown_hands_over_local_snapshot_witness :
    Inverts (sceneScaled.inverseMatrix 0) scaleTwoShiftTen ∧
    ({ Pointer.rest with position := ⟨100, 50⟩, start := ⟨20, 30⟩ } : Pointer).position
      = ⟨100, 50⟩ ∧
    (∀ v ∈ (mouseDown (Handlers.expecting ⟨45, 20⟩ ⟨5, 10⟩ ⟨40, 10⟩) 0
          { Pointer.rest with position := ⟨100, 50⟩, start := ⟨20, 30⟩ } (some 0)
          sceneScaled).2,
      ∃ h, (Handlers.expecting ⟨45, 20⟩ ⟨5, 10⟩ ⟨40, 10⟩).mouseDown v.object = some h ∧
        v.consumed = (h (toLocal sceneScaled 0
          { Pointer.rest with position := ⟨100, 50⟩, start := ⟨20, 30⟩ }) 0 v.before).1) ∧
    (toLocal sceneScaled 0
      { Pointer.rest with position := ⟨100, 50⟩, start := ⟨20, 30⟩ }).position = ⟨45, 20⟩ ∧
    (toLocal sceneScaled 0
      { Pointer.rest with position := ⟨100, 50⟩, start := ⟨20, 30⟩ }).position
      = Vector.applyMatrix ⟨100, 50⟩ (sceneScaled.inverseMatrix 0) ∧
    (toLocal sceneScaled 0
      { Pointer.rest with position := ⟨100, 50⟩, start := ⟨20, 30⟩ }).start
      = Vector.applyMatrix ⟨20, 30⟩ (sceneScaled.inverseMatrix 0) ∧
    (toLocal sceneScaled 0
      { Pointer.rest with position := ⟨100, 50⟩, start := ⟨20, 30⟩ }).delta
      = (toLocal sceneScaled 0
          { Pointer.rest with position := ⟨100, 50⟩, start := ⟨20, 30⟩ }).position.subtract
        (toLocal sceneScaled 0
          { Pointer.rest with position := ⟨100, 50⟩, start := ⟨20, 30⟩ }).start :=
  ⟨sceneScaled_inverts, rfl,
    mouseDown_hands_over_local_snapshot (Handlers.expecting ⟨45, 20⟩ ⟨5, 10⟩ ⟨40, 10⟩)
      sceneScaled 0 { Pointer.rest with position := ⟨100, 50⟩, start := ⟨20, 30⟩ } (some 0)
      sceneScaled_inverts rfl⟩

/-- A run of `mouseDown` on the scaled Group at 0 with the snapshot at
`(100, 50)` that started at `(20, 30)`: the topmost child is invoked and gets
the position `(45, 20)`, the start `(5, 10)` and the delta `(40, 10)`. -/
theorem mouseDown_run_on_scaled_group :
    (mouseDown (Handlers.expecting ⟨45, 20⟩ ⟨5, 10⟩ ⟨40, 10⟩) 0
        { Pointer.rest with position := ⟨100, 50⟩, start := ⟨20, 30⟩ } (some 0)
        sceneScaled).2.map (fun v => (v.index, v.object, v.consumed))
      = [(3, 4, true)] := by
  decide!

end LocalSnapshot

section Clock

theorem handleEvent_clock (lib : Imports) (event : Event) (g : Input)
    (hb : event ≠ Event.blur) (hf : ∀ now, event ≠ Event.focus now) :
    (handleEvent lib event g).1._lastTime = g._lastTime ∧
      (handleEvent lib event g).1.focus = g.focus := by
  unfold handleEvent
  split
  · cases event with
    | touchstart touches =>
      exact ⟨foldl_touchStartOne_frame (fun g => g._lastTime) _ (fun _ _ _ _ => rfl) touches _,
        foldl_touchStartOne_frame (fun g => g.focus) _ (fun _ _ _ _ => rfl) touches _⟩
    | touchmove touches =>
      exact ⟨foldl_touchMoveOne_frame (fun g => g._lastTime) lib _ (fun _ _ => rfl) touches _,
        foldl_touchMoveOne_frame (fun g => g.focus) lib _ (fun _ _ => rfl) touches _⟩
    | keydown k => dsimp only; split <;> exact ⟨rfl, rfl⟩
    | keyup k => exact ⟨rfl, rfl⟩
    | blur => exact absurd rfl hb
    | focus now => exact absurd rfl (hf now)
    | _ => exact ⟨rfl, rfl⟩
  · exact ⟨rfl, rfl⟩

theorem handleEvents_clock (lib : Imports) :
    ∀ (events : List Event) (g : Input),
      (∀ e ∈ events, e ≠ Event.blur ∧ ∀ now, e ≠ Event.focus now) →
      (handleEvents lib events g).1._lastTime = g._lastTime ∧
        (handleEvents lib events g).1.focus = g.focus
  | [], _, _ => ⟨rfl, rfl⟩
  | e :: rest, g, h => by
    rw [handleEvents]
    have h1 := handleEvent_clock lib e g (h e (List.mem_cons_self _ _)).1
      (h e (List.mem_cons_self _ _)).2
    have h2 := handleEvents_clock lib rest (handleEvent lib e g).1
      (fun e' h' => h e' (List.mem_cons_of_mem _ h'))
    exact ⟨h2.1.trans h1.1, h2.2.trans h1.2⟩

theorem cycle_delta (now : Int) (g : Input) (h : g.focus = true) :
    (cycle now g).2 = some (now - g._lastTime) := by
  unfold cycle
  rw [if_pos h]

/-- C13: on a surface owning Group, with the clock read as an argument: while
`focus` is false `cycle` makes no `step` call and changes no field; a `focus`
event at time `t` sets `_lastTime` to `t` and `focus` to true, so that the
next `cycle`, at time `t'`, calls `step` with `t' - t`, whatever the state
before the `focus` event; a `cycle` while focused calls `step` with the time
since `_lastTime` and sets `_lastTime`, so that the next `cycle` calls `step`
with the time since this one.  Other device events than `blur` and `focus`
may come in between. -/
theorem cycle_steps_by_time_since_last_cycle_or_focus (lib : Imports) (g : Input)
    (t t' : Int) (between : List Event) (hu : g.useCanvas = true)
    (hb : ∀ e ∈ between, e ≠ Event.blur ∧ ∀ now, e ≠ Event.focus now) :
    (g.focus = false → cycle t' g = (g, none)) ∧
    (handleEvent lib (Event.focus t) g).1._lastTime = t ∧
    (handleEvent lib (Event.focus t) g).1.focus = true ∧
    (cycle t' (handleEvents lib between (handleEvent lib (Event.focus t) g).1).1).2
      = some (t' - t) ∧
    (g.focus = true → cycle t g = ({ g with _lastTime := t }, some (t - g._lastTime))) ∧
    (g.focus = true →
      (cycle t' (handleEvents lib between (cycle t g).1).1).2 = some (t' - t)) := by
  have hfocus : (handleEvent lib (Event.focus t) g).1 = { g with _lastTime := t, focus := true } := by
    unfold handleEvent
    rw [if_pos hu]
  refine ⟨?_, ?_, ?_, ?_, ?_, ?_⟩
  · intro h
    unfold cycle
    rw [h]
    rfl
  · rw [hfocus]
  · rw [hfocus]
  · have h := handleEvents_clock lib between (handleEvent lib (Event.focus t) g).1 hb
    rw [hfocus] at h
    rw [hfocus, cycle_delta _ _ (h.2.trans rfl), h.1]
  · intro h
    unfold cycle
    rw [h]
    rfl
  · intro h
    have hc : (cycle t g).1 = { g with _lastTime := t } := by
      unfold cycle
      rw [h]
      rfl
    have h2 := handleEvents_clock lib between (cycle t g).1 hb
    rw [hc] at h2
    rw [hc, cycle_delta _ _ (h2.2.trans h), h2.1]

/-- Witness for C13: a new surface owning Group loses the focus, gets it back
at time 5000 and runs `cycle` at time 5016, after a key and a touch event. -/
theorem cycle_steps_by_time_since_last_cycle_or_focus_witness :
    (handleEvent Imports.axes Event.blur Input.fresh).1.useCanvas = true ∧
    (∀ e ∈ [Event.keydown 65, Event.touchstart [⟨0, 1, 1⟩]],
      e ≠ Event.blur ∧ ∀ now, e ≠ Event.focus now) ∧
    ((handleEvent Imports.axes Event.blur Input.fresh).1.focus = false →
      cycle 5016 (handleEvent Imports.axes Event.blur Input.fresh).1
        = ((handleEvent Imports.axes Event.blur Input.fresh).1, none)) ∧
    (handleEvent Imports.axes (Event.focus 5000)
      (handleEvent Imports.axes Event.blur Input.fresh).1).1._lastTime = 5000 ∧
    (handleEvent Imports.axes (Event.focus 5000)
      (handleEvent Imports.axes Event.blur Input.fresh).1).1.focus = true ∧
    (cycle 5016 (handleEvents Imports.axes [Event.keydown 65, Event.touchstart [⟨0, 1, 1⟩]]
      (handleEvent Imports.axes (Event.focus 5000)
        (handleEvent Imports.axes Event.blur Input.fresh).1).1).1).2 = some (5016 - 5000) ∧
    ((handleEvent Imports.axes Event.blur Input.fresh).1.focus = true →
      cycle 5000 (handleEvent Imports.axes Event.blur Input.fresh).1
        = ({ (handleEvent Imports.axes Event.blur Input.fresh).1 with _lastTime := 5000 },
          some (5000 - (handleEvent Imports.axes Event.blur Input.fresh).1._lastTime))) ∧
    ((handleEvent Imports.axes Event.blur Input.fresh).1.focus = true →
      (cycle 5016 (handleEvents Imports.axes [Event.keydown 65, Event.touchstart [⟨0, 1, 1⟩]]
        (cycle 5000 (handleEvent Imports.axes Event.blur Input.fresh).1).1).1).2
        = some (5016 - 5000)) :=
  ⟨rfl, by
    intro e he
    simp only [List.mem_cons, List.mem_singleton, List.not_mem_nil, or_false] at he
    rcases he with rfl | rfl <;> exact ⟨by simp, fun _ => by simp⟩,
    cycle_steps_by_time_since_last_cycle_or_focus Imports.axes
      (handleEvent Imports.axes Event.blur Input.fresh).1 5000 5016
      [Event.keydown 65, Event.touchstart [⟨0, 1, 1⟩]] rfl (by
        intro e he
        simp only [List.mem_cons, List.mem_singleton, List.not_mem_nil, or_false] at he
        rcases he with rfl | rfl <;> exact ⟨by simp, fun _ => by simp⟩)⟩

end Clock

section AddedGroup

theorem add_new_group_useCanvas (P G : Ref) (w : World) (hG : w.isGroup G = true)
    (hnew : G ∉ w.objects P) : (add P [G] w).useCanvas G = false := by
  have h : addOne P w G = init G ((attach P G w).record (Call.init G P)) := by
    unfold addOne
    rw [if_neg hnew]
    have he : exposesInit w G = true := by simp [exposesInit, hG]
    rw [if_pos he]
    unfold callInit
    have hg : (attach P G w).isGroup G = true := hG
    rw [if_pos hg]
  show (sort P (addOne P w G)).useCanvas G = false
  rw [h]
  show upd _ G false G = false
  rw [upd_same]

theorem handleEvent_without_surface (lib : Imports) (event : Event) (g : Input)
    (h : g.useCanvas = false) : handleEvent lib event g = (g, []) := by
  unfold handleEvent
  rw [h]
  rfl

theorem handleEvents_without_surface (lib : Imports) :
    ∀ (events : List Event) (g : Input), g.useCanvas = false →
      handleEvents lib events g = (g, events.map fun _ => [])
  | [], _, _ => rfl
  | e :: rest, g, h => by
    rw [handleEvents, handleEvent_without_surface lib e g h,
      handleEvents_without_surface lib rest g h]
    rfl

/-- C19: a Group `G` that is not yet a child of `P`: after `P.add(G)` the
field `useCanvas` of `G` is false and `G` is a child of `P`; and with that
value of `useCanvas`, `handleEvent` on `G` leaves every field as it is and
makes no dispatch call, for every event and every sequence of events. -/
theorem added_group_ignores_device_events (lib : Imports) (w : World) (P G : Ref) (g : Input)
    (events : List Event) (hG : w.isGroup G = true) (hnew : G ∉ w.objects P)
    (hg : g.useCanvas = (add P [G] w).useCanvas G) :
    (add P [G] w).useCanvas G = false ∧
    G ∈ (add P [G] w).objects P ∧
    (∀ event, handleEvent lib event g = (g, [])) ∧
    handleEvents lib events g = (g, events.map fun _ => []) := by
  have hu := add_new_group_useCanvas P G w hG hnew
  rw [hu] at hg
  refine ⟨hu, ?_, fun event => handleEvent_without_surface lib event g hg,
    handleEvents_without_surface lib events g hg⟩
  show G ∈ (sort P (addOne P w G)).objects P
  rw [sort_objects_self]
  apply (sortedByDepth_perm _ _).mem_iff.mpr
  rw [addOne_objects, if_neg hnew, upd_same]
  simp

/-- Witness for C19: the Group at 1, made as a surface owning Group, is added
to the Group at 0; its device state is the one of a new surface owning Group
but for `useCanvas`. -/
theorem added_group_ignores_device_events_witness :
    (construct 1 true true true (construct 0 true true true World.blank)).isGroup 1 = true ∧
    1 ∉ (construct 1 true true true (construct 0 true true true World.blank)).objects 0 ∧
    ({ Input.fresh with useCanvas := false } : Input).useCanvas
      = (add 0 [1] (construct 1 true true true
          (construct 0 true true true World.blank))).useCanvas 1 ∧
    (add 0 [1] (construct 1 true true true
      (construct 0 true true true World.blank))).useCanvas 1 = false ∧
    1 ∈ (add 0 [1] (construct 1 true true true
      (construct 0 true true true World.blank))).objects 0 ∧
    (∀ event, handleEvent Imports.axes event { Input.fresh with useCanvas := false }
      = ({ Input.fresh with useCanvas := false }, [])) ∧
    handleEvents Imports.axes
        [Event.mousedown 3 4, Event.touchstart [⟨0, 1, 1⟩], Event.keydown 65, Event.blur]
        { Input.fresh with useCanvas := false }
      = ({ Input.fresh with useCanvas := false },
        [Event.mousedown 3 4, Event.touchstart [⟨0, 1, 1⟩], Event.keydown 65,
          Event.blur].map fun _ => []) :=
  ⟨by decide, by decide, by decide,
    added_group_ignores_device_events Imports.axes
      (construct 1 true true true (construct 0 true true true World.blank)) 0 1
      { Input.fresh with useCanvas := false }
      [Event.mousedown 3 4, Event.touchstart [⟨0, 1, 1⟩], Event.keydown 65, Event.blur]
      (by decide) (by decide) (by decide)⟩

end AddedGroup

section StableInsert

theorem orderedInsert_below {α : Type} (r : α → α → Prop) [DecidableRel r] (a : α) :
    ∀ l : List α, (∀ b ∈ l, r a b) → l.orderedInsert r a = a :: l
  | [], _ => rfl
  | b :: l, h => by
    rw [List.orderedInsert, if_pos (h b (List.mem_cons_self _ _))]

theorem insertionSort_append_singleton {α : Type} (r : α → α → Prop) [DecidableRel r]
    [IsTrans α r] (x : α) :
    ∀ l : List α, l.Sorted r →
      (l ++ [x]).insertionSort r
        = l.takeWhile (fun a => decide (r a x)) ++ x :: l.dropWhile (fun a => decide (r a x))
  | [], _ => rfl
  | a :: l, hs => by
    have hl := List.sorted_cons.mp hs
    rw [List.cons_append, List.insertionSort, insertionSort_append_singleton r x l hl.2]
    by_cases hax : r a x
    · rw [List.takeWhile_cons_of_pos (by simpa using hax),
        List.dropWhile_cons_of_pos (by simpa using hax), List.cons_append]
      apply orderedInsert_below
      intro b hb
      rcases List.mem_append.mp hb with hb | hb
      · exact hl.1 b ((List.takeWhile_sublist _).subset hb)
      · rcases List.mem_cons.mp hb with rfl | hb
        · exact hax
        · exact hl.1 b ((List.dropWhile_sublist _).subset hb)
    · rw [List.takeWhile_cons_of_neg (by simpa using hax),
        List.dropWhile_cons_of_neg (by simpa using hax), List.nil_append]
      have hnone : ∀ b ∈ l, ¬ r b x := fun b hb hbx => hax (IsTrans.trans a b x (hl.1 b hb) hbx)
      have ht : l.takeWhile (fun a => decide (r a x)) = [] := by
        cases l with
        | nil => rfl
        | cons b l =>
          exact List.takeWhile_cons_of_neg (by simpa using hnone b (List.mem_cons_self _ _))
      have hd : l.dropWhile (fun a => decide (r a x)) = l := by
        cases l with
        | nil => rfl
        | cons b l =>
          exact List.dropWhile_cons_of_neg (by simpa using hnone b (List.mem_cons_self _ _))
      rw [ht, hd, List.nil_append, List.orderedInsert, if_neg hax, orderedInsert_below r a l hl.1]

theorem dropWhile_above {α : Type} (r : α → α → Prop) [DecidableRel r] [IsTrans α r] (x : α) :
    ∀ l : List α, l.Sorted r → ∀ b ∈ l.dropWhile (fun a => decide (r a x)), ¬ r b x
  | [], _, b, hb => by simp at hb
  | a :: l, hs, b, hb => by
    have hl := List.sorted_cons.mp hs
    by_cases hax : r a x
    · rw [List.dropWhile_cons_of_pos (by simpa using hax)] at hb
      exact dropWhile_above r x l hl.2 b hb
    · rw [List.dropWhile_cons_of_neg (by simpa using hax)] at hb
      rcases List.mem_cons.mp hb with rfl | hb
      · exact hax
      · exact fun hbx => hax (IsTrans.trans a b x (hl.1 b hb) hbx)

/-- C15: a Group `g` whose child list is sorted by depth and an object `x` not
in it: after `g.add(x)` the child list is the previous one with `x` put in
between a front part and a rear part, where every child of the front part has
a depth less than or equal to the depth of `x` and every child of the rear
part a greater depth (a missing depth counts as 0); the two parts are the
longest prefix of children not deeper than `x` and the rest, and no depth is
changed. -/
theorem add_inserts_after_last_not_deeper (w : World) (g x : Ref)
    (hs : SortedByDepth w g) (hx : x ∉ w.objects g) :
    (add g [x] w).objects g
      = (w.objects g).takeWhile (fun a => decide (depthOf w a ≤ depthOf w x))
        ++ x :: (w.objects g).dropWhile (fun a => decide (depthOf w a ≤ depthOf w x)) ∧
    (w.objects g).takeWhile (fun a => decide (depthOf w a ≤ depthOf w x))
        ++ (w.objects g).dropWhile (fun a => decide (depthOf w a ≤ depthOf w x))
      = w.objects g ∧
    (∀ a ∈ (w.objects g).takeWhile (fun a => decide (depthOf w a ≤ depthOf w x)),
      depthOf w a ≤ depthOf w x) ∧
    (∀ a ∈ (w.objects g).dropWhile (fun a => decide (depthOf w a ≤ depthOf w x)),
      depthOf w x < depthOf w a) ∧
    (add g [x] w).depth = w.depth := by
  refine ⟨?_, List.takeWhile_append_dropWhile _ _, ?_, ?_, ?_⟩
  · show (sort g (addOne g w x)).objects g = _
    rw [sort_objects_self, addOne_objects, if_neg hx, upd_same]
    have hd : depthOf (addOne g w x) = depthOf w := by
      funext r
      unfold depthOf
      rw [addOne_depth]
    unfold sortedByDepth
    rw [hd]
    exact insertionSort_append_singleton (fun a b => depthOf w a ≤ depthOf w b) x _ hs
  · intro a ha
    have h := List.mem_takeWhile_imp ha
    simpa using h
  · intro a ha
    exact not_le.mp (dropWhile_above (fun a b => depthOf w a ≤ depthOf w b) x _ hs a ha)
  · show (addOne g w x).depth = w.depth
    exact addOne_depth g w x

/-- Witness for C15: the Group at 0 with the children 1, 2, 3, 4 of depths 1,
2, 3, 4 gets the object at 5, of depth 2, which lands right after the child
at 2. -/
theorem add_inserts_after_last_not_deeper_witness :
    SortedByDepth sceneFifthObject 0 ∧ 5 ∉ sceneFifthObject.objects 0 ∧
    (add 0 [5] sceneFifthObject).objects 0 = [1, 2, 5, 3, 4] ∧
    ((add 0 [5] sceneFifthObject).objects 0
      = (sceneFifthObject.objects 0).takeWhile
          (fun a => decide (depthOf sceneFifthObject a ≤ depthOf sceneFifthObject 5))
        ++ 5 :: (sceneFifthObject.objects 0).dropWhile
          (fun a => decide (depthOf sceneFifthObject a ≤ depthOf sceneFifthObject 5)) ∧
    (sceneFifthObject.objects 0).takeWhile
          (fun a => decide (depthOf sceneFifthObject a ≤ depthOf sceneFifthObject 5))
        ++ (sceneFifthObject.objects 0).dropWhile
          (fun a => decide (depthOf sceneFifthObject a ≤ depthOf sceneFifthObject 5))
      = sceneFifthObject.objects 0 ∧
    (∀ a ∈ (sceneFifthObject.objects 0).takeWhile
          (fun a => decide (depthOf sceneFifthObject a ≤ depthOf sceneFifthObject 5)),
      depthOf sceneFifthObject a ≤ depthOf sceneFifthObject 5) ∧
    (∀ a ∈ (sceneFifthObject.objects 0).dropWhile
          (fun a => decide (depthOf sceneFifthObject a ≤ depthOf sceneFifthObject 5)),
      depthOf sceneFifthObject 5 < depthOf sceneFifthObject a) ∧
    (add 0 [5] sceneFifthObject).depth = sceneFifthObject.depth) :=
  ⟨by unfold SortedByDepth; decide, by decide, by decide,
    add_inserts_after_last_not_deeper sceneFifthObject 0 5
      (by unfold SortedByDepth; decide) (by decide)⟩

end StableInsert

section TouchEnd

theorem touchEndLoop_eq (touches : List Contact) :
    ∀ (rest kept : List Pointer) (trace : List Dispatch),
      ∃ indices : List Nat,
        indices.length = (rest.filter fun t => !t.reportedIn touches).length ∧
        touchEndLoop (touches.map fun c => c.identifier) kept rest trace
          = (kept ++ rest.filter (Pointer.reportedIn touches),
            trace ++ mouseUps (rest.filter fun t => !t.reportedIn touches) indices)
  | [], kept, trace => ⟨[], rfl, by simp [touchEndLoop, mouseUps]⟩
  | t :: rest, kept, trace => by
    by_cases h : t.identifier ∈ (touches.map fun c => c.identifier).map some
    · obtain ⟨indices, hl, he⟩ := touchEndLoop_eq touches rest (kept ++ [t]) trace
      have hr : t.reportedIn touches = true := by simpa [Pointer.reportedIn] using h
      refine ⟨indices, ?_, ?_⟩
      · rw [List.filter_cons_of_neg (by simp [hr])]
        exact hl
      · rw [touchEndLoop, if_pos h, he, List.filter_cons_of_pos hr,
          List.filter_cons_of_neg (by simp [hr]), List.append_assoc, List.singleton_append]
    · obtain ⟨indices, hl, he⟩ := touchEndLoop_eq touches rest kept
        (trace ++ [Dispatch.mouseUp { t with down := false } kept.length])
      have hr : t.reportedIn touches = false := by simpa [Pointer.reportedIn] using h
      refine ⟨kept.length :: indices, ?_, ?_⟩
      · rw [List.filter_cons_of_pos (by simp [hr]), List.length_cons, List.length_cons, hl]
      · rw [touchEndLoop, if_neg h, he, List.filter_cons_of_neg (by simp [hr]),
          List.filter_cons_of_pos (by simp [hr]), List.append_assoc]
        rfl

/-- C14: a `touchend` event on a surface owning Group: the registry afterwards
is the previous one without the entries whose identifier the event does not
report, the entries left being unchanged and in their order, and no other
field changes; the dispatch calls are one `mouseUp` for each removed entry, in
the order of the registry and with `down` set to false, followed by the one
`touchEnd` call, which gets the registry afterwards, every entry of which has
an identifier that the event reports. -/
theorem touchend_removes_exactly_unreported (lib : Imports) (g : Input)
    (touches : List Contact) (hu : g.useCanvas = true) :
    (handleEvent lib (Event.touchend touches) g).1
      = { g with _touches := g._touches.filter (Pointer.reportedIn touches) } ∧
    (∃ indices : List Nat,
      indices.length = (g._touches.filter fun t => !t.reportedIn touches).length ∧
      (handleEvent lib (Event.touchend touches) g).2
        = mouseUps (g._touches.filter fun t => !t.reportedIn touches) indices
          ++ [Dispatch.touchEnd (g._touches.filter (Pointer.reportedIn touches))]) ∧
    (g._touches.filter (Pointer.reportedIn touches)).Sublist g._touches ∧
    (∀ t ∈ g._touches, t.reportedIn touches = true ↔
      ∃ c ∈ touches, t.identifier = some c.identifier) ∧
    (∀ t ∈ g._touches.filter (Pointer.reportedIn touches),
      ∃ c ∈ touches, t.identifier = some c.identifier) := by
  obtain ⟨indices, hl, he⟩ := touchEndLoop_eq touches g._touches [] []
  have hrep : ∀ t : Pointer, t.reportedIn touches = true ↔
      ∃ c ∈ touches, t.identifier = some c.identifier := by
    intro t
    simp only [Pointer.reportedIn, decide_eq_true_eq, List.mem_map]
    constructor
    · rintro ⟨i, ⟨c, hc, rfl⟩, hi⟩
      exact ⟨c, hc, hi.symm⟩
    · rintro ⟨c, hc, h⟩
      exact ⟨c.identifier, ⟨c, hc, rfl⟩, h.symm⟩
  have hrun : handleEvent lib (Event.touchend touches) g
      = ({ g with _touches :=
            (touchEndLoop (touches.map fun c => c.identifier) [] g._touches []).1 },
          (touchEndLoop (touches.map fun c => c.identifier) [] g._touches []).2
            ++ [Dispatch.touchEnd
              (touchEndLoop (touches.map fun c => c.identifier) [] g._touches []).1]) := by
    unfold handleEvent
    rw [if_pos hu]
  rw [hrun, he]
  refine ⟨rfl, ⟨indices, hl, rfl⟩, List.filter_sublist _, fun t _ => hrep t, ?_⟩
  intro t ht
  exact (hrep t).mp (List.mem_filter.mp ht).2

/-- Witness for C14: three contacts are registered and a `touchend` event
reports the contact 1 only. -/
theorem touchend_removes_exactly_unreported_witness :
    sceneThreeTouches.useCanvas = true ∧
    ((handleEvent Imports.axes (Event.touchend [⟨1, 0, 0⟩]) sceneThreeTouches).1
      = { sceneThreeTouches with
          _touches := sceneThreeTouches._touches.filter (Pointer.reportedIn [⟨1, 0, 0⟩]) } ∧
    (∃ indices : List Nat,
      indices.length
        = (sceneThreeTouches._touches.filter fun t => !t.reportedIn [⟨1, 0, 0⟩]).length ∧
      (handleEvent Imports.axes (Event.touchend [⟨1, 0, 0⟩]) sceneThreeTouches).2
        = mouseUps (sceneThreeTouches._touches.filter fun t => !t.reportedIn [⟨1, 0, 0⟩])
            indices
          ++ [Dispatch.touchEnd
            (sceneThreeTouches._touches.filter (Pointer.reportedIn [⟨1, 0, 0⟩]))]) ∧
    (sceneThreeTouches._touches.filter (Pointer.reportedIn [⟨1, 0, 0⟩])).Sublist
      sceneThreeTouches._touches ∧
    (∀ t ∈ sceneThreeTouches._touches, t.reportedIn [⟨1, 0, 0⟩] = true ↔
      ∃ c ∈ [(⟨1, 0, 0⟩ : Contact)], t.identifier = some c.identifier) ∧
    (∀ t ∈ sceneThreeTouches._touches.filter (Pointer.reportedIn [⟨1, 0, 0⟩]),
      ∃ c ∈ [(⟨1, 0, 0⟩ : Contact)], t.identifier = some c.identifier)) :=
  ⟨rfl, touchend_removes_exactly_unreported Imports.axes sceneThreeTouches [⟨1, 0, 0⟩] rfl⟩

/-- A run of `touchend`: of the contacts 0, 1, 2 with the fingers 0, 1, 2 the
event reports the contact 1; the entries of 0 and 2 are removed, each with a
`mouseUp` call whose snapshot has `down` false, and the last call is
`touchEnd` with the entry of the contact 1. -/
theorem touchend_run_three_touches :
    (sceneThreeTouches._touches.map fun t => (t.identifier, t.finger, t.down))
      = [(some 0, 0, true), (some 1, 1, true), (some 2, 2, true)] ∧
    ((handleEvent Imports.axes (Event.touchend [⟨1, 0, 0⟩]) sceneThreeTouches).1._touches.map
      fun t => (t.identifier, t.finger, t.down)) = [(some 1, 1, true)] ∧
    (handleEvent Imports.axes (Event.touchend [⟨1, 0, 0⟩]) sceneThreeTouches).2
      = [Dispatch.mouseUp { entryAtOrigin 0 0 with down := false } 0,
         Dispatch.mouseUp { entryAtOrigin 2 2 with down := false } 1,
         Dispatch.touchEnd [entryAtOrigin 1 1]] := by
  decide!

end TouchEnd

section TouchMove

theorem map_set_same {α β : Type} (f : α → β) (m : α) :
    ∀ (l : List α) (i : Nat) (t : α), l.get? i = some t → f m = f t →
      (l.set i m).map f = l.map f
  | [], _, _, h, _ => by simp at h
  | a :: l, 0, t, h, hf => by
    simp only [List.get?_cons_zero, Option.some.injEq] at h
    subst h
    simp [hf]
  | a :: l, i + 1, t, h, hf => by
    simp only [List.get?_cons_succ] at h
    simp [map_set_same f m l i t h hf]

theorem touchMoveOne_identifiers (lib : Imports) (ids : List (Option Nat))
    (st : Input × List Dispatch) (touch : Contact) :
    ((touchMoveOne lib ids st touch).1._touches.map fun t => t.identifier)
      = st.1._touches.map fun t => t.identifier := by
  unfold touchMoveOne
  dsimp only
  split
  · rfl
  · rename_i t ht
    split
    · exact map_set_same (fun t : Pointer => t.identifier) _ _ _ t ht rfl
    · rfl

theorem indexOf_absent (ids : List (Option Nat)) (a : Option Nat) (h : a ∉ ids) :
    ids.indexOf a = ids.length := by
  unfold List.indexOf
  rw [List.findIdx_eq_length]
  intro x hx
  rw [beq_eq_false_iff_ne]
  rintro rfl
  exact h hx

theorem indexOf_present (ids : List (Option Nat)) (a : Option Nat) (h : a ∈ ids) :
    ids.indexOf a < ids.length := by
  unfold List.indexOf
  apply List.findIdx_lt_length_of_exists
  exact ⟨a, h, by simp⟩

theorem get?_indexOf (ids : List (Option Nat)) (a : Option Nat) (h : a ∈ ids) :
    ids.get? (ids.indexOf a) = some a := by
  have hlt := indexOf_present ids a h
  rw [List.get?_eq_get hlt]
  have h2 := @List.findIdx_getElem _ (fun x => x == a) ids hlt
  simp only [beq_iff_eq] at h2
  exact congrArg some h2

theorem foldl_touchMoveOne_identifiers (lib : Imports) (ids : List (Option Nat)) :
    ∀ (l : List Contact) (st : Input × List Dispatch),
      ((l.foldl (touchMoveOne lib ids) st).1._touches.map fun t => t.identifier)
        = st.1._touches.map fun t => t.identifier
  | [], _ => rfl
  | c :: l, st => by
    rw [List.foldl_cons, foldl_touchMoveOne_identifiers lib ids l, touchMoveOne_identifiers]

theorem touchMoveState_identifiers (lib : Imports) (g : Input) (done : List Contact) :
    ((touchMoveState lib g done).1._touches.map fun t => t.identifier)
      = g._touches.map fun t => t.identifier :=
  foldl_touchMoveOne_identifiers lib _ done (g, [])

theorem touchMoveOne_unregistered (lib : Imports) (ids : List (Option Nat))
    (st : Input × List Dispatch) (touch : Contact)
    (hids : (st.1._touches.map fun t => t.identifier) = ids)
    (h : some touch.identifier ∉ ids) : touchMoveOne lib ids st touch = st := by
  have hi : ids.indexOf (some touch.identifier) = ids.length := indexOf_absent ids _ h
  have hn : st.1._touches.get? (ids.indexOf (some touch.identifier)) = none := by
    rw [hi, ← hids, List.length_map]
    exact List.get?_eq_none.mpr (le_refl _)
  unfold touchMoveOne
  dsimp only
  rw [hn]

theorem registered_entry (ids : List (Option Nat)) (touches : List Pointer) (identifier : Nat)
    (hids : (touches.map fun t => t.identifier) = ids) (h : some identifier ∈ ids) :
    ∃ t, touches.get? (ids.indexOf (some identifier)) = some t ∧
      t.identifier = some identifier := by
  have hget := get?_indexOf ids (some identifier) h
  rw [← hids] at hget
  rw [List.get?_eq_getElem?, List.getElem?_map, ← List.get?_eq_getElem?] at hget
  cases ht : touches.get? ((touches.map fun t => t.identifier).indexOf (some identifier)) with
  | none => rw [ht] at hget; simp at hget
  | some t =>
    rw [ht] at hget
    simp only [Option.map_some', Option.some.injEq] at hget
    rw [← hids]
    exact ⟨t, ht, hget⟩

theorem touchMoveOne_registered (lib : Imports) (ids : List (Option Nat))
    (st : Input × List Dispatch) (touch : Contact) (t : Pointer)
    (ht : st.1._touches.get? (ids.indexOf (some touch.identifier)) = some t) :
    touchMoveOne lib ids st touch
      = if 0 < lib.distanceTo t.position (canvasPoint st.1.image touch) then
          ({ st.1 with _touches := List.set st.1._touches (ids.indexOf (some touch.identifier)) (movedTo lib t (canvasPoint st.1.image touch)) },
            st.2 ++ [Dispatch.mouseMove (movedTo lib t (canvasPoint st.1.image touch))
              (some (ids.indexOf (some touch.identifier)))])
        else st := by
  unfold touchMoveOne
  dsimp only
  rw [ht]
  rfl

theorem touchMoveState_snoc (lib : Imports) (g : Input) (done : List Contact) (touch : Contact) :
    touchMoveState lib g (done ++ [touch])
      = touchMoveOne lib (g._touches.map fun t => t.identifier) (touchMoveState lib g done)
          touch := by
  unfold touchMoveState
  rw [List.foldl_append]
  rfl

theorem touchMoveState_image (lib : Imports) (g : Input) (done : List Contact) :
    (touchMoveState lib g done).1.image = g.image :=
  foldl_touchMoveOne_frame (fun g => g.image) lib _ (fun _ _ => rfl) done (g, [])

theorem axes_positive (p q : Vector) : 0 < Imports.axes.distanceTo p q ↔ p ≠ q := by
  show 0 < |p.x - q.x| + |p.y - q.y| ↔ p ≠ q
  constructor
  · intro h hpq
    subst hpq
    simp at h
  · intro hne
    by_contra hle
    have h1 := abs_nonneg (p.x - q.x)
    have h2 := abs_nonneg (p.y - q.y)
    have e1 : |p.x - q.x| = 0 := by linarith
    have e2 : |p.y - q.y| = 0 := by linarith
    rw [abs_eq_zero, sub_eq_zero] at e1 e2
    apply hne
    cases p
    cases q
    simp_all

/-- C17: a `touchmove` event on a surface owning Group, the distance of the
imports being positive exactly between different points, and a contact `touch`
that the event reports after the contacts `done`.  The event runs the loop
over its contacts and then calls `touchMove` once.  In the loop, a contact
whose identifier is not registered changes nothing and dispatches nothing; a
registered contact has an entry `t`; at the position of `t` it changes nothing
and dispatches nothing; at another position the entry is replaced by
`movedTo`, which has the new position, the delta from the start, the length
grown by the distance, and the start, finger, identifier and `down` of `t`,
and exactly one `mouseMove` call is added. -/
theorem touchmove_moves_registered_contacts (lib : Imports) (g : Input)
    (done rest : List Contact) (touch : Contact) (hu : g.useCanvas = true)
    (hd : ∀ p q, 0 < lib.distanceTo p q ↔ p ≠ q) :
    handleEvent lib (Event.touchmove (done ++ touch :: rest)) g
      = ((touchMoveState lib g (done ++ touch :: rest)).1,
        (touchMoveState lib g (done ++ touch :: rest)).2
          ++ [Dispatch.touchMove (touchMoveState lib g (done ++ touch :: rest)).1._touches]) ∧
    touchMoveState lib g (done ++ touch :: rest)
      = rest.foldl (touchMoveOne lib (g._touches.map fun t => t.identifier))
          (touchMoveState lib g (done ++ [touch])) ∧
    (some touch.identifier ∉ (g._touches.map fun t => t.identifier) →
      touchMoveState lib g (done ++ [touch]) = touchMoveState lib g done) ∧
    (some touch.identifier ∈ (g._touches.map fun t => t.identifier) →
      ∃ t, (touchMoveState lib g done).1._touches.get?
            ((g._touches.map fun t => t.identifier).indexOf (some touch.identifier)) = some t ∧
        t.identifier = some touch.identifier ∧
        (t.position = canvasPoint g.image touch →
          touchMoveState lib g (done ++ [touch]) = touchMoveState lib g done) ∧
        (t.position ≠ canvasPoint g.image touch →
          touchMoveState lib g (done ++ [touch])
            = ({ (touchMoveState lib g done).1 with
                  _touches := List.set (touchMoveState lib g done).1._touches ((g._touches.map fun t => t.identifier).indexOf (some touch.identifier)) (movedTo lib t (canvasPoint g.image touch)) },
                (touchMoveState lib g done).2
                  ++ [Dispatch.mouseMove (movedTo lib t (canvasPoint g.image touch))
                    (some ((g._touches.map fun t => t.identifier).indexOf
                      (some touch.identifier)))])) ∧
        (movedTo lib t (canvasPoint g.image touch)).position = canvasPoint g.image touch ∧
        (movedTo lib t (canvasPoint g.image touch)).delta
          = (canvasPoint g.image touch).subtract t.start ∧
        (movedTo lib t (canvasPoint g.image touch)).length
          = t.length + lib.distanceTo t.position (canvasPoint g.image touch) ∧
        (movedTo lib t (canvasPoint g.image touch)).start = t.start ∧
        (movedTo lib t (canvasPoint g.image touch)).finger = t.finger ∧
        (movedTo lib t (canvasPoint g.image touch)).identifier = t.identifier ∧
        (movedTo lib t (canvasPoint g.image touch)).down = t.down) := by
  have hids := touchMoveState_identifiers lib g done
  have himg := touchMoveState_image lib g done
  refine ⟨?_, ?_, ?_, ?_⟩
  · unfold handleEvent
    rw [if_pos hu]
    rfl
  · unfold touchMoveState
    rw [List.foldl_append, List.foldl_append]
    rfl
  · intro h
    rw [touchMoveState_snoc]
    exact touchMoveOne_unregistered lib _ _ touch hids h
  · intro h
    obtain ⟨t, ht, hi⟩ := registered_entry _ (touchMoveState lib g done).1._touches
      touch.identifier hids h
    refine ⟨t, ht, hi, ?_, ?_, rfl, rfl, rfl, rfl, rfl, rfl, rfl⟩
    · intro hp
      rw [touchMoveState_snoc, touchMoveOne_registered lib _ _ touch t ht, himg,
        if_neg (fun h0 => (hd _ _).mp h0 hp)]
    · intro hp
      rw [touchMoveState_snoc, touchMoveOne_registered lib _ _ touch t ht, himg,
        if_pos ((hd _ _).mpr hp)]

/-- Witness for C17: with the contacts 0, 1, 2 registered at the origin, a
`touchmove` event reports the unregistered contact 5, then the contact 1 at
`(5, 0)`, then the contact 1 at `(5, 0)` once more. -/
theorem touchmove_moves_registered_contacts_witness :
    sceneThreeTouches.useCanvas = true ∧
    (∀ p q, 0 < Imports.axes.distanceTo p q ↔ p ≠ q) ∧
    (handleEvent Imports.axes (Event.touchmove [⟨5, 1, 1⟩, ⟨1, 5, 0⟩, ⟨1, 5, 0⟩])
        sceneThreeTouches).2
      = [Dispatch.mouseMove entryMoved (some 1),
         Dispatch.touchMove [entryAtOrigin 0 0, entryMoved, entryAtOrigin 2 2]] ∧
    some (⟨1, 5, 0⟩ : Contact).identifier
        ∈ (sceneThreeTouches._touches.map fun t => t.identifier) ∧
    (∃ t, (touchMoveState Imports.axes sceneThreeTouches [⟨5, 1, 1⟩]).1._touches.get?
            ((sceneThreeTouches._touches.map fun t => t.identifier).indexOf
              (some (⟨1, 5, 0⟩ : Contact).identifier)) = some t ∧
        t.identifier = some (⟨1, 5, 0⟩ : Contact).identifier ∧
        (t.position ≠ canvasPoint sceneThreeTouches.image ⟨1, 5, 0⟩ →
          (touchMoveState Imports.axes sceneThreeTouches ([⟨5, 1, 1⟩] ++ [⟨1, 5, 0⟩])).2
            = (touchMoveState Imports.axes sceneThreeTouches [⟨5, 1, 1⟩]).2
              ++ [Dispatch.mouseMove
                (movedTo Imports.axes t (canvasPoint sceneThreeTouches.image ⟨1, 5, 0⟩))
                (some ((sceneThreeTouches._touches.map fun t => t.identifier).indexOf
                  (some (⟨1, 5, 0⟩ : Contact).identifier)))])) :=
  ⟨rfl, axes_positive, by decide!, by decide!, by
    obtain ⟨t, ht, hi, _, hm, _⟩ :=
      (touchmove_moves_registered_contacts Imports.axes sceneThreeTouches [⟨5, 1, 1⟩]
        [⟨1, 5, 0⟩] ⟨1, 5, 0⟩ rfl axes_positive).2.2.2 (by decide!)
    exact ⟨t, ht, hi, fun hp => congrArg Prod.snd (hm hp)⟩⟩

end TouchMove

section DrawTraversal

theorem drawLoop_cons (cd : Ref → Context → Transform → World → Option World) (B : Own)
    (g : Ref) (c : Context) (m : Transform) (o : Ref) (rest : List Ref) (v : World) :
    drawLoop cd B g c m (o :: rest) v
      = if (v.visible o && exposesDraw B v o) = true then
          (cd o c (passedTransform v o m)
            (v.record (Call.draw o g c (passedTransform v o m)))).bind
            (drawLoop cd B g c m rest)
        else drawLoop cd B g c m rest v := by
  rw [drawLoop]
  unfold passedTransform
  split_ifs <;> rfl

theorem drawTrace_cons (w : World) (g : Ref) (c : Context) (m : Transform) (o : Ref)
    (children : List Ref) (s : List Call) (below : List (List Call)) :
    drawTrace w g c m (o :: children) (s :: below)
      = Call.draw o g c (passedTransform w o m) :: s ++ drawTrace w g c m children below := by
  simp [drawTrace]

theorem nestedWithin_child {w : World} {n : Nat} {g o : Ref}
    (h : nestedWithin w (n + 1) g = true) (ho : o ∈ w.objects g) (hv : w.visible o = true)
    (hg : w.isGroup o = true) : nestedWithin w n o = true := by
  rw [nestedWithin, List.all_eq_true] at h
  have h' := h o ho
  rw [hv, hg] at h'
  simpa using h'

theorem drawLoop_clears (B : Own) (w : World) (n : Nat) (g : Ref) (c : Context)
    (m : Transform) (hB : ∀ r, w.isGroup r = true → B.draw r = none)
    (hI : ∀ r f, B.draw r = some f → ∀ c m v, ∃ t,
      f c m v = repaint v v.clearCanvas v.drawCanvas (v.calls ++ t))
    (ih : ∀ (o : Ref) (c : Context) (m : Transform) (cc dc0 : Ref → Bool) (cs : List Call),
      nestedWithin w n o = true →
      ∃ dc t, draw B n o c m (repaint w cc dc0 cs) = some (repaint w cc dc (cs ++ t)) ∧
        (∀ r, dc r = true → dc0 r = true) ∧ ∀ r, Reaches w o r → dc r = false) :
    ∀ (l : List Ref) (cc dc0 : Ref → Bool) (cs : List Call),
      (∀ o ∈ l, w.visible o = true → w.isGroup o = true → nestedWithin w n o = true) →
      ∃ dc below,
        drawLoop (callDraw B (draw B n)) B g c m l (repaint w cc dc0 cs)
          = some (repaint w cc dc
              (cs ++ drawTrace w g c m
                (l.filter fun o => w.visible o && exposesDraw B w o) below)) ∧
        below.length = (l.filter fun o => w.visible o && exposesDraw B w o).length ∧
        (∀ r, dc r = true → dc0 r = true) ∧
        ∀ o ∈ l, w.visible o = true → w.isGroup o = true → ∀ r, Reaches w o r → dc r = false
  | [], cc, dc0, cs, _ =>
    ⟨dc0, [], by simp [drawLoop, drawTrace], rfl, fun _ h => h,
      fun _ ho => absurd ho (List.not_mem_nil _)⟩
  | o :: rest, cc, dc0, cs, hn => by
    have hnr : ∀ o' ∈ rest, w.visible o' = true → w.isGroup o' = true →
        nestedWithin w n o' = true := fun o' h' => hn o' (List.mem_cons_of_mem _ h')
    have e := drawLoop_cons (callDraw B (draw B n)) B g c m o rest (repaint w cc dc0 cs)
    by_cases hvis : (w.visible o && exposesDraw B w o) = true
    · have hf : ((o :: rest).filter fun o => w.visible o && exposesDraw B w o)
          = o :: rest.filter fun o => w.visible o && exposesDraw B w o :=
        List.filter_cons_of_pos hvis
      have hv : w.visible o = true := (Bool.and_eq_true _ _ ▸ hvis).1
      have hcall : ∃ dc1 t,
          callDraw B (draw B n) o c (passedTransform w o m)
              (repaint w cc dc0 (cs ++ [Call.draw o g c (passedTransform w o m)]))
            = some (repaint w cc dc1 ((cs ++ [Call.draw o g c (passedTransform w o m)]) ++ t)) ∧
          (∀ r, dc1 r = true → dc0 r = true) ∧
          (w.isGroup o = true → ∀ r, Reaches w o r → dc1 r = false) := by
        cases hd : B.draw o with
        | some f =>
          obtain ⟨t, ht⟩ := hI o f hd c (passedTransform w o m)
            (repaint w cc dc0 (cs ++ [Call.draw o g c (passedTransform w o m)]))
          refine ⟨dc0, t, ?_, fun _ h => h, ?_⟩
          · unfold callDraw
            rw [hd]
            exact congrArg some ht
          · intro hg
            rw [hB o hg] at hd
            exact absurd hd (by simp)
        | none =>
          have hg : w.isGroup o = true := by
            have h2 : exposesDraw B w o = true := (Bool.and_eq_true _ _ ▸ hvis).2
            unfold exposesDraw at h2
            rw [hd] at h2
            simpa using h2
          obtain ⟨dc1, t, h1, h2, h3⟩ := ih o c (passedTransform w o m) cc dc0
            (cs ++ [Call.draw o g c (passedTransform w o m)])
            (hn o (List.mem_cons_self _ _) hv hg)
          refine ⟨dc1, t, ?_, h2, fun _ => h3⟩
          rw [callDraw_group B _ o _ _
            (repaint w cc dc0 (cs ++ [Call.draw o g c (passedTransform w o m)])) hd hg]
          exact h1
      obtain ⟨dc1, t, h1, h2, h3⟩ := hcall
      obtain ⟨dc, below, k1, k2, k3, k4⟩ := drawLoop_clears B w n g c m hB hI ih rest cc dc1
        ((cs ++ [Call.draw o g c (passedTransform w o m)]) ++ t) hnr
      refine ⟨dc, t :: below, ?_, ?_, fun r hr => h2 r (k3 r hr), ?_⟩
      · rw [e]
        have hvis' : ((repaint w cc dc0 cs).visible o
            && exposesDraw B (repaint w cc dc0 cs) o) = true := hvis
        rw [if_pos hvis']
        have h1' : callDraw B (draw B n) o c (passedTransform (repaint w cc dc0 cs) o m)
            ((repaint w cc dc0 cs).record
              (Call.draw o g c (passedTransform (repaint w cc dc0 cs) o m)))
            = some (repaint w cc dc1
                ((cs ++ [Call.draw o g c (passedTransform w o m)]) ++ t)) := h1
        rw [h1', Option.some_bind, k1, hf, drawTrace_cons]
        simp only [List.append_assoc, List.singleton_append, List.cons_append, List.nil_append]
      · rw [hf, List.length_cons, List.length_cons, k2]
      · intro o' ho' hv' hg' r hr
        rcases List.mem_cons.mp ho' with rfl | ho'
        · cases hdc : dc r with
          | false => rfl
          | true =>
            have := k3 r hdc
            rw [h3 hg' r hr] at this
            exact absurd this (by simp)
        · exact k4 o' ho' hv' hg' r hr
    · have hf : ((o :: rest).filter fun o => w.visible o && exposesDraw B w o)
          = rest.filter fun o => w.visible o && exposesDraw B w o :=
        List.filter_cons_of_neg hvis
      obtain ⟨dc, below, k1, k2, k3, k4⟩ :=
        drawLoop_clears B w n g c m hB hI ih rest cc dc0 cs hnr
      refine ⟨dc, below, ?_, ?_, k3, ?_⟩
      · rw [e]
        have hvis' : ¬ ((repaint w cc dc0 cs).visible o
            && exposesDraw B (repaint w cc dc0 cs) o) = true := hvis
        rw [if_neg hvis', k1, hf]
      · rw [hf, k2]
      · intro o' ho' hv' hg' r hr
        rcases List.mem_cons.mp ho' with rfl | ho'
        · exfalso
          apply hvis
          simp [hv', exposesDraw, hg']
        · exact k4 o' ho' hv' hg' r hr

theorem draw_clears (B : Own) (w : World) (hB : ∀ r, w.isGroup r = true → B.draw r = none)
    (hI : ∀ r f, B.draw r = some f → ∀ c m v, ∃ t,
      f c m v = repaint v v.clearCanvas v.drawCanvas (v.calls ++ t)) :
    ∀ (n : Nat) (g : Ref) (c : Context) (m : Transform) (cc dc0 : Ref → Bool) (cs : List Call),
      nestedWithin w n g = true →
      ∃ dc below,
        draw B n g c m (repaint w cc dc0 cs)
          = some (repaint w cc dc
              (cs ++ drawTrace w g (if w.useCanvas g then Context.of g else c)
                (if w.useCanvas g then Transform.of g else m) (drawnChildren B w g) below)) ∧
        below.length = (drawnChildren B w g).length ∧
        (∀ r, dc r = true → dc0 r = true) ∧ ∀ r, Reaches w g r → dc r = false
  | 0, _, _, _, _, _, _, h => absurd h (by simp [nestedWithin])
  | n + 1, g, c, m, cc, dc0, cs, h => by
    obtain ⟨dc, below, k1, k2, k3, k4⟩ := drawLoop_clears B w n g
      (if w.useCanvas g then Context.of g else c)
      (if w.useCanvas g then Transform.of g else m) hB hI
      (fun o c m cc dc0 cs ho => by
        obtain ⟨dc, below, h1, _, h3, h4⟩ := draw_clears B w hB hI n o c m cc dc0 cs ho
        exact ⟨dc, _, h1, h3, h4⟩)
      (w.objects g) cc (upd dc0 g false) cs
      (fun o ho hv hg => nestedWithin_child h ho hv hg)
    have hg : dc g = false := by
      cases hdc : dc g with
      | false => rfl
      | true =>
        have := k3 g hdc
        rw [upd_same] at this
        exact absurd this (by simp)
    refine ⟨dc, below, ?_, k2, ?_, ?_⟩
    · rw [draw_succ]
      exact k1
    · intro r hr
      have h' := k3 r hr
      rw [upd_apply] at h'
      split at h'
      · exact absurd h' (by simp)
      · exact h'
    · intro r hr
      cases hr with
      | root => exact hg
      | child ho hv hgo hr' => exact k4 _ ho hv hgo r hr'

/-- C20, as stated, fails: in the chain of Groups 0, 1, 2, 3 the surface
owning root 0 is drawn.  Its child 1 is a `Matrix` that is not surface owning,
so that the root calls `draw` on it with its own context but with the product
`object.multiplyMatrix(this)`, not with itself, as the transform. -/
theorem surface_owner_passes_product_to_matrix_child :
    sceneChain.useCanvas 0 = true ∧ sceneChain.objects 0 = [1] ∧
    sceneChain.visible 1 = true ∧ sceneChain.isMatrix 1 = true ∧
    sceneChain.useCanvas 1 = false ∧
    ∃ w', draw Own.none 4 0 Context.undefined Transform.undefined sceneChain = some w' ∧
      w'.calls = sceneChain.calls ++
        [Call.draw 1 0 (Context.of 0) (Transform.product 1 (Transform.of 0)),
         Call.draw 2 1 (Context.of 0)
           (Transform.product 2 (Transform.product 1 (Transform.of 0))),
         Call.draw 3 2 (Context.of 0)
           (Transform.product 3 (Transform.product 2 (Transform.product 1 (Transform.of 0))))] ∧
      Call.draw 1 0 (Context.of 0) (Transform.of 0) ∉ w'.calls :=
  ⟨by decide, by decide, by decide, by decide, by decide, _, rfl, by decide, by decide⟩

/-- C20, amended: Groups define no `draw` of their own, the `draw` methods
of other objects change nothing on the heap but the trace, and the Groups
below `g` through visible children are fewer than `n` levels deep.  A call of
`draw` on the Group `g` returns; it changes only `drawCanvas` flags and the
trace, sets no flag, and leaves `drawCanvas` false on `g` and on every Group
reached from `g` through visible children; it calls `draw` on the children
that are visible and expose `draw`, in the order of the child list; and when
`g` is surface owning, whatever the arguments, each of these calls gets the
context of `g` and the transform `passedTransform`, which is `g` itself for a
child that is surface owning or not a `Matrix` and the product of the child
with `g` for another child. -/
theorem draw_clears_reached_groups_in_child_order (B : Own) (w : World) (n : Nat) (g : Ref)
    (c : Context) (m : Transform) (hB : ∀ r, w.isGroup r = true → B.draw r = none)
    (hI : ∀ r f, B.draw r = some f → ∀ c m v, ∃ t,
      f c m v = repaint v v.clearCanvas v.drawCanvas (v.calls ++ t))
    (hn : nestedWithin w n g = true) :
    ∃ dc below,
      draw B n g c m w
        = some (repaint w w.clearCanvas dc
            (w.calls ++ drawTrace w g (if w.useCanvas g then Context.of g else c)
              (if w.useCanvas g then Transform.of g else m) (drawnChildren B w g) below)) ∧
      below.length = (drawnChildren B w g).length ∧
      (∀ r, dc r = true → w.drawCanvas r = true) ∧
      (∀ r, Reaches w g r → dc r = false) ∧
      (w.useCanvas g = true →
        drawTrace w g (if w.useCanvas g then Context.of g else c)
            (if w.useCanvas g then Transform.of g else m) (drawnChildren B w g) below
          = (List.zipWith (fun o s =>
              Call.draw o g (Context.of g)
                (if !w.useCanvas o && w.isMatrix o then Transform.product o (Transform.of g)
                  else Transform.of g) :: s)
              (drawnChildren B w g) below).flatten) := by
  obtain ⟨dc, below, h1, h2, h3, h4⟩ :=
    draw_clears B w hB hI n g c m w.clearCanvas w.drawCanvas w.calls hn
  refine ⟨dc, below, h1, h2, h3, h4, ?_⟩
  intro hu
  rw [if_pos hu, if_pos hu]
  rfl

/-- Witness for C20 as amended: the root at 0 over the chain of Groups 1, 2, 3,
none of which defines `draw` itself. -/
theorem draw_clears_reached_groups_in_child_order_witness :
    (∀ r, sceneChain.isGroup r = true → Own.none.draw r = none) ∧
    (∀ r f, Own.none.draw r = some f → ∀ c m v, ∃ t,
      f c m v = repaint v v.clearCanvas v.drawCanvas (v.calls ++ t)) ∧
    nestedWithin sceneChain 4 0 = true ∧
    ∃ dc below,
      draw Own.none 4 0 Context.undefined Transform.undefined sceneChain
        = some (repaint sceneChain sceneChain.clearCanvas dc
            (sceneChain.calls ++ drawTrace sceneChain 0
              (if sceneChain.useCanvas 0 then Context.of 0 else Context.undefined)
              (if sceneChain.useCanvas 0 then Transform.of 0 else Transform.undefined)
              (drawnChildren Own.none sceneChain 0) below)) ∧
      below.length = (drawnChildren Own.none sceneChain 0).length ∧
      (∀ r, dc r = true → sceneChain.drawCanvas r = true) ∧
      (∀ r, Reaches sceneChain 0 r → dc r = false) ∧
      (sceneChain.useCanvas 0 = true →
        drawTrace sceneChain 0
            (if sceneChain.useCanvas 0 then Context.of 0 else Context.undefined)
            (if sceneChain.useCanvas 0 then Transform.of 0 else Transform.undefined)
            (drawnChildren Own.none sceneChain 0) below
          = (List.zipWith (fun o s =>
              Call.draw o 0 (Context.of 0)
                (if !sceneChain.useCanvas o && sceneChain.isMatrix o then
                  Transform.product o (Transform.of 0)
                  else Transform.of 0) :: s)
              (drawnChildren Own.none sceneChain 0) below).flatten) :=
  ⟨fun _ _ => rfl, fun _ _ h => absurd h (by simp [Own.none]), by decide,
    draw_clears_reached_groups_in_child_order Own.none sceneChain 4 0 Context.undefined
      Transform.undefined (fun _ _ => rfl) (fun _ _ h => absurd h (by simp [Own.none]))
      (by decide)⟩

end DrawTraversal

section Traversals

theorem steppedBy_append (self : Ref) :
    ∀ (s t : List Call), steppedBy self (s ++ t) = steppedBy self s ++ steppedBy self t
  | [], _ => rfl
  | x :: s, t => by
    have ih := steppedBy_append self s t
    show steppedBy self (x :: (s ++ t)) = steppedBy self (x :: s) ++ steppedBy self t
    cases x <;> simp only [steppedBy, ih]
    split <;> rfl

theorem drawnBy_append (self : Ref) :
    ∀ (s t : List Call), drawnBy self (s ++ t) = drawnBy self s ++ drawnBy self t
  | [], _ => rfl
  | x :: s, t => by
    have ih := drawnBy_append self s t
    show drawnBy self (x :: (s ++ t)) = drawnBy self (x :: s) ++ drawnBy self t
    cases x <;> simp only [drawnBy, ih]
    split <;> rfl

theorem honest_refl (self : Ref) (w : World) : Honest self w w :=
  ⟨rfl, rfl, rfl, [], by simp, rfl, rfl⟩

theorem honest_trans {self : Ref} {w₁ w₂ w₃ : World} (h₁ : Honest self w₁ w₂)
    (h₂ : Honest self w₂ w₃) : Honest self w₁ w₃ := by
  obtain ⟨a1, b1, c1, t1, e1, s1, d1⟩ := h₁
  obtain ⟨a2, b2, c2, t2, e2, s2, d2⟩ := h₂
  refine ⟨a2.trans a1, b2.trans b1, c2.trans c1, t1 ++ t2, ?_, ?_, ?_⟩
  · rw [e2, e1, List.append_assoc]
  · rw [steppedBy_append, s1, s2]; rfl
  · rw [drawnBy_append, d1, d2]; rfl

theorem honest_detach (s self object : Ref) (w : World) : Honest s w (detach self object w) :=
  ⟨rfl, rfl, rfl, [], by simp [detach], rfl, rfl⟩

theorem honest_attach (s self object : Ref) (w : World) : Honest s w (attach self object w) :=
  ⟨rfl, rfl, rfl, [], by simp [attach], rfl, rfl⟩

theorem honest_sort (s self : Ref) (w : World) : Honest s w (sort self w) :=
  ⟨rfl, rfl, rfl, [], by simp [sort], rfl, rfl⟩

theorem honest_init_call (s object parent : Ref) (w : World) :
    Honest s w (w.record (Call.init object parent)) :=
  ⟨rfl, rfl, rfl, [Call.init object parent], rfl, rfl, rfl⟩

theorem honest_remove_call (s object parent : Ref) (w : World) :
    Honest s w (w.record (Call.remove object parent)) :=
  ⟨rfl, rfl, rfl, [Call.remove object parent], rfl, rfl, rfl⟩

theorem honest_callInit (s self object : Ref) (w : World) :
    Honest s w (callInit self object w) := by
  unfold callInit
  split
  · exact honest_trans (honest_init_call s object self w)
      ⟨rfl, rfl, rfl, [], by simp [init], rfl, rfl⟩
  · exact honest_init_call s object self w

theorem honest_addOne (s self : Ref) (w : World) (object : Ref) :
    Honest s w (addOne self w object) := by
  unfold addOne
  split
  · exact honest_refl s w
  · split
    · exact honest_trans (honest_attach s self object w) (honest_callInit s self object _)
    · exact honest_attach s self object w

theorem honest_add (s self : Ref) : ∀ (objects : List Ref) (w : World),
    Honest s w (add self objects w) := by
  have key : ∀ (objects : List Ref) (w : World), Honest s w (objects.foldl (addOne self) w) := by
    intro objects
    induction objects with
    | nil => intro w; exact honest_refl s w
    | cons o rest ih => intro w; exact honest_trans (honest_addOne s self w o) (ih _)
  intro objects w
  exact honest_trans (key objects w) (honest_sort s self _)

theorem honest_removeWith (s : Ref) (hook : Ref → Ref → World → Option World)
    (hh : ∀ o p v v', hook o p v = some v' → Honest s v v') (self : Ref) :
    ∀ (objects : List Ref) (w w' : World), removeWith hook self objects w = some w' →
      Honest s w w'
  | [], w, w', h => by
    simp only [removeWith, Option.some.injEq] at h
    subst h
    exact honest_refl s w
  | o :: rest, w, w', h => by
    rw [removeWith] at h
    split at h
    · split at h
      · cases hk : hook o self ((detach self o w).record (Call.remove o self)) with
        | none => rw [hk] at h; simp at h
        | some u =>
          rw [hk, Option.some_bind] at h
          exact honest_trans
            (honest_trans (honest_detach s self o w) (honest_remove_call s o self _))
            (honest_trans (hh _ _ _ _ hk) (honest_removeWith s hook hh self rest u w' h))
      · exact honest_trans (honest_detach s self o w)
          (honest_removeWith s hook hh self rest _ w' h)
    · exact honest_removeWith s hook hh self rest w w' h

theorem honest_remove (s : Ref) : ∀ (fuel : Nat) (self : Ref) (objects : List Ref)
    (w w' : World), remove fuel self objects w = some w' → Honest s w w'
  | 0, _, _, _, _, h => by simp [remove] at h
  | fuel + 1, self, objects, w, w', h => by
    rw [remove_succ] at h
    refine honest_removeWith s _ ?_ self objects w w' h
    intro o p v v' hv
    split at hv
    · exact honest_remove s fuel o [p] v v' hv
    · simp only [Option.some.injEq] at hv
      subst hv
      exact honest_refl s v

theorem honest_removeThenAdd (s group gone added : Ref) (w : World) :
    Honest s w (removeThenAdd group gone added w) := by
  unfold removeThenAdd
  cases h : remove 2 group [gone] w with
  | none => exact honest_add s group [added] w
  | some u => exact honest_trans (honest_remove s 2 group [gone] w u h) (honest_add s group [added] u)

theorem visitChildren_visits_all (guard : World → Ref → Bool)
    (handler : Ref → Option (World → Bool × World)) :
    ∀ (entries : List (Nat × Ref)) (w : World),
      (∀ e ∈ entries, ∀ h, handler e.2 = some h → ∀ v,
        (h v).1 = false ∧ ∀ o, guard (h v).2 o = guard v o) →
      (visitChildren guard handler entries w).2.map (fun v => (v.index, v.object))
        = entries.filter fun e => guard w e.2 && (handler e.2).isSome
  | [], _, _ => rfl
  | (i, o) :: rest, w, hq => by
    have hr : ∀ e ∈ rest, ∀ h, handler e.2 = some h → ∀ v,
        (h v).1 = false ∧ ∀ o, guard (h v).2 o = guard v o :=
      fun e he => hq e (List.mem_cons_of_mem _ he)
    cases hh : handler o with
    | none =>
      have e1 : visitChildren guard handler ((i, o) :: rest) w
          = visitChildren guard handler rest w := by
        rw [visitChildren, hh]
        cases guard w o <;> rfl
      rw [e1, visitChildren_visits_all guard handler rest w hr,
        List.filter_cons_of_neg (by simp [hh])]
    | some h =>
      cases hg : guard w o with
      | false =>
        have e1 : visitChildren guard handler ((i, o) :: rest) w
            = visitChildren guard handler rest w := by
          rw [visitChildren, hh, hg]
        rw [e1, visitChildren_visits_all guard handler rest w hr,
          List.filter_cons_of_neg (by simp [hg])]
      | true =>
        obtain ⟨hf, hgd⟩ := hq (i, o) (List.mem_cons_self _ _) h hh w
        have e1 : visitChildren guard handler ((i, o) :: rest) w
            = ((visitChildren guard handler rest (h w).2).1,
                ⟨i, o, w, false⟩ :: (visitChildren guard handler rest (h w).2).2) := by
          rw [visitChildren, hh, hg]
          simp only [hf, Bool.false_eq_true, if_false]
        have e2 : (fun e : Nat × Ref => guard (h w).2 e.2 && (handler e.2).isSome)
            = fun e => guard w e.2 && (handler e.2).isSome := by
          funext e
          rw [hgd]
        rw [e1, List.filter_cons_of_pos (by simp [hg, hh]), List.map_cons,
          visitChildren_visits_all guard handler rest (h w).2 hr, e2]

theorem topmostFirst_filter (objects : List Ref) (p : Ref → Bool) :
    ((topmostFirst objects).filter fun e => p e.2).map (fun e => e.2)
      = objects.reverse.filter p := by
  have h : (fun e : Nat × Ref => p e.2) = p ∘ fun e : Nat × Ref => e.2 := rfl
  rw [h, ← List.filter_map, topmostFirst, List.map_reverse]
  have h2 : objects.enum.map (fun e => e.2) = objects := List.enum_map_snd objects
  rw [h2]

theorem stepLoop_snapshot (cs : Ref → Int → Ref → World → Option World) (B : Own)
    (self : Ref) (dt : Int) :
    ∀ (l : List Ref) (w : World),
      (∀ o ∈ l, ∀ v, ∃ v', cs o dt self v = some v' ∧ Honest self v v') →
      ∃ w' t, stepLoop cs B self dt l w = some w' ∧ w'.active = w.active ∧
        w'.isGroup = w.isGroup ∧ w'.calls = w.calls ++ t ∧
        steppedBy self t = l.filter fun o => w.active o && exposesStep B w o
  | [], w, _ => ⟨w, [], rfl, rfl, rfl, by simp, rfl⟩
  | o :: rest, w, hq => by
    have hr : ∀ o' ∈ rest, ∀ v, ∃ v', cs o' dt self v = some v' ∧ Honest self v v' :=
      fun o' ho' => hq o' (List.mem_cons_of_mem _ ho')
    by_cases hvis : (w.active o && exposesStep B w o) = true
    · have hcall : ∃ v0, stepLoop cs B self dt (o :: rest) w
            = (cs o dt self v0).bind (stepLoop cs B self dt rest) ∧
          v0.active = w.active ∧ v0.isGroup = w.isGroup ∧
          v0.calls = w.calls ++ [Call.step o self dt] := by
        by_cases hgr : (w.isGroup o && !w.useCanvas o) = true
        · obtain ⟨cc, dc, e, _⟩ := propagate_eq self o w (Call.step o self dt)
          refine ⟨(propagateDraw self o (propagateClear self o w)).record (Call.step o self dt),
            ?_, ?_, ?_, ?_⟩
          · rw [stepLoop, if_pos hvis, if_pos hgr]
          · rw [e]; rfl
          · rw [e]; rfl
          · rw [e]; rfl
        · refine ⟨w.record (Call.step o self dt), ?_, rfl, rfl, rfl⟩
          rw [stepLoop, if_pos hvis, if_neg hgr]
      obtain ⟨v0, e0, a0, g0, c0⟩ := hcall
      obtain ⟨v1, e1, a1, _, g1, t1, c1, s1, _⟩ := hq o (List.mem_cons_self _ _) v0
      obtain ⟨w', t, e2, a2, g2, c2, s2⟩ := stepLoop_snapshot cs B self dt rest v1 hr
      have hfun : (fun o => v1.active o && exposesStep B v1 o)
          = fun o => w.active o && exposesStep B w o := by
        funext x
        unfold exposesStep
        rw [a1, a0, g1, g0]
      refine ⟨w', Call.step o self dt :: (t1 ++ t), ?_, ?_, ?_, ?_, ?_⟩
      · rw [e0, e1, Option.some_bind, e2]
      · rw [a2, a1, a0]
      · rw [g2, g1, g0]
      · rw [c2, c1, c0]
        simp
      · have hf : ((o :: rest).filter fun o => w.active o && exposesStep B w o)
            = o :: rest.filter fun o => w.active o && exposesStep B w o :=
          List.filter_cons_of_pos hvis
        rw [hf]
        simp only [steppedBy, if_true]
        rw [steppedBy_append, s1, s2, hfun]
        rfl
    · obtain ⟨w', t, e2, a2, g2, c2, s2⟩ := stepLoop_snapshot cs B self dt rest w hr
      refine ⟨w', t, ?_, a2, g2, c2, ?_⟩
      · rw [stepLoop, if_neg hvis, e2]
      · have hf : ((o :: rest).filter fun o => w.active o && exposesStep B w o)
            = rest.filter fun o => w.active o && exposesStep B w o :=
          List.filter_cons_of_neg hvis
        rw [hf, s2]

theorem drawLoop_snapshot (cd : Ref → Context → Transform → World → Option World) (B : Own)
    (self : Ref) (c : Context) (m : Transform) :
    ∀ (l : List Ref) (w : World),
      (∀ o ∈ l, ∀ c' m' v, ∃ v', cd o c' m' v = some v' ∧ Honest self v v') →
      ∃ w' t, drawLoop cd B self c m l w = some w' ∧ w'.visible = w.visible ∧
        w'.isGroup = w.isGroup ∧ w'.calls = w.calls ++ t ∧
        drawnBy self t = l.filter fun o => w.visible o && exposesDraw B w o
  | [], w, _ => ⟨w, [], rfl, rfl, rfl, by simp, rfl⟩
  | o :: rest, w, hq => by
    have hr : ∀ o' ∈ rest, ∀ c' m' v, ∃ v', cd o' c' m' v = some v' ∧ Honest self v v' :=
      fun o' ho' => hq o' (List.mem_cons_of_mem _ ho')
    by_cases hvis : (w.visible o && exposesDraw B w o) = true
    · have e0 := drawLoop_cons cd B self c m o rest w
      rw [if_pos hvis] at e0
      obtain ⟨v1, e1, _, a1, g1, t1, c1, _, d1⟩ := hq o (List.mem_cons_self _ _) c
        (passedTransform w o m) (w.record (Call.draw o self c (passedTransform w o m)))
      obtain ⟨w', t, e2, a2, g2, c2, s2⟩ := drawLoop_snapshot cd B self c m rest v1 hr
      have hfun : (fun o => v1.visible o && exposesDraw B v1 o)
          = fun o => w.visible o && exposesDraw B w o := by
        funext x
        unfold exposesDraw
        rw [a1, g1]
        rfl
      refine ⟨w', Call.draw o self c (passedTransform w o m) :: (t1 ++ t), ?_, ?_, ?_, ?_, ?_⟩
      · rw [e0, e1, Option.some_bind, e2]
      · rw [a2, a1]; rfl
      · rw [g2, g1]; rfl
      · rw [c2, c1]
        simp [World.record]
      · have hf : ((o :: rest).filter fun o => w.visible o && exposesDraw B w o)
            = o :: rest.filter fun o => w.visible o && exposesDraw B w o :=
          List.filter_cons_of_pos hvis
        rw [hf]
        simp only [drawnBy, if_true]
        rw [drawnBy_append, d1, s2, hfun]
        rfl
    · obtain ⟨w', t, e2, a2, g2, c2, s2⟩ := drawLoop_snapshot cd B self c m rest w hr
      refine ⟨w', t, ?_, a2, g2, c2, ?_⟩
      · rw [drawLoop_cons, if_neg hvis, e2]
      · have hf : ((o :: rest).filter fun o => w.visible o && exposesDraw B w o)
            = rest.filter fun o => w.visible o && exposesDraw B w o :=
          List.filter_cons_of_neg hvis
        rw [hf, s2]

/-- C18: the `keyDown` dispatch, the loop of `step` and the loop of `draw` of
a Group `self`, with callbacks that may change the child lists in any way.
Every child that `keyDown` invokes is the child at its index in the child list
as it was when the method was called.  When no handler returns a truthy value
and the handlers leave `active` as it is, the children invoked are those of
that list, last first, that are active and expose the handler.  When the
`step` calls on the children return and leave `active` and the classes as
they are, and make no `step` call in the name of `self`, the `step` calls of
`self` go to the children of the list at the start that are active and expose
`step`, in the order of the list; likewise for `draw` and `visible`.  A child
removed meanwhile is therefore still called, and an object added meanwhile is
not. -/
theorem traversals_run_over_child_list_at_start (H : Handlers) (B : Own) (fuel : Nat)
    (self : Ref) (key : KeyEvent) (dt : Int) (c : Context) (m : Transform) (w : World)
    (hkey : ∀ o ∈ w.objects self, ∀ h, H.keyDown o = some h → ∀ v,
      (h key self v).1 = false ∧ (h key self v).2.active = v.active)
    (hstep : ∀ o ∈ w.objects self, ∀ v, ∃ v',
      callStep B (step B fuel) o dt self v = some v' ∧ Honest self v v')
    (hdraw : ∀ o ∈ w.objects self, ∀ c' m' v, ∃ v',
      callDraw B (draw B fuel) o c' m' v = some v' ∧ Honest self v v') :
    (∀ v ∈ (keyDown H self key w).2, (w.objects self)[v.index]? = some v.object) ∧
    ((keyDown H self key w).2.map fun v => v.object)
      = (w.objects self).reverse.filter (fun o => w.active o && (H.keyDown o).isSome) ∧
    (∃ w' t, stepLoop (callStep B (step B fuel)) B self dt (w.objects self) w = some w' ∧
      w'.calls = w.calls ++ t ∧
      steppedBy self t = (w.objects self).filter fun o => w.active o && exposesStep B w o) ∧
    (∃ w' t, drawLoop (callDraw B (draw B fuel)) B self c m (w.objects self) w = some w' ∧
      w'.calls = w.calls ++ t ∧
      drawnBy self t = (w.objects self).filter fun o => w.visible o && exposesDraw B w o) := by
  refine ⟨?_, ?_, ?_, ?_⟩
  · intro v hv
    have hf : FirstMatch (w.objects self) _ _ (keyDown H self key w).2 :=
      dispatch_firstMatch (fun v o => v.active o)
        (fun o => (H.keyDown o).map
          fun (h : KeyEvent → Ref → World → Bool × World) => h key self) (w.objects self) w
    exact (hf.2.1 v hv).1
  · have h1 := visitChildren_visits_all (fun v o => v.active o)
      (fun o => (H.keyDown o).map fun h => h key self) (topmostFirst (w.objects self)) w
      (by
        intro e he h hh v
        have hh : (H.keyDown e.2).map (fun h => h key self) = some h := hh
        have hmem : e.2 ∈ w.objects self :=
          List.snd_mem_of_mem_enum (List.mem_reverse.mp he)
        cases hk : H.keyDown e.2 with
        | none => rw [hk] at hh; exact absurd hh (by simp)
        | some f =>
          rw [hk] at hh
          simp only [Option.map_some', Option.some.injEq] at hh
          subst hh
          obtain ⟨a, b⟩ := hkey e.2 hmem f hk v
          exact ⟨a, fun o => congrFun b o⟩)
    have h2 : ((keyDown H self key w).2.map fun v => v.object)
        = ((visitChildren (fun v o => v.active o)
            (fun o => (H.keyDown o).map fun h => h key self)
            (topmostFirst (w.objects self)) w).2.map fun v => (v.index, v.object)).map
              fun e => e.2 := by
      rw [List.map_map]
      rfl
    rw [h2, h1]
    have h3 := topmostFirst_filter (w.objects self)
      (fun o => w.active o && ((H.keyDown o).map fun h => h key self).isSome)
    rw [h3]
    congr 1
    funext o
    rw [Option.isSome_map']
  · obtain ⟨w', t, e, _, _, hc, hs⟩ := stepLoop_snapshot (callStep B (step B fuel)) B self dt
      (w.objects self) w hstep
    exact ⟨w', t, e, hc, hs⟩
  · obtain ⟨w', t, e, _, _, hc, hs⟩ := drawLoop_snapshot (callDraw B (draw B fuel)) B self c m
      (w.objects self) w hdraw
    exact ⟨w', t, e, hc, hs⟩

theorem editing_keyDown_frame (group editor gone added self : Ref) (key : KeyEvent) :
    ∀ o ∈ sceneFifthObject.objects self, ∀ h,
      (Handlers.editing group editor gone added).keyDown o = some h → ∀ v,
        (h key self v).1 = false ∧ (h key self v).2.active = v.active := by
  intro o _ h hh v
  simp only [Handlers.editing, Option.some.injEq] at hh
  subst hh
  refine ⟨rfl, ?_⟩
  dsimp only
  split
  · exact (honest_removeThenAdd self group gone added v).1
  · rfl

theorem editing_step_honest (editor gone added : Ref) (fuel : Nat) (dt : Int) :
    ∀ o ∈ sceneFifthObject.objects 0, ∀ v, ∃ v',
      callStep (Own.editing 0 editor gone added) (step (Own.editing 0 editor gone added) fuel)
        o dt 0 v = some v' ∧ Honest 0 v v' := by
  intro o ho v
  have hne : o ≠ 0 := by
    intro h
    subst h
    exact absurd ho (by decide)
  unfold callStep
  simp only [Own.editing, if_neg hne]
  refine ⟨_, rfl, ?_⟩
  split
  · exact honest_removeThenAdd 0 0 gone added v
  · exact honest_refl 0 v

theorem editing_draw_honest (editor gone added : Ref) (fuel : Nat) :
    ∀ o ∈ sceneFifthObject.objects 0, ∀ c' m' v, ∃ v',
      callDraw (Own.editing 0 editor gone added) (draw (Own.editing 0 editor gone added) fuel)
        o c' m' v = some v' ∧ Honest 0 v v' := by
  intro o ho c' m' v
  have hne : o ≠ 0 := by
    intro h
    subst h
    exact absurd ho (by decide)
  unfold callDraw
  simp only [Own.editing, if_neg hne]
  refine ⟨_, rfl, ?_⟩
  split
  · exact honest_removeThenAdd 0 0 gone added v
  · exact honest_refl 0 v

/-- Witness for C18: the Group at 0 with the children 1, 2, 3, 4 and the object
at 5 not yet added.  The `keyDown` handler of the child 4 removes the child 2
and adds the object 5; the `step` and `draw` methods of the child 1 remove the
child 3 and add the object 5. -/
theorem traversals_run_over_child_list_at_start_witness :
    (∀ o ∈ sceneFifthObject.objects 0, ∀ h, (Handlers.editing 0 4 2 5).keyDown o = some h →
      ∀ v, (h KeyEvent.sample 0 v).1 = false ∧ (h KeyEvent.sample 0 v).2.active = v.active) ∧
    (∀ o ∈ sceneFifthObject.objects 0, ∀ v, ∃ v',
      callStep (Own.editing 0 1 3 5) (step (Own.editing 0 1 3 5) 0) o 16 0 v = some v' ∧
        Honest 0 v v') ∧
    (∀ o ∈ sceneFifthObject.objects 0, ∀ c' m' v, ∃ v',
      callDraw (Own.editing 0 1 3 5) (draw (Own.editing 0 1 3 5) 0) o c' m' v = some v' ∧
        Honest 0 v v') ∧
    (∀ v ∈ (keyDown (Handlers.editing 0 4 2 5) 0 KeyEvent.sample sceneFifthObject).2,
      (sceneFifthObject.objects 0)[v.index]? = some v.object) ∧
    ((keyDown (Handlers.editing 0 4 2 5) 0 KeyEvent.sample sceneFifthObject).2.map
        fun v => v.object)
      = (sceneFifthObject.objects 0).reverse.filter
          (fun o => sceneFifthObject.active o && ((Handlers.editing 0 4 2 5).keyDown o).isSome) ∧
    (∃ w' t, stepLoop (callStep (Own.editing 0 1 3 5) (step (Own.editing 0 1 3 5) 0))
        (Own.editing 0 1 3 5) 0 16 (sceneFifthObject.objects 0) sceneFifthObject = some w' ∧
      w'.calls = sceneFifthObject.calls ++ t ∧
      steppedBy 0 t = (sceneFifthObject.objects 0).filter
        fun o => sceneFifthObject.active o && exposesStep (Own.editing 0 1 3 5)
          sceneFifthObject o) ∧
    (∃ w' t, drawLoop (callDraw (Own.editing 0 1 3 5) (draw (Own.editing 0 1 3 5) 0))
        (Own.editing 0 1 3 5) 0 (Context.of 0) (Transform.of 0) (sceneFifthObject.objects 0)
        sceneFifthObject = some w' ∧
      w'.calls = sceneFifthObject.calls ++ t ∧
      drawnBy 0 t = (sceneFifthObject.objects 0).filter
        fun o => sceneFifthObject.visible o && exposesDraw (Own.editing 0 1 3 5)
          sceneFifthObject o) :=
  ⟨editing_keyDown_frame 0 4 2 5 0 KeyEvent.sample, editing_step_honest 1 3 5 0 16,
    editing_draw_honest 1 3 5 0,
    traversals_run_over_child_list_at_start (Handlers.editing 0 4 2 5) (Own.editing 0 1 3 5) 0 0
      KeyEvent.sample 16 (Context.of 0) (Transform.of 0) sceneFifthObject
      (editing_keyDown_frame 0 4 2 5 0 KeyEvent.sample) (editing_step_honest 1 3 5 0 16)
      (editing_draw_honest 1 3 5 0)⟩

/-- Runs of the three traversals on the Group at 0 with the children 1, 2, 3,
4.  The `keyDown` handler of 4, invoked first, removes 2 and adds 5: the
dispatch still invokes 3, 2, 1 and not 5, and the next dispatch invokes 4, 3,
5, 1.  The `step` of 1, called first, removes 3 and adds 5: the loop of
`step` still calls 2, 3, 4 and not 5, and the `draw` that follows calls 1, 2,
5, 4.  Likewise the `draw` of 1 for a call of `draw`. -/
theorem traversal_runs_with_editing_callbacks :
    ((keyDown (Handlers.editing 0 4 2 5) 0 KeyEvent.sample sceneFifthObject).2.map
      fun v => v.object) = [4, 3, 2, 1] ∧
    (keyDown (Handlers.editing 0 4 2 5) 0 KeyEvent.sample sceneFifthObject).1.objects 0
      = [1, 5, 3, 4] ∧
    ((keyDown (Handlers.editing 0 4 2 5) 0 KeyEvent.sample
        (keyDown (Handlers.editing 0 4 2 5) 0 KeyEvent.sample sceneFifthObject).1).2.map
      fun v => v.object) = [4, 3, 5, 1] ∧
    (∃ w', step (Own.editing 0 1 3 5) 2 0 16 sceneFifthObject = some w' ∧
      steppedBy 0 w'.calls = [1, 2, 3, 4] ∧ w'.objects 0 = [1, 2, 5, 4] ∧
      drawnBy 0 w'.calls = [1, 2, 5, 4]) ∧
    (∃ w', draw (Own.editing 0 1 3 5) 1 0 Context.undefined Transform.undefined
        sceneFifthObject = some w' ∧
      drawnBy 0 w'.calls = [1, 2, 3, 4] ∧ w'.objects 0 = [1, 2, 5, 4]) :=
  ⟨by decide, by decide, by decide, ⟨_, rfl, by decide, by decide, by decide⟩,
    ⟨_, rfl, by decide, by decide⟩⟩

end Traversals

section ChainOfGroups

theorem stepLoop_single_group (B : Own) (cs : Ref → Int → Ref → World → Option World)
    (self : Ref) (dt : Int) (o : Ref) (v : World) (hact : v.active o = true)
    (hg : v.isGroup o = true) (hu : v.useCanvas o = false) (hcl : v.clearCanvas o = false)
    (hac : v.autoClearCanvas o = false) (had : v.autoDrawCanvas o = false) :
    stepLoop cs B self dt [o] v
      = cs o dt self (repaint v v.clearCanvas
          (if v.drawCanvas o = true then upd (upd v.drawCanvas self true) o false
            else v.drawCanvas)
          (v.calls ++ [Call.step o self dt])) := by
  have h1 : (v.active o && exposesStep B v o) = true := by simp [hact, exposesStep, hg]
  have h2 : (v.isGroup o && !v.useCanvas o) = true := by simp [hg, hu]
  have h3 : propagateClear self o v = v := by
    unfold propagateClear
    rw [hcl, hac]
    rfl
  have h4 : (propagateDraw self o v).record (Call.step o self dt)
      = repaint v v.clearCanvas
          (if v.drawCanvas o = true then upd (upd v.drawCanvas self true) o false
            else v.drawCanvas)
          (v.calls ++ [Call.step o self dt]) := by
    unfold propagateDraw
    rw [had, Bool.or_false]
    by_cases hd : v.drawCanvas o = true
    · rw [if_pos hd, if_pos hd]
      rfl
    · rw [if_neg hd, if_neg hd]
      rfl
  rw [stepLoop, if_pos h1, if_pos h2, h3, h4]
  cases cs o dt self _ <;> rfl

theorem chain_repaint {B : Own} {v : World} {c : Nat → Ref} {N : Nat} (h : Chain B v c N)
    (cc dc : Ref → Bool) (cs : List Call) : Chain B (repaint v cc dc cs) c N := h

theorem flagAt_after_move {v : World} {c : Nat → Ref} {N i j : Nat}
    (hinj : ∀ i j, i ≤ N → j ≤ N → c i = c j → i = j) (hi : i < N) (hf : FlagAt v c N j)
    (cs : List Call) :
    FlagAt (repaint v v.clearCanvas
        (if v.drawCanvas (c (i + 1)) = true then upd (upd v.drawCanvas (c i) true) (c (i + 1)) false
          else v.drawCanvas) cs) c N (if i + 1 = j then i else j) := by
  intro k hk
  refine ⟨(hf k hk).1, ?_⟩
  show (if v.drawCanvas (c (i + 1)) = true then upd (upd v.drawCanvas (c i) true) (c (i + 1)) false
      else v.drawCanvas) (c k) = _
  have hd := (hf (i + 1) (by omega)).2
  by_cases hj : i + 1 = j
  · rw [if_pos hj]
    have hd' : v.drawCanvas (c (i + 1)) = true := by rw [hd]; simp [hj]
    rw [if_pos hd', upd_apply]
    by_cases hk1 : k = i + 1
    · subst hk1
      rw [if_pos rfl]
      simp
    · have hck : c k ≠ c (i + 1) := fun h => hk1 (hinj k (i + 1) hk (by omega) h)
      rw [if_neg hck, upd_apply]
      by_cases hk2 : k = i
      · subst hk2
        rw [if_pos rfl]
        simp
      · have hck2 : c k ≠ c i := fun h => hk2 (hinj k i hk (by omega) h)
        rw [if_neg hck2, (hf k hk).2]
        have : k ≠ j := by omega
        simp [this, hk2]
  · rw [if_neg hj]
    have hd' : ¬ v.drawCanvas (c (i + 1)) = true := by rw [hd]; simp [hj]
    rw [if_neg hd']
    exact (hf k hk).2

theorem step_chain_inner (B : Own) (c : Nat → Ref) (N : Nat) (dt : Int) :
    ∀ (d i : Nat), i + d = N → 1 ≤ i → ∀ (F : Nat), d ≤ F → ∀ (v : World) (j : Nat), j ≤ N →
      Chain B v c N → FlagAt v c N j →
      ∃ cc dc t, step B (F + 1) (c i) dt v = some (repaint v cc dc (v.calls ++ t)) ∧
        FlagAt (repaint v cc dc (v.calls ++ t)) c N (if i < j then j - 1 else j) ∧
        ∀ x ∈ t, Call.isStep x = true
  | 0, i, hi, h1, F, _, v, j, hj, hc, hf => by
    have hiN : i = N := by omega
    subst hiN
    obtain ⟨_, _, _, hch, _, hlast⟩ := hc
    refine ⟨v.clearCanvas, v.drawCanvas, [], ?_, ?_, by simp⟩
    · rw [step_succ, hlast]
      simp [stepLoop, stepSurface, (hch i h1 le_rfl).1, repaint]
    · have hij : ¬ i < j := by omega
      rw [if_neg hij]
      exact hf
  | d + 1, i, hi, h1, 0, hF, _, _, _, _, _ => absurd hF (by omega)
  | d + 1, i, hi, h1, F + 1, hF, v, j, hj, hc, hf => by
    have hiN : i < N := by omega
    have hinj := hc.1
    have hst := hc.2.1 (i + 1) (by omega)
    have hch := hc.2.2.2.1 (i + 1) (by omega) (by omega)
    have hui := (hc.2.2.2.1 i h1 (by omega)).1
    have ho := hc.2.2.2.2.1 i hiN
    have hfi := hf (i + 1) (by omega)
    obtain ⟨cc, dc, t, e, hfl, ht⟩ := step_chain_inner B c N dt d (i + 1) (by omega)
      (by omega) F (by omega)
      (repaint v v.clearCanvas
        (if v.drawCanvas (c (i + 1)) = true then
          upd (upd v.drawCanvas (c i) true) (c (i + 1)) false
          else v.drawCanvas) (v.calls ++ [Call.step (c (i + 1)) (c i) dt]))
      (if i + 1 = j then i else j) (by split <;> omega) (chain_repaint hc _ _ _)
      (flagAt_after_move hinj hiN hf _)
    refine ⟨cc, dc, Call.step (c (i + 1)) (c i) dt :: t, ?_, ?_, ?_⟩
    · have e1 : step B (F + 1 + 1) (c i) dt v
          = (stepLoop (callStep B (step B (F + 1))) B (c i) dt [c (i + 1)] v).bind
              (stepSurface B (F + 1) (c i)) := by
        rw [← ho]
        rfl
      rw [e1, stepLoop_single_group B _ (c i) dt (c (i + 1)) v hch.2 hst.2.2.1 hch.1 hfi.1
        hst.2.2.2.1 hst.2.2.2.2,
        callStep_group B _ (c (i + 1)) dt (c i)
          (repaint v v.clearCanvas
            (if v.drawCanvas (c (i + 1)) = true then
              upd (upd v.drawCanvas (c i) true) (c (i + 1)) false
              else v.drawCanvas) (v.calls ++ [Call.step (c (i + 1)) (c i) dt]))
          hst.1 hst.2.2.1, e, Option.some_bind]
      unfold stepSurface
      have hu : (repaint v cc dc (v.calls ++ [Call.step (c (i + 1)) (c i) dt] ++ t)).useCanvas (c i)
          = false := hui
      have hcalls : v.calls ++ [Call.step (c (i + 1)) (c i) dt] ++ t
          = v.calls ++ Call.step (c (i + 1)) (c i) dt :: t := by simp
      simp only [repaint_repaint, repaint_calls]
      rw [hu, hcalls]
      rfl
    · have hjj : (if i + 1 < (if i + 1 = j then i else j) then (if i + 1 = j then i else j) - 1
          else (if i + 1 = j then i else j)) = if i < j then j - 1 else j := by
        split_ifs <;> omega
      rw [← hjj]
      exact hfl
    · intro x hx
      rcases List.mem_cons.mp hx with rfl | hx
      · rfl
      · exact ht x hx

theorem step_chain_root_quiet (B : Own) (c : Nat → Ref) (N : Nat) (dt : Int) (F : Nat)
    (hF : N ≤ F + 1) (v : World) (j : Nat) (hj2 : 2 ≤ j) (hjN : j ≤ N) (hc : Chain B v c N)
    (hf : FlagAt v c N j) :
    ∃ cc dc t, step B (F + 1 + 1) (c 0) dt v = some (repaint v cc dc (v.calls ++ t)) ∧
      FlagAt (repaint v cc dc (v.calls ++ t)) c N (j - 1) ∧
      ∀ x ∈ t, Call.isStep x = true := by
  have hN : 0 < N := by omega
  have hinj := hc.1
  have hst := hc.2.1 1 (by omega)
  have hst0 := hc.2.1 0 (by omega)
  have hch := hc.2.2.2.1 1 (by omega) (by omega)
  have hu0 := hc.2.2.1
  have ho := hc.2.2.2.2.1 0 hN
  have hfi := hf 1 (by omega)
  obtain ⟨cc, dc, t, e, hfl, ht⟩ := step_chain_inner B c N dt (N - 1) 1 (by omega)
    (by omega) F (by omega)
    (repaint v v.clearCanvas
      (if v.drawCanvas (c (0 + 1)) = true then
        upd (upd v.drawCanvas (c 0) true) (c (0 + 1)) false
        else v.drawCanvas) (v.calls ++ [Call.step (c (0 + 1)) (c 0) dt]))
    (if 0 + 1 = j then 0 else j) (by split <;> omega) (chain_repaint hc _ _ _)
    (flagAt_after_move hinj hN hf _)
  have hjj : (if 1 < (if 0 + 1 = j then 0 else j) then (if 0 + 1 = j then 0 else j) - 1
      else (if 0 + 1 = j then 0 else j)) = j - 1 := by
    split_ifs <;> omega
  rw [hjj] at hfl
  have hfl' : FlagAt (repaint v cc dc (v.calls ++ Call.step (c 1) (c 0) dt :: t)) c N (j - 1) :=
    hfl
  refine ⟨cc, dc, Call.step (c 1) (c 0) dt :: t, ?_, hfl', ?_⟩
  · have e1 : step B (F + 1 + 1) (c 0) dt v
        = (stepLoop (callStep B (step B (F + 1))) B (c 0) dt [c 1] v).bind
            (stepSurface B (F + 1) (c 0)) := by
      rw [← ho]
      rfl
    rw [e1, stepLoop_single_group B _ (c 0) dt (c 1) v hch.2 hst.2.2.1 hch.1 hfi.1
      hst.2.2.2.1 hst.2.2.2.2,
      callStep_group B _ (c 1) dt (c 0)
        (repaint v v.clearCanvas
          (if v.drawCanvas (c 1) = true then
            upd (upd v.drawCanvas (c 0) true) (c 1) false
            else v.drawCanvas) (v.calls ++ [Call.step (c 1) (c 0) dt]))
        hst.1 hst.2.2.1]
    have e' : step B (F + 1) (c 1) dt
        (repaint v v.clearCanvas
          (if v.drawCanvas (c 1) = true then
            upd (upd v.drawCanvas (c 0) true) (c 1) false
            else v.drawCanvas) (v.calls ++ [Call.step (c 1) (c 0) dt]))
        = some (repaint v cc dc (v.calls ++ [Call.step (c 1) (c 0) dt] ++ t)) := e
    have hcalls : v.calls ++ [Call.step (c 1) (c 0) dt] ++ t
        = v.calls ++ Call.step (c 1) (c 0) dt :: t := by simp
    rw [e', Option.some_bind, hcalls]
    have h0 := hfl' 0 (by omega)
    have hd0 : dc (c 0) = false := by
      have h2 : dc (c 0) = decide (0 = j - 1) := h0.2
      rw [h2, decide_eq_false_iff_not]
      omega
    have hc0 : cc (c 0) = false := h0.1
    simp [stepSurface, stepClear, stepDraw, repaint, hu0, hc0, hd0, hst0.2.2.2.1, hst0.2.2.2.2]
  · intro x hx
    rcases List.mem_cons.mp hx with rfl | hx
    · rfl
    · exact ht x hx

theorem chain_tame (B : Own) (c : Nat → Ref) (N : Nat) (v : World) (hc : Chain B v c N) :
    ∀ (d i : Nat), i + d = N → 1 ≤ i → ∀ k, d < k → Tame B v k (c i)
  | _, _, _, _, 0, hk => absurd hk (by omega)
  | 0, i, hi, h1, k + 1, _ => by
    have hiN : i = N := by omega
    subst hiN
    have hst := hc.2.1 i le_rfl
    refine ⟨hst.1, hst.2.1, hst.2.2.1, (hc.2.2.2.1 i h1 le_rfl).1, ?_⟩
    intro o ho
    rw [hc.2.2.2.2.2] at ho
    exact absurd ho (List.not_mem_nil _)
  | d + 1, i, hi, h1, k + 1, hk => by
    have hst := hc.2.1 i (by omega)
    refine ⟨hst.1, hst.2.1, hst.2.2.1, (hc.2.2.2.1 i h1 (by omega)).1, ?_⟩
    intro o ho
    rw [hc.2.2.2.2.1 i (by omega)] at ho
    rw [List.mem_singleton.mp ho]
    exact chain_tame B c N v hc d (i + 1) (by omega) (by omega) k (by omega)

theorem chain_descendants (B : Own) (c : Nat → Ref) (N : Nat) (v : World)
    (hc : Chain B v c N) :
    ∀ (k i : Nat), i ≤ N → ∀ r ∈ descendants v k (c i), ∃ m, i ≤ m ∧ m ≤ N ∧ r = c m
  | 0, i, hi, r, hr => ⟨i, le_rfl, hi, List.mem_singleton.mp hr⟩
  | k + 1, i, hi, r, hr => by
    simp only [descendants, List.mem_cons, List.mem_flatMap] at hr
    rcases hr with rfl | ⟨o, ho, hro⟩
    · exact ⟨i, le_rfl, hi, rfl⟩
    · by_cases hiN : i < N
      · rw [hc.2.2.2.2.1 i hiN] at ho
        rw [List.mem_singleton.mp ho] at hro
        obtain ⟨m, h1, h2, h3⟩ := chain_descendants B c N v hc k (i + 1) (by omega) r hro
        exact ⟨m, by omega, h2, h3⟩
      · have hiN' : i = N := by omega
        subst hiN'
        rw [hc.2.2.2.2.2] at ho
        exact absurd ho (List.not_mem_nil _)

theorem step_chain_root_draws (B : Own) (c : Nat → Ref) (N : Nat) (dt : Int) (F : Nat)
    (hF : N ≤ F) (v : World) (hN : 1 ≤ N) (hc : Chain B v c N) (hf : FlagAt v c N 1) :
    ∃ v' t, step B (F + 2) (c 0) dt v = some v' ∧ v'.calls = v.calls ++ t ∧
      t.count (Call.drawSelf (c 0)) = 1 := by
  have hst0 := hc.2.1 0 (by omega)
  have ho : v.objects (c 0) = [c 1] := hc.2.2.2.2.1 0 (by omega)
  have ht : Tame B v F (c 1) := chain_tame B c N v hc (N - 1) 1 (by omega) le_rfl F (by omega)
  have hdirty : (v.drawCanvas (c 1) || v.autoDrawCanvas (c 1)) = true := by
    rw [(hf 1 hN).2]
    rfl
  have hnot : c 0 ∉ descendants v (F + 1) (c 1) := by
    intro hm
    obtain ⟨m, h1, h2, h3⟩ := chain_descendants B c N v hc (F + 1) 1 hN (c 0) hm
    have := hc.1 0 m (by omega) h2 h3
    omega
  obtain ⟨w', ts, tc, td, e, hcalls, hs, htc, hdr⟩ :=
    step_root_over_tame_child B F v (c 0) (c 1) dt hst0.2.1 hst0.2.2.1 hc.2.2.1 ho ht
      (hc.2.2.2.1 1 le_rfl hN).2 hdirty hnot
  refine ⟨w', _, e, hcalls, ?_⟩
  have n1 : Call.drawSelf (c 0) ∉ ts := count_eq_zero_of_isStep hs rfl
  have n2 : Call.drawSelf (c 0) ∉ td := count_eq_zero_of_isDraw hdr rfl
  have n3 : Call.drawSelf (c 0) ∉ tc := by
    rcases htc with h | h <;> rw [h] <;> simp
  simp [List.count_cons, List.count_append, List.count_eq_zero_of_not_mem n1,
    List.count_eq_zero_of_not_mem n2, List.count_eq_zero_of_not_mem n3]

theorem stepTimes_chain_quiet (B : Own) (c : Nat → Ref) (N : Nat) (dt : Int) (F : Nat)
    (hF : N ≤ F) (w : World) (hc : Chain B w c N) (hf : FlagAt w c N N) :
    ∀ k, k < N → ∃ cc dc t,
      stepTimes B (F + 2) (c 0) dt k w = some (repaint w cc dc (w.calls ++ t)) ∧
      FlagAt (repaint w cc dc (w.calls ++ t)) c N (N - k) ∧ ∀ x ∈ t, Call.isStep x = true
  | 0, _ => ⟨w.clearCanvas, w.drawCanvas, [], by simp [stepTimes, repaint], hf, by simp⟩
  | k + 1, hk => by
    obtain ⟨cc, dc, t, e, hfl, ht⟩ := stepTimes_chain_quiet B c N dt F hF w hc hf k (by omega)
    obtain ⟨cc', dc', t', e', hfl', ht'⟩ := step_chain_root_quiet B c N dt F (by omega)
      (repaint w cc dc (w.calls ++ t)) (N - k) (by omega) (by omega) (chain_repaint hc _ _ _) hfl
    refine ⟨cc', dc', t ++ t', ?_, ?_, ?_⟩
    · rw [stepTimes, e, Option.some_bind]
      have e2 : step B (F + 2) (c 0) dt (repaint w cc dc (w.calls ++ t))
          = some (repaint w cc' dc' (w.calls ++ t ++ t')) := e'
      rw [e2, List.append_assoc]
    · have hsub : N - (k + 1) = N - k - 1 := by omega
      rw [hsub, ← List.append_assoc]
      exact hfl'
    · intro x hx
      rcases List.mem_append.mp hx with h | h
      · exact ht x h
      · exact ht' x h

theorem propagateDraw_ors (v : World) (p o : Ref) (h : p ≠ o) :
    (propagateDraw p o v).drawCanvas p
        = (v.drawCanvas p || (v.drawCanvas o || v.autoDrawCanvas o)) ∧
      ((v.drawCanvas o || v.autoDrawCanvas o) = true →
        (propagateDraw p o v).drawCanvas o = false) := by
  unfold propagateDraw
  by_cases hd : (v.drawCanvas o || v.autoDrawCanvas o) = true
  · rw [if_pos hd, hd]
    refine ⟨?_, fun _ => ?_⟩
    · show upd (upd v.drawCanvas p true) o false p = _
      rw [upd_ne _ _ h, upd_same]
      simp
    · show upd (upd v.drawCanvas p true) o false o = false
      rw [upd_same]
  · rw [if_neg hd]
    refine ⟨?_, fun h' => absurd h' hd⟩
    rw [Bool.not_eq_true] at hd
    rw [hd, Bool.or_false]

/-- C16: a surface owning root `c 0` over the chain of `N` nested Groups
`c 1, ..., c N`, `N` at least 1, all active and not surface owning, none with
auto flags or `step` or `draw` of its own, all dirty flags of the chain being
clear except `drawCanvas` of the innermost Group `c N`.  For every `k` below
`N`, `k` successive calls of `step` on the root return, leave `drawCanvas` set
on `c (N - k)` only, and make `step` calls only, so that the `draw` of the root
is not invoked.  `N` successive calls return and invoke the `draw` of the root
exactly once.  Each move sets the flag of the parent to the disjunction of its
own flag and the flag of the child, and clears the flag of the child. -/
theorem chain_dirtiness_climbs_one_level_per_step (B : Own) (c : Nat → Ref) (N fuel : Nat)
    (dt : Int) (w : World) (hN : 1 ≤ N) (hc : Chain B w c N) (hf : FlagAt w c N N) :
    (∀ k, k < N → ∃ v t, stepTimes B (fuel + N + 2) (c 0) dt k w = some v ∧
      v.calls = w.calls ++ t ∧ FlagAt v c N (N - k) ∧ (∀ x ∈ t, Call.isStep x = true) ∧
      Call.drawSelf (c 0) ∉ t) ∧
    (∃ v t, stepTimes B (fuel + N + 2) (c 0) dt N w = some v ∧ v.calls = w.calls ++ t ∧
      t.count (Call.drawSelf (c 0)) = 1) ∧
    (∀ (v : World) (p o : Ref), p ≠ o →
      (propagateDraw p o v).drawCanvas p
          = (v.drawCanvas p || (v.drawCanvas o || v.autoDrawCanvas o)) ∧
        ((v.drawCanvas o || v.autoDrawCanvas o) = true →
          (propagateDraw p o v).drawCanvas o = false)) := by
  have hF : N ≤ fuel + N := by omega
  refine ⟨?_, ?_, propagateDraw_ors⟩
  · intro k hk
    obtain ⟨cc, dc, t, e, hfl, ht⟩ :=
      stepTimes_chain_quiet B c N dt (fuel + N) hF w hc hf k hk
    exact ⟨_, t, e, rfl, hfl, ht, count_eq_zero_of_isStep ht rfl⟩
  · obtain ⟨M, rfl⟩ : ∃ M, N = M + 1 := ⟨N - 1, by omega⟩
    obtain ⟨cc, dc, t, e, hfl, ht⟩ :=
      stepTimes_chain_quiet B c (M + 1) dt (fuel + (M + 1)) hF w hc hf M (by omega)
    have hone : M + 1 - M = 1 := by omega
    rw [hone] at hfl
    obtain ⟨v', t', e', hcalls, hcount⟩ := step_chain_root_draws B c (M + 1) dt
      (fuel + (M + 1)) hF (repaint w cc dc (w.calls ++ t)) hN (chain_repaint hc _ _ _) hfl
    refine ⟨v', t ++ t', ?_, ?_, ?_⟩
    · rw [stepTimes, e, Option.some_bind]
      exact e'
    · rw [hcalls]
      show w.calls ++ t ++ t' = w.calls ++ (t ++ t')
      rw [List.append_assoc]
    · have hno : Call.drawSelf (c 0) ∉ t := count_eq_zero_of_isStep ht rfl
      rw [List.count_append, hcount, List.count_eq_zero_of_not_mem hno]

theorem sceneChainInnerDirty_chain : Chain Own.none sceneChainInnerDirty (fun i => i) 3 := by
  refine ⟨fun _ _ _ _ h => h, ?_, by decide, ?_, ?_, by decide⟩
  · intro i hi
    interval_cases i <;> exact ⟨rfl, rfl, by decide, by decide, by decide⟩
  · intro i h1 hi
    interval_cases i <;> exact ⟨by decide, by decide⟩
  · intro i hi
    interval_cases i <;> decide

theorem sceneChainInnerDirty_flagAt : FlagAt sceneChainInnerDirty (fun i => i) 3 3 := by
  intro i hi
  interval_cases i <;> exact ⟨by decide, by decide⟩

/-- Witness for C16: the root at 0 over the chain of the Groups 1, 2, 3, with
`drawCanvas` set on the Group 3 only. -/
theorem chain_dirtiness_climbs_one_level_per_step_witness :
    1 ≤ 3 ∧ Chain Own.none sceneChainInnerDirty (fun i => i) 3 ∧
    FlagAt sceneChainInnerDirty (fun i => i) 3 3 ∧
    (∀ k, k < 3 → ∃ v t, stepTimes Own.none (0 + 3 + 2) 0 16 k sceneChainInnerDirty = some v ∧
      v.calls = sceneChainInnerDirty.calls ++ t ∧ FlagAt v (fun i => i) 3 (3 - k) ∧
      (∀ x ∈ t, Call.isStep x = true) ∧ Call.drawSelf 0 ∉ t) ∧
    (∃ v t, stepTimes Own.none (0 + 3 + 2) 0 16 3 sceneChainInnerDirty = some v ∧
      v.calls = sceneChainInnerDirty.calls ++ t ∧ t.count (Call.drawSelf 0) = 1) ∧
    (∀ (v : World) (p o : Ref), p ≠ o →
      (propagateDraw p o v).drawCanvas p
          = (v.drawCanvas p || (v.drawCanvas o || v.autoDrawCanvas o)) ∧
        ((v.drawCanvas o || v.autoDrawCanvas o) = true →
          (propagateDraw p o v).drawCanvas o = false)) :=
  ⟨by decide, sceneChainInnerDirty_chain, sceneChainInnerDirty_flagAt,
    chain_dirtiness_climbs_one_level_per_step Own.none (fun i => i) 3 0 16 sceneChainInnerDirty
      (by decide) sceneChainInnerDirty_chain sceneChainInnerDirty_flagAt⟩

/-- Runs of `step` on the root at 0 over the chain of the Groups 1, 2, 3 with
`drawCanvas` set on the Group 3 only: the flags `drawCanvas` of 0, 1, 2, 3 and
the number of calls of the `draw` of the root after one, two and three calls. -/
theorem chain_runs_of_step :
    ((stepTimes Own.none 5 0 16 1 sceneChainInnerDirty).map fun v =>
        ([0, 1, 2, 3].map v.drawCanvas, v.calls.count (Call.drawSelf 0)))
      = some ([false, false, true, false], 0) ∧
    ((stepTimes Own.none 5 0 16 2 sceneChainInnerDirty).map fun v =>
        ([0, 1, 2, 3].map v.drawCanvas, v.calls.count (Call.drawSelf 0)))
      = some ([false, true, false, false], 0) ∧
    ((stepTimes Own.none 5 0 16 3 sceneChainInnerDirty).map fun v =>
        ([0, 1, 2, 3].map v.drawCanvas, v.calls.count (Call.drawSelf 0)))
      = some ([false, false, false, false], 1) := by
  decide

end ChainOfGroups

end CAL
